import Mathlib

/-!
# idntag: the two-field tag editor (src/editor.cpp)

A shallow embedding of the UTF-8 helpers and of the key-event loop of
`Editor::Edit`, of the argument parsing and per-file processing of `main`
(src/main.cpp), of `Util::MakeReport` (src/util.cpp), of
`AcoustId::GetBestMatch` (src/acoustid.cpp) and of `Tag::SanitizeFileName`
(src/tag.cpp), followed by theorems about them.

Conventions of the embedding:

* a `std::string` is a `List Byte`, a byte being a `Fin 256` (the value of
  `static_cast<unsigned char>(s[i])`);
* `size_t` values are `Nat`, `int` values are `Int`; buffers are taken to be
  shorter than `2^31` bytes, so `static_cast<int>(s.size())` is the length
  itself, while `static_cast<size_t>` of a negative `int` wraps to `2^64 + i`;
  the subtractions `ComputeLayout` makes on the terminal size are 32-bit
  (`wrapInt`);
* the C library (`iswprint`, `wcwidth`, `wcrtomb`, `mbrtowc`) is a parameter
  `Libc`; the answers of the terminal (`get_wch`, `getmaxyx`) and of
  `AcoustId::Identify` are carried by the event that asks for them;
* `std::string::erase` and `std::string::insert` throw `std::out_of_range`
  when the position is past the end, which is the `thrown` result;
* the file system and the calls `main` makes for a file (`Tag::Read`,
  `AcoustId::Identify`, `Editor::Edit`, ...) are the parameters `MainEnv` and
  `FileEnv`; the calls that can exit by an exception (`Util::Exists`,
  `Util::ListFiles`, `AcoustId::Identify`, `Tag::MakePath`) return or throw, and
  an exception leaves `main`, which has no handler; `std::regex_replace` is
  modelled for the three patterns `SanitizeFileName` uses.
-/

namespace Idntag

/-! ## Data model -/

/-- One byte of a `std::string`, read as `unsigned char`. -/
abbrev Byte := Fin 256

/-- The C library functions the editor calls, for the locale set by `setlocale(LC_ALL, "")`. -/
structure Libc where
  /-- Result of `iswprint(wc) != 0`. -/
  iswprint : Nat → Bool
  /-- Result of `wcwidth(wc)`. -/
  wcwidth : Nat → Int
  /-- Result of `wcrtomb(buf, wc, &st)` from the initial state: `none` for `(size_t)-1`,
  otherwise the bytes written to `buf`. -/
  wcrtomb : Nat → Option (List Byte)
  /-- Result of `mbrtowc(&wc, p, n, &st)` from the initial state on the `n` bytes at `p`:
  the return value converted to `int`, and the wide character stored in `wc`. -/
  mbrtowc : List Byte → Int × Nat

/-- The struct `Editor::Field` of editor.h. -/
structure Field where
  label : String
  buf : List Byte
  cursor : Int
  y : Int
  x : Int
  w : Int
deriving DecidableEq, Repr

/-- The struct `Editor::Layout` of editor.h. -/
structure Layout where
  field_w : Int
  start_y : Int
  start_x : Int
deriving DecidableEq, Repr

/-- The local variables of `Editor::Edit` that live across iterations of the loop. -/
structure Session where
  artist : Field
  title : Field
  active : Int
  rows : Int
  cols : Int
  done : Bool
deriving DecidableEq, Repr

/-- One return of `get_wch`, together with what the terminal and the identification
service would answer if the handler of this event asked them. -/
structure Event where
  /-- Return code of `get_wch`. -/
  rc : Int
  /-- Wide character or key code stored by `get_wch`. -/
  wch : Nat
  /-- Terminal size `getmaxyx` reports, read on a resize only. -/
  rows : Int
  /-- Terminal size `getmaxyx` reports, read on a resize only. -/
  cols : Int
  /-- Outcome of `AcoustId::Identify`, read on Ctrl-D only: `none` for `false`,
  otherwise the artist and title it stored. -/
  identify : Option (List Byte × List Byte)
deriving DecidableEq, Repr

/-- What one iteration of the loop, or the loop as a whole, ends in. -/
inductive LoopResult where
  /-- The iteration completed; the loop tests `!done` next. -/
  | next (s : Session)
  /-- The statement `return false` of the Ctrl-C case was executed. -/
  | cancelled
  /-- A `std::out_of_range` exception left the function. -/
  | thrown
deriving DecidableEq, Repr

/-! ## Constants of ncurses.h and editor.cpp -/

def KEY_CODE_YES : Int := 256
def KEY_DOWN : Nat := 258
def KEY_UP : Nat := 259
def KEY_LEFT : Nat := 260
def KEY_RIGHT : Nat := 261
def KEY_HOME : Nat := 262
def KEY_BACKSPACE : Nat := 263
def KEY_F0 : Nat := 264
def KEY_F (n : Nat) : Nat := KEY_F0 + n
def KEY_DC : Nat := 330
def KEY_BTAB : Nat := 353
def KEY_END : Nat := 360
def KEY_RESIZE : Nat := 410

def KEY_CTRLA : Nat := 1
def KEY_CTRLC : Nat := 3
def KEY_CTRLD : Nat := 4
def KEY_CTRLE : Nat := 5
def KEY_CTRLK : Nat := 11
def KEY_CTRLU : Nat := 21
def KEY_CTRLX : Nat := 24

/-! ## Casts and `std::string` operations -/

/-- The cast `static_cast<size_t>(i)` of an `int`: a negative value wraps to `2^64 + i`. -/
def toSizeT (i : Int) : Nat := if 0 ≤ i then i.toNat else (2 ^ 64 + i).toNat

/-- The cast `static_cast<int>(n)` of a `size_t` below `2^31`. -/
def toInt (n : Nat) : Int := n

/-- The byte `static_cast<unsigned char>(s[i])`; `s[s.size()]` is the terminating NUL. -/
def byteAt (s : List Byte) (i : Nat) : Nat := (s.getD i 0).val

/-- `s.erase(pos, len)`: throws when `pos > s.size()`, else removes at most `len` bytes. -/
def strErase (s : List Byte) (pos len : Nat) : Option (List Byte) :=
  if pos > s.length then none else some (s.take pos ++ s.drop (pos + len))

/-- `s.erase(pos)`: throws when `pos > s.size()`, else removes everything from `pos`. -/
def strEraseToEnd (s : List Byte) (pos : Nat) : Option (List Byte) :=
  if pos > s.length then none else some (s.take pos)

/-- `s.insert(pos, str)`: throws when `pos > s.size()`. -/
def strInsert (s : List Byte) (pos : Nat) (str : List Byte) : Option (List Byte) :=
  if pos > s.length then none else some (s.take pos ++ str ++ s.drop pos)

/-! ## UTF-8 helper functions -/

/-- `WCharToUtf8`: the bytes `wcrtomb` wrote, or the empty string on failure. -/
def WCharToUtf8 (lc : Libc) (wc : Nat) : List Byte :=
  match lc.wcrtomb wc with
  | none => []
  | some bytes => if bytes.length > 0 then bytes else []

/-- `Utf8CharLen`: number of bytes of the UTF-8 character starting at `pos`. -/
def Utf8CharLen (s : List Byte) (pos : Nat) : Nat :=
  if pos ≥ s.length then 0
  else
    let c := byteAt s pos
    if c < 0x80 then 1
    else if c &&& 0xE0 = 0xC0 then (if pos + 1 < s.length then 2 else 1)
    else if c &&& 0xF0 = 0xE0 then (if pos + 2 < s.length then 3 else 1)
    else if c &&& 0xF8 = 0xF0 then (if pos + 3 < s.length then 4 else 1)
    else 1

/-- The do-while loop of `Utf8PrevChar`, entered with the value of `i` before `--i`. -/
def Utf8PrevCharLoop (s : List Byte) : Nat → Nat
  | 0 => 0
  | i + 1 =>
    if byteAt s i &&& 0xC0 ≠ 0x80 then i
    else if i > 0 then Utf8PrevCharLoop s i
    else 0

/-- `Utf8PrevChar`: start index of the UTF-8 character before `pos`. -/
def Utf8PrevChar (s : List Byte) (pos : Nat) : Nat :=
  if pos = 0 ∨ pos > s.length then 0 else Utf8PrevCharLoop s pos

/-- `Utf8CharWidth`: `wcwidth` of the sequence at `[pos, pos+len)`. Every caller passes
`len = Utf8CharLen s pos`, so the `len` bytes handed to `mbrtowc` lie inside `s`. -/
def Utf8CharWidth (lc : Libc) (s : List Byte) (pos len : Nat) : Int :=
  if len = 0 ∨ pos ≥ s.length then 0
  else
    let r := lc.mbrtowc ((s.drop pos).take len)
    if r.1 ≤ 0 then 1
    else
      let w := lc.wcwidth r.2
      if w < 0 then 1 else w

/-- The while loop of `Utf8DisplayWidth` from the state `(pos, width)`. The first argument
bounds the number of iterations; `Utf8DisplayWidthLoop_fuel` shows that `s.length - pos`
iterations always reach the exit `pos ≥ s.size()`. -/
def Utf8DisplayWidthLoop (lc : Libc) (s : List Byte) : Nat → Nat → Int → Int
  | 0, _, width => width
  | fuel + 1, pos, width =>
    if pos < s.length then
      let len := Utf8CharLen s pos
      let w := Utf8CharWidth lc s pos len
      Utf8DisplayWidthLoop lc s fuel (pos + len) (width + w)
    else width

/-- `Utf8DisplayWidth`: total display width (columns) of a full UTF-8 string. -/
def Utf8DisplayWidth (lc : Libc) (s : List Byte) : Int :=
  Utf8DisplayWidthLoop lc s s.length 0 0

/-! ## Layout -/

/-- The value a 32-bit `int` holds after an addition or subtraction whose mathematical
result is `x`: `x` itself when `-2^31 ≤ x < 2^31`, otherwise `x` wrapped around modulo
`2^32` (signed overflow is undefined behaviour in C++; the compiled code wraps). -/
def wrapInt (x : Int) : Int := (x + 2 ^ 31) % 2 ^ 32 - 2 ^ 31

/-- `Editor::ComputeLayout` on the `int` values `p_Rows` and `p_Cols`; `/` of C++
truncates toward zero, and the subtractions are 32-bit. -/
def ComputeLayout (p_Rows p_Cols : Int) : Layout :=
  let field_w := max 20 (min 70 (wrapInt (p_Cols - 5)))
  { field_w := field_w
    start_y := max 1 (wrapInt (p_Rows.tdiv 2 - 4))
    start_x := (wrapInt (p_Cols - field_w)).tdiv 2 }

/-- What `Editor::DrawStaticFrame` stores in the two fields (their geometry). -/
def DrawStaticFrame (p_Rows p_Cols : Int) (p_Artist p_Title : Field) : Field × Field :=
  let L := ComputeLayout p_Rows p_Cols
  let space : Int := if p_Rows > 8 then 1 else 0
  ({ p_Artist with y := L.start_y + 1, x := L.start_x, w := L.field_w },
   { p_Title with y := L.start_y + 3 + space, x := L.start_x, w := L.field_w })

/-! ## The event loop of `Editor::Edit` -/

/-- The reference `Field& cur = (active == 0) ? artist : title`. -/
def Session.cur (s : Session) : Field :=
  if s.active = 0 then s.artist else s.title

/-- Assignment through the reference `cur`. -/
def Session.setCur (s : Session) (f : Field) : Session :=
  if s.active = 0 then { s with artist := f } else { s with title := f }

/-- The statements shared by the cases that change focus:
`active = (active + 1) % 2` and the newly active field's cursor moved to its end. -/
def switchField (s : Session) : Session :=
  let active := (s.active + 1).tmod 2
  if active = 0 then
    { s with active := active, artist := { s.artist with cursor := toInt s.artist.buf.length } }
  else
    { s with active := active, title := { s.title with cursor := toInt s.title.buf.length } }

/-- The body shared by `KEY_BACKSPACE`, 127 and 8. -/
def backspace (s : Session) : LoopResult :=
  let cur := s.cur
  if cur.cursor > 0 then
    let curPos := toSizeT cur.cursor
    let start := Utf8PrevChar cur.buf curPos
    let len := curPos - start
    match strErase cur.buf start len with
    | none => .thrown
    | some b => .next (s.setCur { cur with buf := b, cursor := toInt start })
  else .next s

/-- The branch `rc == KEY_CODE_YES` of the loop body (function keys and resize). -/
def stepKey (s : Session) (ev : Event) : LoopResult :=
  let key := ev.wch
  let cur := s.cur
  if key = KEY_RESIZE then
    let fs := DrawStaticFrame ev.rows ev.cols s.artist s.title
    .next { s with rows := ev.rows, cols := ev.cols, artist := fs.1, title := fs.2 }
  else if key = KEY_LEFT then
    if cur.cursor > 0 then
      let newPos := Utf8PrevChar cur.buf (toSizeT cur.cursor)
      .next (s.setCur { cur with cursor := toInt newPos })
    else .next s
  else if key = KEY_RIGHT then
    if cur.cursor < toInt cur.buf.length then
      .next (s.setCur
        { cur with cursor := cur.cursor + toInt (Utf8CharLen cur.buf (toSizeT cur.cursor)) })
    else .next s
  else if key = KEY_UP ∨ key = KEY_BTAB then .next (switchField s)
  else if key = KEY_DOWN ∨ key = 9 then .next (switchField s)
  else if key = KEY_BACKSPACE then backspace s
  else if key = KEY_DC then
    if cur.cursor < toInt cur.buf.length then
      let curPos := toSizeT cur.cursor
      let len := Utf8CharLen cur.buf curPos
      match strErase cur.buf curPos len with
      | none => .thrown
      | some b => .next (s.setCur { cur with buf := b })
    else .next s
  else if key = KEY_F 10 then .next { s with done := true }
  else .next s

/-- The statements `int charWidth = wcwidth(wch); if (charWidth < 0) charWidth = 1;`. -/
def charWidth (lc : Libc) (wch : Nat) : Int :=
  if lc.wcwidth wch < 0 then 1 else lc.wcwidth wch

/-- The `default:` case of the character switch (text input). -/
def textInput (lc : Libc) (s : Session) (wch : Nat) : LoopResult :=
  let cur := s.cur
  if lc.iswprint wch then
    let curWidth := Utf8DisplayWidth lc cur.buf
    if curWidth + charWidth lc wch ≤ cur.w then
      let utf8 := WCharToUtf8 lc wch
      let pos := toSizeT cur.cursor
      match strInsert cur.buf pos utf8 with
      | none => .thrown
      | some b => .next (s.setCur { cur with buf := b, cursor := cur.cursor + toInt utf8.length })
    else .next s
  else .next s

/-- The `else` branch of the loop body (regular characters). -/
def stepChar (lc : Libc) (s : Session) (ev : Event) : LoopResult :=
  let wch := ev.wch
  let cur := s.cur
  if wch = KEY_CTRLC then .cancelled
  else if wch = KEY_CTRLD then
    match ev.identify with
    | some (idArtist, idTitle) =>
      .next { s with
        artist := { s.artist with buf := idArtist, cursor := toInt idArtist.length }
        title := { s.title with buf := idTitle, cursor := toInt idTitle.length }
        active := 0 }
    | none => .next s
  else if wch = KEY_CTRLX then .next { s with done := true }
  else if wch = KEY_CTRLA ∨ wch = KEY_HOME then .next (s.setCur { cur with cursor := 0 })
  else if wch = KEY_CTRLE ∨ wch = KEY_END then
    .next (s.setCur { cur with cursor := toInt cur.buf.length })
  else if wch = KEY_CTRLK then
    if cur.cursor < toInt cur.buf.length then
      match strEraseToEnd cur.buf (toSizeT cur.cursor) with
      | none => .thrown
      | some b => .next (s.setCur { cur with buf := b })
    else .next s
  else if wch = KEY_CTRLU then
    if cur.cursor > 0 then
      match strErase cur.buf 0 (toSizeT cur.cursor) with
      | none => .thrown
      | some b => .next (s.setCur { cur with buf := b, cursor := 0 })
    else .next s
  else if wch = 127 ∨ wch = 8 then backspace s
  else if wch = 10 ∨ wch = 13 then
    if s.active = 1 then .next { s with done := true }
    else .next { s with active := 1, title := { s.title with cursor := toInt s.title.buf.length } }
  else if wch = 9 then .next (switchField s)
  else textInput lc s wch

/-- One iteration of the loop `while (!done)` on the event `get_wch` delivers. -/
def step (lc : Libc) (s : Session) (ev : Event) : LoopResult :=
  if ev.rc = KEY_CODE_YES then stepKey s ev else stepChar lc s ev

/-- The state of `Editor::Edit` when the loop is first entered, on a terminal of
`rows` by `cols` cells. -/
def initSession (p_Artist p_Title : List Byte) (rows cols : Int) : Session :=
  let artist : Field :=
    { label := "Artist", buf := p_Artist, cursor := toInt p_Artist.length, y := 0, x := 0, w := 0 }
  let title : Field :=
    { label := "Title", buf := p_Title, cursor := toInt p_Title.length, y := 0, x := 0, w := 0 }
  let fs := DrawStaticFrame rows cols artist title
  { artist := fs.1, title := fs.2, active := 0, rows := rows, cols := cols, done := false }

/-- The loop `while (!done)` run on the events delivered so far: `next s` with
`s.done = false` means the loop is waiting in `get_wch`, with `s.done = true` that
it was left. -/
def runLoop (lc : Libc) (s : Session) : List Event → LoopResult
  | [] => .next s
  | ev :: evs =>
    if s.done then .next s
    else
      match step lc s ev with
      | .next s1 => runLoop lc s1 evs
      | r => r

/-! ## Predicates of the specification -/

/-- A UTF-8 continuation byte: the top two bits are 10, that is 0x80..0xBF. -/
def IsContinuation (c : Nat) : Prop := 0x80 ≤ c ∧ c ≤ 0xBF

instance (c : Nat) : Decidable (IsContinuation c) := by
  unfold IsContinuation
  infer_instance

/-! ## Well-formed UTF-8 and character boundaries -/

/-- The length a leading byte announces: 1 for 0xxxxxxx, 2 for 110xxxxx, 3 for 1110xxxx,
4 for 11110xxx, and 0 for a byte that cannot start a character. -/
def leadLength (c : Nat) : Nat :=
  if c < 0x80 then 1
  else if 0xC0 ≤ c ∧ c ≤ 0xDF then 2
  else if 0xE0 ≤ c ∧ c ≤ 0xEF then 3
  else if 0xF0 ≤ c ∧ c ≤ 0xF7 then 4
  else 0

/-- One UTF-8 encoded character, by shape: a leading byte followed by exactly the number
of continuation bytes it announces. Every character of well-formed UTF-8 in the sense of
the Unicode standard has this shape. -/
def IsUtf8Char : List Byte → Prop
  | [] => False
  | b :: t => leadLength b.val = t.length + 1 ∧ ∀ c ∈ t, IsContinuation c.val

/-- The string `s` is a sequence of characters of the class `C`. -/
def WellFormed (C : List Byte → Prop) (s : List Byte) : Prop :=
  ∃ chars : List (List Byte), (∀ ch ∈ chars, C ch) ∧ s = chars.flatten

/-- The string `s` is a sequence of characters of the class `C` and `o` is a character
boundary of it: the offset at which one of the characters starts, or the end of `s`. -/
def OnBoundary (C : List Byte → Prop) (s : List Byte) (o : Nat) : Prop :=
  ∃ pre post : List (List Byte),
    (∀ ch ∈ pre, C ch) ∧ (∀ ch ∈ post, C ch) ∧ s = pre.flatten ++ post.flatten ∧
    o = pre.flatten.length

instance IsUtf8Char.decidable : DecidablePred IsUtf8Char := fun ch =>
  match ch with
  | [] => isFalse (by simp [IsUtf8Char])
  | b :: t =>
    inferInstanceAs (Decidable (leadLength b.val = t.length + 1 ∧ ∀ c ∈ t, IsContinuation c.val))

/-! ## A UTF-8 locale

A model of the C library in a UTF-8 locale, used to evaluate the editor at concrete inputs. -/

/-- `wcrtomb` of a UTF-8 locale: the UTF-8 encoding of a Unicode scalar value. -/
def utf8Encode (wc : Nat) : Option (List Byte) :=
  if wc < 0x80 then some [Fin.ofNat wc]
  else if wc < 0x800 then some [Fin.ofNat (0xC0 + wc / 64), Fin.ofNat (0x80 + wc % 64)]
  else if wc < 0x10000 then
    if 0xD800 ≤ wc ∧ wc ≤ 0xDFFF then none
    else some [Fin.ofNat (0xE0 + wc / 4096), Fin.ofNat (0x80 + wc / 64 % 64),
      Fin.ofNat (0x80 + wc % 64)]
  else if wc < 0x110000 then
    some [Fin.ofNat (0xF0 + wc / 262144), Fin.ofNat (0x80 + wc / 4096 % 64),
      Fin.ofNat (0x80 + wc / 64 % 64), Fin.ofNat (0x80 + wc % 64)]
  else none

/-- The payload bits of the continuation bytes `t`, appended to `acc`; `none` when a byte
is not a continuation byte. -/
def utf8Payload : List Byte → Nat → Option Nat
  | [], acc => some acc
  | c :: t, acc => if 0x80 ≤ c.val ∧ c.val ≤ 0xBF then utf8Payload t (acc * 64 + (c.val - 0x80)) else none

/-- `mbrtowc` of a UTF-8 locale on the bytes it is given: the number of bytes of the first
character and its code point, 0 for the NUL character, -1 for an invalid sequence and -2
for an incomplete one. -/
def utf8Decode (bytes : List Byte) : Int × Nat :=
  match bytes with
  | [] => (-2, 0)
  | b :: t =>
    if b.val < 0x80 then (if b.val = 0 then (0, 0) else (1, b.val))
    else
      let n := leadLength b.val
      if n = 0 then (-1, 0)
      else if t.length + 1 < n then (-2, 0)
      else
        match utf8Payload (t.take (n - 1)) (b.val % 2 ^ (7 - n)) with
        | none => (-1, 0)
        | some wc => (n, wc)

/-- `wcwidth` of a UTF-8 locale on the ranges used here: -1 for control characters, 0 for
NUL and combining diacritics, 2 for East Asian wide characters, 1 otherwise. -/
def utf8Wcwidth (wc : Nat) : Int :=
  if wc = 0 then 0
  else if wc < 0x20 ∨ (0x7F ≤ wc ∧ wc < 0xA0) then -1
  else if 0x300 ≤ wc ∧ wc ≤ 0x36F then 0
  else if (0x1100 ≤ wc ∧ wc ≤ 0x115F) ∨ (0x2E80 ≤ wc ∧ wc ≤ 0xA4CF) ∨
      (0xAC00 ≤ wc ∧ wc ≤ 0xD7A3) ∨ (0xF900 ≤ wc ∧ wc ≤ 0xFAFF) ∨
      (0xFE30 ≤ wc ∧ wc ≤ 0xFE6F) ∨ (0xFF00 ≤ wc ∧ wc ≤ 0xFF60) ∨
      (0xFFE0 ≤ wc ∧ wc ≤ 0xFFE6) then 2
  else 1

/-- `iswprint` of a UTF-8 locale: a Unicode scalar value that is not a control character. -/
def utf8Iswprint (wc : Nat) : Bool :=
  decide (0x20 ≤ wc ∧ ¬ (0x7F ≤ wc ∧ wc < 0xA0) ∧ ¬ (0xD800 ≤ wc ∧ wc ≤ 0xDFFF) ∧ wc < 0x110000)

/-- The C library in a UTF-8 locale. -/
def utf8Locale : Libc :=
  { iswprint := utf8Iswprint, wcwidth := utf8Wcwidth, wcrtomb := utf8Encode,
    mbrtowc := utf8Decode }

/-! ## Predicates on sessions -/

/-- The field that is not active. -/
def Session.other (s : Session) : Field :=
  if s.active = 0 then s.title else s.artist

/-- The values that have a `case` label in the character switch of `Editor::Edit`; every
other character reaches `default:`. -/
def isCaseLabel (wch : Nat) : Bool :=
  wch ∈ [KEY_CTRLC, KEY_CTRLD, KEY_CTRLX, KEY_CTRLA, KEY_HOME, KEY_CTRLE, KEY_END, KEY_CTRLK,
    KEY_CTRLU, 127, 8, 10, 13, 9]

/-- The cursor of a field is an offset into its buffer: `0 ≤ cursor ≤ length(buf)`. -/
def CursorInBounds (f : Field) : Prop := 0 ≤ f.cursor ∧ f.cursor ≤ (f.buf.length : Int)

instance (f : Field) : Decidable (CursorInBounds f) := by
  unfold CursorInBounds
  infer_instance

/-- The loop did not end in an exception, and the session it is in satisfies `P`. -/
def LoopResult.Safe (P : Session → Prop) : LoopResult → Prop
  | .next s => P s
  | .cancelled => True
  | .thrown => False

/-- A field at the origin holding `buf`, `w` cells wide. -/
def mkField (label : String) (buf : List Byte) (cursor w : Int) : Field :=
  { label := label, buf := buf, cursor := cursor, y := 0, x := 0, w := w }

/-- A session with the artist field active; both fields are `w` cells wide. -/
def mkSession (artist : List Byte) (cursor : Int) (title : List Byte) (w : Int) : Session :=
  { artist := mkField "Artist" artist cursor w,
    title := mkField "Title" title (toInt title.length) w,
    active := 0, rows := 24, cols := 80, done := false }

/-- A function-key event: `get_wch` returned `KEY_CODE_YES` and stored `key`. -/
def keyEvent (key : Nat) : Event :=
  { rc := KEY_CODE_YES, wch := key, rows := 24, cols := 80, identify := none }

/-- A character event: `get_wch` returned `OK` (0) and stored `wch`. -/
def charEvent (wch : Nat) : Event :=
  { rc := 0, wch := wch, rows := 24, cols := 80, identify := none }

/-- The UTF-8 bytes of "héllo". -/
def hello : List Byte := [0x68, 0xC3, 0xA9, 0x6C, 0x6C, 0x6F]

/-- Both fields of the session satisfy the property `P` of a buffer and its cursor. -/
def Session.Both (P : List Byte → Int → Prop) (s : Session) : Prop :=
  P s.artist.buf s.artist.cursor ∧ P s.title.buf s.title.cursor

/-- A property `P` of a buffer and its cursor that every editing operation of the loop
keeps, and under which no operation throws; `Q` is what is known of the strings
`AcoustId::Identify` returns. -/
structure FieldInvariant (lc : Libc) (P : List Byte → Int → Prop) (Q : List Byte → Prop) :
    Prop where
  atEnd : ∀ b c, P b c → P b (toInt b.length)
  atHome : ∀ b c, P b c → P b 0
  identified : ∀ a, Q a → P a (toInt a.length)
  left : ∀ b c, P b c → c > 0 → P b (toInt (Utf8PrevChar b (toSizeT c)))
  right : ∀ b c, P b c → c < toInt b.length → P b (c + toInt (Utf8CharLen b (toSizeT c)))
  backspace : ∀ b c, P b c → c > 0 →
    ∃ b1, strErase b (Utf8PrevChar b (toSizeT c)) (toSizeT c - Utf8PrevChar b (toSizeT c))
        = some b1 ∧ P b1 (toInt (Utf8PrevChar b (toSizeT c)))
  delete : ∀ b c, P b c → c < toInt b.length →
    ∃ b1, strErase b (toSizeT c) (Utf8CharLen b (toSizeT c)) = some b1 ∧ P b1 c
  killToEnd : ∀ b c, P b c → c < toInt b.length →
    ∃ b1, strEraseToEnd b (toSizeT c) = some b1 ∧ P b1 c
  killToStart : ∀ b c, P b c → c > 0 → ∃ b1, strErase b 0 (toSizeT c) = some b1 ∧ P b1 0
  insert : ∀ b c wch, P b c → lc.iswprint wch = true → isCaseLabel wch = false →
    ∃ b1, strInsert b (toSizeT c) (WCharToUtf8 lc wch) = some b1 ∧
      P b1 (c + toInt (WCharToUtf8 lc wch).length)

/-- The buffer of the field is a sequence of characters of the class `C` and its cursor is
a character boundary of it. -/
def Field.OnBoundary (C : List Byte → Prop) (f : Field) : Prop :=
  WellFormed C f.buf ∧ ∃ o : Nat, f.cursor = (o : Int) ∧ Idntag.OnBoundary C f.buf o

/-- The characters of "héllo". -/
def helloChars : List (List Byte) := [[0x68], [0xC3, 0xA9], [0x6C], [0x6C], [0x6F]]

/-- A session on "héllo": Left, the character U+4E2D, Backspace, and Ctrl-D answered by
Identify with the artist "héllo" and an empty title. -/
def helloEvents : List Event :=
  [keyEvent KEY_LEFT, charEvent 0x4E2D, keyEvent KEY_BACKSPACE,
    { charEvent KEY_CTRLD with identify := some (hello, []) }]

/-- Ten copies of U+4E2D (E4 B8 AD), a character two columns wide: 30 bytes, 20 columns. -/
def tenWide : List Byte := (List.replicate 10 [0xE4, 0xB8, 0xAD]).flatten

/-- The bytes of "ab". -/
def ab : List Byte := [0x61, 0x62]

/-! ## Events named by the specification -/

/-- A Backspace event: the function key `KEY_BACKSPACE`, or the character DEL (127) or
Ctrl-H (8). -/
def Event.isBackspace (ev : Event) : Prop :=
  (ev.rc = KEY_CODE_YES ∧ ev.wch = KEY_BACKSPACE) ∨
  (ev.rc ≠ KEY_CODE_YES ∧ (ev.wch = 127 ∨ ev.wch = 8))

/-- A Delete-key event: the function key `KEY_DC`. -/
def Event.isDelete (ev : Event) : Prop := ev.rc = KEY_CODE_YES ∧ ev.wch = KEY_DC

/-- The character event `wch`. -/
def Event.isChar (ev : Event) (wch : Nat) : Prop := ev.rc ≠ KEY_CODE_YES ∧ ev.wch = wch

/-- The function-key event `key`. -/
def Event.isKey (ev : Event) (key : Nat) : Prop := ev.rc = KEY_CODE_YES ∧ ev.wch = key

instance (ev : Event) : Decidable ev.isBackspace := by
  unfold Event.isBackspace
  infer_instance

instance (ev : Event) : Decidable ev.isDelete := by
  unfold Event.isDelete
  infer_instance

instance (ev : Event) (wch : Nat) : Decidable (ev.isChar wch) := by
  unfold Event.isChar
  infer_instance

instance (ev : Event) (key : Nat) : Decidable (ev.isKey key) := by
  unfold Event.isKey
  infer_instance

/-- The bytes of "Unknown Artist". -/
def unknownArtist : List Byte :=
  [0x55, 0x6E, 0x6B, 0x6E, 0x6F, 0x77, 0x6E, 0x20, 0x41, 0x72, 0x74, 0x69, 0x73, 0x74]

/-- The bytes of "Unknown Title". -/
def unknownTitle : List Byte :=
  [0x55, 0x6E, 0x6B, 0x6E, 0x6F, 0x77, 0x6E, 0x20, 0x54, 0x69, 0x74, 0x6C, 0x65]

/-- The value `clamp(x, lo, hi)`: `x` brought into the interval `[lo, hi]`. -/
def clamp (x lo hi : Int) : Int := if x < lo then lo else if hi < x then hi else x

/-- Integer division truncating toward zero, from the division of natural numbers. -/
def truncDiv (a b : Int) : Int :=
  if (0 ≤ a ∧ 0 ≤ b) ∨ (a < 0 ∧ b < 0) then ((a.natAbs / b.natAbs : Nat) : Int)
  else -((a.natAbs / b.natAbs : Nat) : Int)

/-- An event that changes the active field in the session `s`: Up, Shift-Tab, Down, Tab
(as a character, or as the key code of the label `'\t'` in the function-key switch), and
Enter while the artist field is active. -/
def Event.changesFocus (ev : Event) (s : Session) : Prop :=
  ev.isKey KEY_UP ∨ ev.isKey KEY_BTAB ∨ ev.isKey KEY_DOWN ∨ ev.isKey 9 ∨ ev.isChar 9 ∨
  ((ev.isChar 10 ∨ ev.isChar 13) ∧ s.active = 0)

/-- An event that ends the session `s` in Saved: Ctrl-X, F10, and Enter while the title
field is active. -/
def Event.isSave (ev : Event) (s : Session) : Prop :=
  ev.isChar KEY_CTRLX ∨ ev.isKey (KEY_F 10) ∨ ((ev.isChar 10 ∨ ev.isChar 13) ∧ s.active = 1)

instance (ev : Event) (s : Session) : Decidable (ev.changesFocus s) := by
  unfold Event.changesFocus
  infer_instance

instance (ev : Event) (s : Session) : Decidable (ev.isSave s) := by
  unfold Event.isSave
  infer_instance

/-! ## `Editor::Edit` as a whole -/

/-- What a call of `Editor::Edit` has come to once the events delivered so far are
handled. -/
inductive EditResult where
  /-- The call returned `ok`; `p_Artist` and `p_Title` are the caller's two strings after
  the call. -/
  | returned (ok : Bool) (p_Artist p_Title : List Byte)
  /-- The loop is blocked in `get_wch`, in the session state `s`. -/
  | waiting (s : Session)
  /-- A `std::out_of_range` exception left the function. -/
  | thrown
deriving DecidableEq, Repr

/-- `Editor::Edit` on a terminal of `rows` by `cols` cells that delivers the events `evs`:
the loop, then `if (done) { p_Artist = artist.buf; p_Title = title.buf; } return done;`.
The `return false` of Ctrl-C leaves the caller's strings as they were. -/
def Edit (lc : Libc) (p_Artist p_Title : List Byte) (rows cols : Int) (evs : List Event) :
    EditResult :=
  match runLoop lc (initSession p_Artist p_Title rows cols) evs with
  | .next s => if s.done then .returned true s.artist.buf s.title.buf else .waiting s
  | .cancelled => .returned false p_Artist p_Title
  | .thrown => .thrown

/-! ## The per-file processing of `main` -/

/-- The command-line flags `--clear`, `--detect`, `--edit` and `--rename`. -/
structure Flags where
  clear : Bool
  detect : Bool
  edit : Bool
  rename : Bool
deriving DecidableEq, Repr

/-- A call `main` makes for one file. -/
inductive Call where
  | tagClear
  | tagRead
  | identify
  | edit (artist title : List Byte)
  | tagWrite (artist title : List Byte)
  | makePath (artist title : List Byte)
  | rename (newFilePath : List Byte)
deriving DecidableEq, Repr

/-- What the functions `main` calls for one file answer. -/
structure FileEnv where
  /-- Whether `Util::ToLower(Util::GetFileExt(filePath))` is ".mp3". -/
  isMp3 : Bool
  /-- Result of `Tag::Clear`. -/
  tagClear : Bool
  /-- The two strings after `Tag::Read` (its result is not used). -/
  tagRead : List Byte × List Byte
  /-- Outcome of `AcoustId::Identify`: `none` for `false`, which leaves the strings as
  they are, otherwise the artist and title it stored. -/
  identify : Option (List Byte × List Byte)
  /-- `Editor::Edit` on the two strings: its result and the two strings after the call. -/
  edit : List Byte → List Byte → Bool × List Byte × List Byte
  /-- Result of `Tag::Write`. -/
  tagWrite : List Byte → List Byte → Bool
  /-- Result of `Tag::MakePath`. -/
  makePath : List Byte → List Byte → List Byte
  /-- Result of `Util::Rename`. -/
  rename : List Byte → Bool

/-- The local variables of one iteration of the loop over `filePaths` in `main`, with the
calls made so far. -/
structure FileState where
  artist : List Byte
  title : List Byte
  result : Bool
  newFilePath : List Byte
  calls : List Call
deriving DecidableEq, Repr

/-- The declarations at the top of the loop body and the test of the file extension:
`result` is false when the extension is not ".mp3"; `newFilePath` is `filePath` until
`Tag::MakePath` is called. -/
def FileState.init (filePath : List Byte) (env : FileEnv) : FileState :=
  { artist := [], title := [], result := env.isMp3, newFilePath := filePath, calls := [] }

/-- The statement `if (result && clear) result = Tag::Clear(filePath);`. -/
def doClear (o : Flags) (env : FileEnv) (st : FileState) : FileState :=
  if st.result && o.clear then
    { st with result := env.tagClear, calls := st.calls ++ [Call.tagClear] }
  else st

/-- The statement `if (result && (detect || edit || rename)) { Tag::Read(...); result = ...; }`. -/
def doRead (o : Flags) (env : FileEnv) (st : FileState) : FileState :=
  if st.result && (o.detect || o.edit || o.rename) then
    { st with
      artist := env.tagRead.1, title := env.tagRead.2,
      result := o.detect || o.edit || (!env.tagRead.1.isEmpty && !env.tagRead.2.isEmpty),
      calls := st.calls ++ [Call.tagRead] }
  else st

/-- The statement `if (result && detect) result = AcoustId::Identify(filePath, artist, title);`. -/
def doDetect (o : Flags) (env : FileEnv) (st : FileState) : FileState :=
  if st.result && o.detect then
    match env.identify with
    | some (a, t) =>
      { st with artist := a, title := t, result := true, calls := st.calls ++ [Call.identify] }
    | none => { st with result := false, calls := st.calls ++ [Call.identify] }
  else st

/-- The statement `if (result && edit) result = Editor::Edit(filePath, artist, title);`. -/
def doEdit (o : Flags) (env : FileEnv) (st : FileState) : FileState :=
  if st.result && o.edit then
    let r := env.edit st.artist st.title
    { st with
      artist := r.2.1, title := r.2.2, result := r.1,
      calls := st.calls ++ [Call.edit st.artist st.title] }
  else st

/-- The statement `if (result && (detect || edit || rename)) { result = Tag::Write(...);
if (result && rename) { newFilePath = Tag::MakePath(...); result = Util::Rename(...); } }`. -/
def doWrite (o : Flags) (env : FileEnv) (st : FileState) : FileState :=
  if st.result && (o.detect || o.edit || o.rename) then
    let written := env.tagWrite st.artist st.title
    let calls := st.calls ++ [Call.tagWrite st.artist st.title]
    if written && o.rename then
      let newFilePath := env.makePath st.artist st.title
      { st with
        result := env.rename newFilePath, newFilePath := newFilePath,
        calls := calls ++ [Call.makePath st.artist st.title, Call.rename newFilePath] }
    else { st with result := written, calls := calls }
  else st

/-- The body of the loop over `filePaths` in `main`, up to the report: the final `result`
and `newFilePath` of the file, and the calls made for it. -/
def processFile (o : Flags) (filePath : List Byte) (env : FileEnv) : FileState :=
  doWrite o env (doEdit o env (doDetect o env (doRead o env (doClear o env
    (FileState.init filePath env)))))

/-- A running session on a terminal of 24 by 80 cells, where `DrawStaticFrame` puts the
artist field at row 9 and the title field at row 12, both at column 5 and 70 cells wide. -/
def session24x80 (artist : List Byte) (artistCursor : Int) (title : List Byte)
    (titleCursor : Int) (active : Int) : Session :=
  { artist := { mkField "Artist" artist artistCursor 70 with y := 9, x := 5 },
    title := { mkField "Title" title titleCursor 70 with y := 12, x := 5 },
    active := active, rows := 24, cols := 80, done := false }

/-- The answers for a file with tags "héllo" and "ab" whose edit is cancelled: every other
call succeeds. -/
def cancelledEnv : FileEnv :=
  { isMp3 := true, tagClear := true, tagRead := (hello, ab), identify := some (hello, ab),
    edit := fun a t => (false, a, t), tagWrite := fun _ _ => true,
    makePath := fun a t => a ++ [0x2D] ++ t, rename := fun _ => true }

/-! ## Rendering -/

/-- The call `mvaddnstr(y, x, text, text.size())` of `Editor::DrawFieldLine`, made with
the attribute `A_REVERSE` on when `reverse` is set. -/
structure FieldLine where
  y : Int
  x : Int
  text : List Byte
  reverse : Bool
deriving DecidableEq, Repr

/-- The while loop of `Editor::DrawFieldLine` from the state `(pos, width, content)`: the
final `content` and `width`. The first argument bounds the number of iterations;
`DrawFieldLineLoop_fuel` shows that `src.length - pos` iterations always reach an exit. -/
def DrawFieldLineLoop (lc : Libc) (src : List Byte) (fieldW : Int) :
    Nat → Nat → Int → List Byte → List Byte × Int
  | 0, _, width, content => (content, width)
  | fuel + 1, pos, width, content =>
    if pos < src.length then
      let len := Utf8CharLen src pos
      let w := Utf8CharWidth lc src pos len
      if width + w > fieldW then (content, width)
      else
        DrawFieldLineLoop lc src fieldW fuel (pos + len) (width + w)
          (content ++ (src.drop pos).take len)
    else (content, width)

/-- `Editor::DrawFieldLine`: the text it writes and where. With a negative width
`content.reserve(static_cast<size_t>(p_Field.w) * 4)` asks for more than `max_size()` and
throws `std::length_error`, which is the result `none`. -/
def DrawFieldLine (lc : Libc) (p_Field : Field) (p_IsActive : Bool) : Option FieldLine :=
  if p_Field.w < 0 then none
  else
    let r := DrawFieldLineLoop lc p_Field.buf p_Field.w p_Field.buf.length 0 0 []
    let content :=
      if r.2 < p_Field.w then r.1 ++ List.replicate (toSizeT (p_Field.w - r.2)) 0x20 else r.1
    some { y := p_Field.y, x := p_Field.x, text := content, reverse := p_IsActive }

/-- The while loop of `Editor::PlaceCursor` from the state `(pos, col)`: the final `col`,
or `none` when the loop has not exited within the number of iterations given first. -/
def PlaceCursorLoop (lc : Libc) (buf : List Byte) (cursorPos : Nat) :
    Nat → Nat → Int → Option Int
  | 0, pos, col => if pos < cursorPos then none else some col
  | fuel + 1, pos, col =>
    if pos < cursorPos then
      let len := Utf8CharLen buf pos
      let w := Utf8CharWidth lc buf pos len
      PlaceCursorLoop lc buf cursorPos fuel (pos + len) (col + w)
    else some col

/-- What a call of `Editor::PlaceCursor` does. -/
inductive Placement where
  /-- It returns at once. -/
  | nothing
  /-- It calls `move(cy, cx)`. -/
  | move (cy cx : Int)
  /-- Its loop never exits. -/
  | hangs
deriving DecidableEq, Repr

/-- `Editor::PlaceCursor`. The loop is given `buf.length` iterations: by
`PlaceCursorLoop_exits` it exits within them when `cursorPos ≤ buf.length`, and by
`PlaceCursorLoop_hangs` it never exits otherwise. -/
def PlaceCursor (lc : Libc) (p_Field : Field) (p_IsActive : Bool) : Placement :=
  if !p_IsActive then .nothing
  else
    let cursorPos := toSizeT (min p_Field.cursor (toInt p_Field.buf.length))
    match PlaceCursorLoop lc p_Field.buf cursorPos p_Field.buf.length 0 0 with
    | none => .hangs
    | some col =>
      let col := if col > p_Field.w then p_Field.w else col
      .move p_Field.y (p_Field.x + col)

/-! ## Characters of a buffer -/

/-- The offset at which the character number `k` of `s` starts, when `s` is cut into
`Utf8CharLen` segments from offset 0; the length of `s` once the characters have run
out. -/
def charStart (s : List Byte) : Nat → Nat
  | 0 => 0
  | k + 1 => charStart s k + Utf8CharLen s (charStart s k)

/-- The summed `Utf8CharWidth` of the first `k` characters of `s`. -/
def prefixWidth (lc : Libc) (s : List Byte) : Nat → Int
  | 0 => 0
  | k + 1 =>
    prefixWidth lc s k + Utf8CharWidth lc s (charStart s k) (Utf8CharLen s (charStart s k))

/-- The rows at which `Editor::DrawStaticFrame` prints the labels "Artist:" and "Title:"
(`mvprintw(L.start_y - 0, ...)` and `mvprintw(L.start_y + 2 + space, ...)`). -/
def labelRows (p_Rows p_Cols : Int) : Int × Int :=
  let L := ComputeLayout p_Rows p_Cols
  let space : Int := if p_Rows > 8 then 1 else 0
  (L.start_y - 0, L.start_y + 2 + space)

/-! ## `AcoustId::GetBestMatch` -/

/-- The struct `AcoustId::Match` of acoustid.h. A score is a finite `double` read from a
JSON number; only its order is used, so it is taken as the rational number it denotes. -/
structure Match where
  title : List Byte
  artist : List Byte
  score : Rat
deriving DecidableEq

/-- The loop `for (const auto& match : p_Matches) if (match.score > p_BestMatch.score)
p_BestMatch = match;` from the current `p_BestMatch`. -/
def bestMatchLoop (p_BestMatch : Match) : List Match → Match
  | [] => p_BestMatch
  | m :: rest => bestMatchLoop (if m.score > p_BestMatch.score then m else p_BestMatch) rest

/-- `AcoustId::GetBestMatch`: `none` for the result false, otherwise `p_BestMatch`. -/
def GetBestMatch (p_Matches : List Match) : Option Match :=
  match p_Matches with
  | [] => none
  | m0 :: _ => some (bestMatchLoop m0 p_Matches)

/-- Three matches with the scores 1/2, 9/10 and 9/10. -/
def sampleMatches : List Match :=
  [{ title := ab, artist := hello, score := 1 / 2 },
   { title := unknownTitle, artist := unknownArtist, score := 9 / 10 },
   { title := hello, artist := ab, score := 9 / 10 }]

/-- The answers for a file with the tags "héllo" and "ab" that Identify does not
recognise: every other call succeeds, and the editor would save what it is given. -/
def unidentifiedEnv : FileEnv :=
  { isMp3 := true, tagClear := true, tagRead := (hello, ab), identify := none,
    edit := fun a t => (true, a, t), tagWrite := fun _ _ => true,
    makePath := fun a t => a ++ [0x2D] ++ t, rename := fun _ => true }

/-! ## `Util::MakeReport` -/

/-- The bytes of a string literal of ASCII characters. -/
def ascii (s : String) : List Byte := s.data.map fun c => Fin.ofNat c.toNat

/-- `s.find(search, pos)`: the first offset from `pos` on at which `search` occurs in `s`;
`none` for `npos`. -/
def strFind (s search : List Byte) (pos : Nat) : Option Nat :=
  ((List.range (s.length + 1 - pos)).find? fun d => search.isPrefixOf (s.drop (pos + d))).map
    fun d => pos + d

/-- The while loop of `Util::Replace` from the state `(p_Str, pos)`: the final `p_Str`, or
`none` when the loop has not ended within the number of iterations given first. -/
def ReplaceLoop (p_Search p_Replace : List Byte) : Nat → List Byte → Nat → Option (List Byte)
  | 0, _, _ => none
  | fuel + 1, p_Str, pos =>
    match strFind p_Str p_Search pos with
    | none => some p_Str
    | some found =>
      ReplaceLoop p_Search p_Replace fuel
        (p_Str.take found ++ p_Replace ++ p_Str.drop (found + p_Search.length))
        (found + p_Replace.length)

/-- `Util::Replace`, the loop being given one iteration per byte of `p_Str` and one more;
`none` when it has not ended within them. -/
def Replace (p_Str p_Search p_Replace : List Byte) : Option (List Byte) :=
  ReplaceLoop p_Search p_Replace (p_Str.length + 1) p_Str 0

/-- `Util::MakeReport`: the three calls of `Replace`, one after the other on `report`. -/
def MakeReport (p_Format p_InFilePath p_OutFilePath : List Byte) (p_Result : Bool) :
    Option (List Byte) :=
  (Replace p_Format (ascii "%i") p_InFilePath).bind fun report1 =>
    (Replace report1 (ascii "%o") p_OutFilePath).bind fun report2 =>
      Replace report2 (ascii "%r") (if p_Result then ascii "PASS" else ascii "FAIL")

/-! ## `main` -/

/-- Which of the calls `main` makes for one file exit by an exception instead of
returning. `main` has no handler, so such an exception ends the process. -/
structure Throws where
  /-- `AcoustId::Identify` throws: `nlohmann::json::parse`, `at` or `get` on the output of
  `fpcalc` or on the response of the service. -/
  identify : Bool
  /-- `Tag::MakePath` on this artist and title throws: `std::filesystem::exists` on an
  error of the file system. -/
  makePath : List Byte → List Byte → Bool

/-- What one iteration of the loop over `filePaths` ends in. -/
inductive FileOutcome where
  /-- The iteration completed with this state. -/
  | finished (st : FileState)
  /-- An exception left `main`; the state is that of the file when the call threw, the
  call that threw being the last of its calls. -/
  | threw (st : FileState)
deriving DecidableEq, Repr

/-- The body of the loop over `filePaths` in `main`, where `AcoustId::Identify` and
`Tag::MakePath` return or throw: `Identify` is called when `result && detect` holds after
`Tag::Read`, `MakePath` when `Tag::Write` was called and returned true under `--rename`.
When neither throws, the iteration is `processFile`. -/
def runFile (o : Flags) (filePath : List Byte) (env : FileEnv) (thr : Throws) : FileOutcome :=
  let st := doRead o env (doClear o env (FileState.init filePath env))
  if st.result && o.detect && thr.identify then
    .threw { st with calls := st.calls ++ [Call.identify] }
  else
    let st := doEdit o env (doDetect o env st)
    if st.result && (o.detect || o.edit || o.rename) && env.tagWrite st.artist st.title &&
        o.rename && thr.makePath st.artist st.title then
      .threw { st with
        calls := st.calls ++
          [Call.tagWrite st.artist st.title, Call.makePath st.artist st.title] }
    else .finished (doWrite o env st)

/-- The local variables of `main` that the parsing of the arguments sets. -/
structure ParseState where
  flags : Flags
  reportFormat : List Byte
  invalidarg : List Byte
  /-- The `std::set<std::string> filePaths`, as its sorted list of elements. -/
  filePaths : List (List Byte)

/-- The initial values of the local variables of `main`. -/
def ParseState.init : ParseState :=
  { flags := { clear := false, detect := false, edit := false, rename := false },
    reportFormat := ascii "%i : %r : %o", invalidarg := [], filePaths := [] }

/-- No call throws. -/
def noThrows : Throws := { identify := false, makePath := fun _ _ => false }

/-- The summed `Utf8CharWidth` of the characters `chars`, each measured on its own. -/
def charsWidth (lc : Libc) (chars : List (List Byte)) : Int :=
  (chars.map fun ch => Utf8CharWidth lc ch 0 ch.length).sum

/-- The printable characters of ISO-8859-1. -/
def latin1Iswprint (wc : Nat) : Bool :=
  decide ((0x20 ≤ wc ∧ wc ≤ 0x7E) ∨ (0xA0 ≤ wc ∧ wc ≤ 0xFF))

/-- The C library in an ISO-8859-1 locale: every character is one byte, the byte of its
code; `mbrtowc` converts the first byte it is given; printable characters are one column
wide. -/
def latin1Locale : Libc :=
  { iswprint := latin1Iswprint,
    wcwidth := fun wc => if wc = 0 then 0 else if latin1Iswprint wc then 1 else -1,
    wcrtomb := fun wc => if wc < 256 then some [Fin.ofNat wc] else none,
    mbrtowc := fun bytes =>
      match bytes with
      | [] => (-2, 0)
      | b :: _ => if b.val = 0 then (0, 0) else (1, b.val) }

/-- The character U+4E2D, three bytes of UTF-8. -/
def zhong : List Byte := [0xE4, 0xB8, 0xAD]

/-- Neither field of `s1` has another capacity or a greater display width than it has
in `s`. -/
def NoWider (lc : Libc) (s s1 : Session) : Prop :=
  s1.artist.w = s.artist.w ∧ s1.title.w = s.title.w ∧
  Utf8DisplayWidth lc s1.artist.buf ≤ Utf8DisplayWidth lc s.artist.buf ∧
  Utf8DisplayWidth lc s1.title.buf ≤ Utf8DisplayWidth lc s.title.buf

/-- The event is a character that `Editor::Edit` accepts for insertion in the session `s`:
it reaches `default:`, is printable and passes the capacity check. -/
def Event.isAccepted (lc : Libc) (ev : Event) (s : Session) : Prop :=
  ev.rc ≠ KEY_CODE_YES ∧ isCaseLabel ev.wch = false ∧ lc.iswprint ev.wch = true ∧
  Utf8DisplayWidth lc s.cur.buf + charWidth lc ev.wch ≤ s.cur.w

/-! ## `Tag::SanitizeFileName`

Code points are `char32_t` values; those computed here are below `2^21`, so no shift
overflows and they are modelled as natural numbers. -/

/-- The while loop of `Utf8ToUtf32` from the state `(i, out)`. The first argument bounds
the number of iterations; `Utf8ToUtf32Loop_fuel` shows that `s.length - i` iterations
always reach the exit `i ≥ s.size()`. -/
def Utf8ToUtf32Loop (s : List Byte) : Nat → Nat → List Nat → List Nat
  | 0, _, out => out
  | fuel + 1, i, out =>
    if i < s.length then
      let c := byteAt s i
      if c < 0x80 then Utf8ToUtf32Loop s fuel (i + 1) (out ++ [c])
      else if c >>> 5 = 0x6 ∧ i + 1 < s.length then
        let cp := ((c &&& 0x1F) <<< 6) ||| (byteAt s (i + 1) &&& 0x3F)
        Utf8ToUtf32Loop s fuel (i + 2) (out ++ [cp])
      else if c >>> 4 = 0xE ∧ i + 2 < s.length then
        let cp := (((c &&& 0x0F) <<< 12) ||| ((byteAt s (i + 1) &&& 0x3F) <<< 6)) |||
          (byteAt s (i + 2) &&& 0x3F)
        Utf8ToUtf32Loop s fuel (i + 3) (out ++ [cp])
      else if c >>> 3 = 0x1E ∧ i + 3 < s.length then
        let cp := ((((c &&& 0x07) <<< 18) ||| ((byteAt s (i + 1) &&& 0x3F) <<< 12)) |||
          ((byteAt s (i + 2) &&& 0x3F) <<< 6)) ||| (byteAt s (i + 3) &&& 0x3F)
        Utf8ToUtf32Loop s fuel (i + 4) (out ++ [cp])
      else Utf8ToUtf32Loop s fuel (i + 1) out
    else out

/-- `Utf8ToUtf32`: the code points of a UTF-8 string; a malformed byte is skipped. -/
def Utf8ToUtf32 (s : List Byte) : List Nat :=
  Utf8ToUtf32Loop s s.length 0 []

/-- The bytes one iteration of the loop of `Utf32ToUtf8` appends for the code point `cp`;
the cast `(char)` keeps the low eight bits. -/
def encodeCodePoint (cp : Nat) : List Byte :=
  if cp < 0x80 then [Fin.ofNat cp]
  else if cp < 0x800 then
    [Fin.ofNat (0xC0 ||| (cp >>> 6)), Fin.ofNat (0x80 ||| (cp &&& 0x3F))]
  else if cp < 0x10000 then
    [Fin.ofNat (0xE0 ||| (cp >>> 12)), Fin.ofNat (0x80 ||| ((cp >>> 6) &&& 0x3F)),
      Fin.ofNat (0x80 ||| (cp &&& 0x3F))]
  else
    [Fin.ofNat (0xF0 ||| (cp >>> 18)), Fin.ofNat (0x80 ||| ((cp >>> 12) &&& 0x3F)),
      Fin.ofNat (0x80 ||| ((cp >>> 6) &&& 0x3F)), Fin.ofNat (0x80 ||| (cp &&& 0x3F))]

/-- `Utf32ToUtf8`: the UTF-8 encoding of a sequence of code points. -/
def Utf32ToUtf8 : List Nat → List Byte
  | [] => []
  | cp :: rest => encodeCodePoint cp ++ Utf32ToUtf8 rest

/-- The test `(c >= 0 && c < 0x20) || c == U'/' || c == U'\\' || c == 0x7F` of
`SanitizeFileName`: control characters and path separators. -/
def isStripped (c : Nat) : Bool :=
  decide (c < 0x20 ∨ c = 0x2F ∨ c = 0x5C ∨ c = 0x7F)

/-- The first loop of `SanitizeFileName`: the code points pushed to `out32`. -/
def keptCodePoints : List Nat → List Nat
  | [] => []
  | c :: rest =>
    if isStripped c then keptCodePoints rest
    else if c = 0x20 ∨ c = 0x2E ∨ c = 0x2C ∨ c = 0x2D ∨ c = 0x5F ∨ c = 0x27 then
      c :: keptCodePoints rest
    else c :: keptCodePoints rest

/-- `std::regex_replace(s, std::regex("c+"), r)` for a character `c`: every maximal run
of `c` is replaced by `r`. A `c` followed by another `c` is inside a run; the last `c` of
a run puts `r`. -/
def replaceRuns (c : Byte) (r : List Byte) : List Byte → List Byte
  | [] => []
  | b :: t =>
    if b = c then
      if t.head? = some c then replaceRuns c r t else r ++ replaceRuns c r t
    else b :: replaceRuns c r t

/-- `std::regex_replace(s, std::regex("^c+|c+$"), "")` for a character `c`: the run of
`c` at the start and the run of `c` at the end are removed. -/
def trimRuns (c : Byte) (s : List Byte) : List Byte :=
  ((s.dropWhile fun b => b = c).reverse.dropWhile fun b => b = c).reverse

/-- `Tag::SanitizeFileName`. -/
def SanitizeFileName (p_FileName : List Byte) : List Byte :=
  let u32 := Utf8ToUtf32 p_FileName
  let out32 := keptCodePoints u32
  let out := Utf32ToUtf8 out32
  let out := replaceRuns 0x20 [0x5F] out
  let out := replaceRuns 0x5F [0x5F] out
  let out := trimRuns 0x5F out
  if out = [] then ascii "unnamed" else out

/-- One character of UTF-8 in shortest form: of the shape `IsUtf8Char`, and not an
overlong encoding (no lead byte C0 or C1, no E0 followed by a byte below A0, no F0
followed by a byte below 90). Every character of well-formed UTF-8 in the sense of the
Unicode standard is of this kind. -/
def IsShortestUtf8Char (ch : List Byte) : Prop :=
  IsUtf8Char ch ∧
    match ch with
    | [b0, _] => 0xC2 ≤ b0.val
    | [b0, b1, _] => b0.val = 0xE0 → 0xA0 ≤ b1.val
    | [b0, b1, _, _] => b0.val = 0xF0 → 0x90 ≤ b1.val
    | _ => True

/-! # Theorems -/

/-! ## Bit patterns of bytes -/

set_option maxRecDepth 100000 in
theorem byte_mask_C0 : ∀ c : Byte, c.val &&& 0xC0 = 0x80 ↔ 0x80 ≤ c.val ∧ c.val ≤ 0xBF := by
  decide

set_option maxRecDepth 100000 in
theorem byte_mask_E0 : ∀ c : Byte, c.val &&& 0xE0 = 0xC0 ↔ 0xC0 ≤ c.val ∧ c.val ≤ 0xDF := by
  decide

set_option maxRecDepth 100000 in
theorem byte_mask_F0 : ∀ c : Byte, c.val &&& 0xF0 = 0xE0 ↔ 0xE0 ≤ c.val ∧ c.val ≤ 0xEF := by
  decide

set_option maxRecDepth 100000 in
theorem byte_mask_F8 : ∀ c : Byte, c.val &&& 0xF8 = 0xF0 ↔ 0xF0 ≤ c.val ∧ c.val ≤ 0xF7 := by
  decide

theorem byteAt_lt (s : List Byte) (i : Nat) : byteAt s i < 256 := (s.getD i 0).isLt

theorem byteAt_mask_C0 (s : List Byte) (i : Nat) :
    byteAt s i &&& 0xC0 = 0x80 ↔ 0x80 ≤ byteAt s i ∧ byteAt s i ≤ 0xBF :=
  byte_mask_C0 (s.getD i 0)

theorem byteAt_mask_E0 (s : List Byte) (i : Nat) :
    byteAt s i &&& 0xE0 = 0xC0 ↔ 0xC0 ≤ byteAt s i ∧ byteAt s i ≤ 0xDF :=
  byte_mask_E0 (s.getD i 0)

theorem byteAt_mask_F0 (s : List Byte) (i : Nat) :
    byteAt s i &&& 0xF0 = 0xE0 ↔ 0xE0 ≤ byteAt s i ∧ byteAt s i ≤ 0xEF :=
  byte_mask_F0 (s.getD i 0)

theorem byteAt_mask_F8 (s : List Byte) (i : Nat) :
    byteAt s i &&& 0xF8 = 0xF0 ↔ 0xF0 ≤ byteAt s i ∧ byteAt s i ≤ 0xF7 :=
  byte_mask_F8 (s.getD i 0)

/-! ## `Utf8CharLen` -/

theorem Utf8CharLen_of_ge (s : List Byte) (pos : Nat) (h : s.length ≤ pos) :
    Utf8CharLen s pos = 0 := by
  simp [Utf8CharLen, h]

theorem Utf8CharLen_cases (s : List Byte) (pos : Nat) (h : pos < s.length) :
    Utf8CharLen s pos =
      if byteAt s pos < 0x80 then 1
      else if 0xC0 ≤ byteAt s pos ∧ byteAt s pos ≤ 0xDF then (if pos + 2 ≤ s.length then 2 else 1)
      else if 0xE0 ≤ byteAt s pos ∧ byteAt s pos ≤ 0xEF then (if pos + 3 ≤ s.length then 3 else 1)
      else if 0xF0 ≤ byteAt s pos ∧ byteAt s pos ≤ 0xF7 then (if pos + 4 ≤ s.length then 4 else 1)
      else 1 := by
  have h1 : ¬ pos ≥ s.length := by omega
  simp only [Utf8CharLen, h1, if_false, byteAt_mask_E0, byteAt_mask_F0, byteAt_mask_F8,
    Nat.succ_le_iff, Nat.add_lt_add_iff_left]

theorem Utf8CharLen_pos (s : List Byte) (pos : Nat) (h : pos < s.length) :
    1 ≤ Utf8CharLen s pos := by
  rw [Utf8CharLen_cases s pos h]
  repeat' split
  all_goals omega

theorem Utf8CharLen_le (s : List Byte) (pos : Nat) (h : pos < s.length) :
    pos + Utf8CharLen s pos ≤ s.length := by
  rw [Utf8CharLen_cases s pos h]
  repeat' split
  all_goals omega

/-- C4: at an in-bounds offset `Utf8CharLen` is never 0 and follows the leading byte:
1 below 0x80; 2, 3, 4 for a byte of the form 110xxxxx (0xC0..0xDF), 1110xxxx (0xE0..0xEF),
11110xxx (0xF0..0xF7) when that many bytes remain from `pos`, and 1 when they do not;
1 for 10xxxxxx (0x80..0xBF) and for 11111xxx (0xF8..0xFF). -/
theorem Utf8CharLen_spec (s : List Byte) (pos : Nat) (h : pos < s.length) :
    Utf8CharLen s pos ≠ 0 ∧
    (byteAt s pos < 0x80 → Utf8CharLen s pos = 1) ∧
    (0xC0 ≤ byteAt s pos → byteAt s pos ≤ 0xDF → pos + 2 ≤ s.length → Utf8CharLen s pos = 2) ∧
    (0xE0 ≤ byteAt s pos → byteAt s pos ≤ 0xEF → pos + 3 ≤ s.length → Utf8CharLen s pos = 3) ∧
    (0xF0 ≤ byteAt s pos → byteAt s pos ≤ 0xF7 → pos + 4 ≤ s.length → Utf8CharLen s pos = 4) ∧
    (0xC0 ≤ byteAt s pos → byteAt s pos ≤ 0xDF → s.length < pos + 2 → Utf8CharLen s pos = 1) ∧
    (0xE0 ≤ byteAt s pos → byteAt s pos ≤ 0xEF → s.length < pos + 3 → Utf8CharLen s pos = 1) ∧
    (0xF0 ≤ byteAt s pos → byteAt s pos ≤ 0xF7 → s.length < pos + 4 → Utf8CharLen s pos = 1) ∧
    (0x80 ≤ byteAt s pos → byteAt s pos ≤ 0xBF → Utf8CharLen s pos = 1) ∧
    (0xF8 ≤ byteAt s pos → Utf8CharLen s pos = 1) := by
  have hpos := Utf8CharLen_pos s pos h
  rw [Utf8CharLen_cases s pos h] at hpos ⊢
  refine ⟨by omega, ?_, ?_, ?_, ?_, ?_, ?_, ?_, ?_, ?_⟩
  all_goals intros
  all_goals repeat' split
  all_goals omega

/-- C4 at a concrete input: the bytes E2 82 AC (the euro sign) followed by 'a'; offset 0
starts a complete 3-byte character, offset 3 an ASCII byte. -/
theorem Utf8CharLen_spec_witness :
    (0 : Nat) < ([0xE2, 0x82, 0xAC, 0x61] : List Byte).length ∧
    Utf8CharLen [0xE2, 0x82, 0xAC, 0x61] 0 = 3 ∧
    Utf8CharLen [0xE2, 0x82, 0xAC, 0x61] 0 ≠ 0 :=
  ⟨by decide,
   (Utf8CharLen_spec [0xE2, 0x82, 0xAC, 0x61] 0 (by decide)).2.2.2.1
     (by decide) (by decide) (by decide),
   (Utf8CharLen_spec [0xE2, 0x82, 0xAC, 0x61] 0 (by decide)).1⟩

/-! ## `Utf8PrevChar` -/

theorem Utf8PrevCharLoop_succ (s : List Byte) (i : Nat) :
    Utf8PrevCharLoop s (i + 1) =
      if IsContinuation (byteAt s i) then (if i > 0 then Utf8PrevCharLoop s i else 0) else i := by
  simp only [Utf8PrevCharLoop, byteAt_mask_C0, IsContinuation, ne_eq]
  split <;> simp_all

theorem Utf8PrevCharLoop_spec (s : List Byte) (i : Nat) :
    Utf8PrevCharLoop s (i + 1) < i + 1 ∧
    (∀ j, Utf8PrevCharLoop s (i + 1) < j → j < i + 1 → IsContinuation (byteAt s j)) ∧
    (¬ IsContinuation (byteAt s (Utf8PrevCharLoop s (i + 1))) ∨
      (Utf8PrevCharLoop s (i + 1) = 0 ∧ ∀ j, j < i + 1 → IsContinuation (byteAt s j))) := by
  induction i with
  | zero =>
    by_cases hc : IsContinuation (byteAt s 0)
    · have e : Utf8PrevCharLoop s (0 + 1) = 0 := by
        rw [Utf8PrevCharLoop_succ, if_pos hc]
        rfl
      rw [e]
      refine ⟨by omega, fun j h1 h2 => by omega, Or.inr ⟨rfl, fun j hj => ?_⟩⟩
      have : j = 0 := by omega
      subst this
      exact hc
    · have e : Utf8PrevCharLoop s (0 + 1) = 0 := by
        rw [Utf8PrevCharLoop_succ, if_neg hc]
      rw [e]
      exact ⟨by omega, fun j h1 h2 => by omega, Or.inl hc⟩
  | succ i ih =>
    by_cases hc : IsContinuation (byteAt s (i + 1))
    · have e : Utf8PrevCharLoop s (i + 1 + 1) = Utf8PrevCharLoop s (i + 1) := by
        rw [Utf8PrevCharLoop_succ, if_pos hc, if_pos (by omega)]
      rw [e]
      obtain ⟨h1, h2, h3⟩ := ih
      refine ⟨by omega, fun j hj1 hj2 => ?_, ?_⟩
      · by_cases hj : j = i + 1
        · subst hj
          exact hc
        · exact h2 j hj1 (by omega)
      · rcases h3 with h3 | ⟨h3, h4⟩
        · exact Or.inl h3
        · refine Or.inr ⟨h3, fun j hj => ?_⟩
          by_cases hj2 : j = i + 1
          · subst hj2
            exact hc
          · exact h4 j (by omega)
    · have e : Utf8PrevCharLoop s (i + 1 + 1) = i + 1 := by
        rw [Utf8PrevCharLoop_succ, if_neg hc]
      rw [e]
      exact ⟨by omega, fun j h1 h2 => by omega, Or.inl hc⟩

/-- What `Utf8PrevChar` returns for `0 < pos ≤ length(s)`: an index below `pos` after which
only continuation bytes precede `pos`, and which holds a non-continuation byte unless it
is 0 and every byte before `pos` is a continuation byte. -/
theorem Utf8PrevChar_of_pos (s : List Byte) (pos : Nat) (h1 : 0 < pos) (h2 : pos ≤ s.length) :
    Utf8PrevChar s pos < pos ∧
    (∀ j, Utf8PrevChar s pos < j → j < pos → IsContinuation (byteAt s j)) ∧
    (¬ IsContinuation (byteAt s (Utf8PrevChar s pos)) ∨
      (Utf8PrevChar s pos = 0 ∧ ∀ j, j < pos → IsContinuation (byteAt s j))) := by
  have hne : ¬ (pos = 0 ∨ pos > s.length) := by omega
  obtain ⟨i, rfl⟩ : ∃ i, pos = i + 1 := ⟨pos - 1, by omega⟩
  simp only [Utf8PrevChar, hne, if_false]
  exact Utf8PrevCharLoop_spec s i

/-- C5: for `0 < pos ≤ length(s)`, `Utf8PrevChar s pos` is below `pos`, every byte strictly
between it and `pos` is a continuation byte, and either its own byte is not a continuation
byte (it is the greatest such index below `pos`) or it is 0 and every byte before `pos` is
a continuation byte. For `pos = 0` it is 0. -/
theorem Utf8PrevChar_spec (s : List Byte) (pos : Nat) :
    (pos = 0 → Utf8PrevChar s pos = 0) ∧
    (0 < pos → pos ≤ s.length →
      Utf8PrevChar s pos < pos ∧
      (∀ j, Utf8PrevChar s pos < j → j < pos → IsContinuation (byteAt s j)) ∧
      (¬ IsContinuation (byteAt s (Utf8PrevChar s pos)) ∨
        (Utf8PrevChar s pos = 0 ∧ ∀ j, j < pos → IsContinuation (byteAt s j)))) :=
  ⟨fun h => by simp [Utf8PrevChar, h], Utf8PrevChar_of_pos s pos⟩

/-- C5 at a concrete input: in "h", C3 A9 ("é"), "l" the character before offset 3 starts
at offset 1, and the byte skipped at offset 2 is a continuation byte. -/
theorem Utf8PrevChar_spec_witness :
    Utf8PrevChar [0x68, 0xC3, 0xA9, 0x6C] 3 = 1 ∧
    Utf8PrevChar [0x68, 0xC3, 0xA9, 0x6C] 3 < 3 ∧
    (∀ j, Utf8PrevChar [0x68, 0xC3, 0xA9, 0x6C] 3 < j → j < 3 →
      IsContinuation (byteAt [0x68, 0xC3, 0xA9, 0x6C] j)) :=
  ⟨by decide,
   ((Utf8PrevChar_spec [0x68, 0xC3, 0xA9, 0x6C] 3).2 (by decide) (by decide)).1,
   ((Utf8PrevChar_spec [0x68, 0xC3, 0xA9, 0x6C] 3).2 (by decide) (by decide)).2.1⟩

/-! ## Well-formed UTF-8 and character boundaries -/

theorem byteAt_append_right (a b : List Byte) (j : Nat) :
    byteAt (a ++ b) (a.length + j) = byteAt b j := by
  simp [byteAt, List.getD_eq_getElem?_getD, List.getElem?_append_right]

theorem byteAt_append_left (a b : List Byte) (j : Nat) (h : j < a.length) :
    byteAt (a ++ b) j = byteAt a j := by
  simp [byteAt, List.getD_eq_getElem?_getD, List.getElem?_append_left h]

theorem byteAt_cons_zero (b : Byte) (t : List Byte) : byteAt (b :: t) 0 = b.val := rfl

theorem byteAt_cons_succ (b : Byte) (t : List Byte) (j : Nat) :
    byteAt (b :: t) (j + 1) = byteAt t j := rfl

theorem byteAt_mem (t : List Byte) (j : Nat) (h : j < t.length) :
    ∃ c ∈ t, byteAt t j = c.val := by
  refine ⟨t[j], List.getElem_mem h, ?_⟩
  simp [byteAt, List.getD_eq_getElem?_getD, List.getElem?_eq_getElem h]

theorem IsUtf8Char.length_pos {ch : List Byte} (h : IsUtf8Char ch) : 0 < ch.length := by
  cases ch with
  | nil => exact absurd h (by simp [IsUtf8Char])
  | cons b t => simp

theorem IsUtf8Char.lead {ch : List Byte} (h : IsUtf8Char ch) :
    leadLength (byteAt ch 0) = ch.length ∧ ¬ IsContinuation (byteAt ch 0) := by
  cases ch with
  | nil => exact absurd h (by simp [IsUtf8Char])
  | cons b t =>
    obtain ⟨h1, _⟩ := h
    rw [byteAt_cons_zero]
    refine ⟨by simpa using h1, fun hc => ?_⟩
    unfold IsContinuation at hc
    unfold leadLength at h1
    repeat' split at h1
    all_goals omega

theorem IsUtf8Char.tail {ch : List Byte} (h : IsUtf8Char ch) (j : Nat) (h1 : 0 < j)
    (h2 : j < ch.length) : IsContinuation (byteAt ch j) := by
  cases ch with
  | nil => exact absurd h (by simp [IsUtf8Char])
  | cons b t =>
    obtain ⟨_, hc⟩ := h
    obtain ⟨k, rfl⟩ : ∃ k, j = k + 1 := ⟨j - 1, by omega⟩
    rw [byteAt_cons_succ]
    obtain ⟨c, hm, e⟩ := byteAt_mem t k (by simpa using h2)
    rw [e]
    exact hc c hm

/-- Forward step over one character: at the offset where a character `ch` starts,
`Utf8CharLen` is the length of `ch`. -/
theorem Utf8CharLen_char (a ch b : List Byte) (h : IsUtf8Char ch) :
    Utf8CharLen (a ++ ch ++ b) a.length = ch.length := by
  have hlen := h.length_pos
  have hs : (a ++ ch ++ b).length = a.length + ch.length + b.length := by
    simp only [List.length_append]
  have hb : byteAt (a ++ ch ++ b) a.length = byteAt ch 0 := by
    have := byteAt_append_right a (ch ++ b) 0
    rw [List.append_assoc, Nat.add_zero] at *
    rw [this, byteAt_append_left ch b 0 hlen]
  obtain ⟨h1, _⟩ := h.lead
  rw [Utf8CharLen_cases _ _ (by omega), hb, hs]
  unfold leadLength at h1
  repeat' split at h1
  all_goals repeat' split
  all_goals omega

/-- Backward step over one character: from the offset where a character `ch` ends,
`Utf8PrevChar` is the offset where it starts. -/
theorem Utf8PrevChar_char (a ch b : List Byte) (h : IsUtf8Char ch) :
    Utf8PrevChar (a ++ ch ++ b) (a.length + ch.length) = a.length := by
  have hlen := h.length_pos
  have hs : (a ++ ch ++ b).length = a.length + ch.length + b.length := by
    simp only [List.length_append]
  have hbyte : ∀ j, j < ch.length →
      byteAt (a ++ ch ++ b) (a.length + j) = byteAt ch j := by
    intro j hj
    rw [List.append_assoc, byteAt_append_right, byteAt_append_left ch b j hj]
  obtain ⟨_, hlead⟩ := h.lead
  obtain ⟨h1, h2, h3⟩ :=
    Utf8PrevChar_of_pos (a ++ ch ++ b) (a.length + ch.length) (by omega) (by omega)
  generalize Utf8PrevChar (a ++ ch ++ b) (a.length + ch.length) = r at h1 h2 h3
  have hstart : ¬ IsContinuation (byteAt (a ++ ch ++ b) a.length) := by
    have := hbyte 0 hlen
    rw [Nat.add_zero] at this
    rw [this]
    exact hlead
  rcases Nat.lt_trichotomy r a.length with hr | hr | hr
  · exact absurd (h2 a.length hr (by omega)) hstart
  · exact hr
  · exfalso
    obtain ⟨j, rfl⟩ : ∃ j, r = a.length + j := ⟨r - a.length, by omega⟩
    have hcont : IsContinuation (byteAt (a ++ ch ++ b) (a.length + j)) := by
      rw [hbyte j (by omega)]
      exact h.tail j (by omega) (by omega)
    rcases h3 with h3 | ⟨h3, _⟩
    · exact h3 hcont
    · omega

/-- C3: for a well-formed UTF-8 buffer `s` and a character boundary `o < length(s)`,
stepping forward by `Utf8CharLen` and back by `Utf8PrevChar` returns to `o`. -/
theorem Utf8PrevChar_Utf8CharLen (s : List Byte) (o : Nat) (h : OnBoundary IsUtf8Char s o)
    (ho : o < s.length) : Utf8PrevChar s (o + Utf8CharLen s o) = o := by
  obtain ⟨pre, post, _, hpost, rfl, rfl⟩ := h
  cases post with
  | nil => simp at ho
  | cons ch post =>
    have hch : IsUtf8Char ch := hpost ch (List.mem_cons_self _ _)
    have e : pre.flatten ++ (ch :: post).flatten = pre.flatten ++ ch ++ post.flatten := by
      simp [List.flatten_cons, List.append_assoc]
    rw [e, Utf8CharLen_char _ _ _ hch, Utf8PrevChar_char _ _ _ hch]

/-- C3 at a concrete input: in "héllo" (68 C3 A9 6C 6C 6F) the boundary 1, where the
two-byte "é" starts, is recovered after one step forward and one step back. -/
theorem Utf8PrevChar_Utf8CharLen_witness :
    OnBoundary IsUtf8Char [0x68, 0xC3, 0xA9, 0x6C, 0x6C, 0x6F] 1 ∧
    Utf8PrevChar [0x68, 0xC3, 0xA9, 0x6C, 0x6C, 0x6F]
      (1 + Utf8CharLen [0x68, 0xC3, 0xA9, 0x6C, 0x6C, 0x6F] 1) = 1 :=
  have hb : OnBoundary IsUtf8Char [0x68, 0xC3, 0xA9, 0x6C, 0x6C, 0x6F] 1 :=
    ⟨[[0x68]], [[0xC3, 0xA9], [0x6C], [0x6C], [0x6F]],
      by simp [IsUtf8Char, leadLength]; decide,
      by simp [IsUtf8Char, leadLength, IsContinuation]; decide, by decide, by decide⟩
  ⟨hb, Utf8PrevChar_Utf8CharLen _ 1 hb (by decide)⟩

/-! ## Scenario: one step left in "héllo" -/

theorem step_left_hello :
    step utf8Locale (mkSession hello 6 [] 70) (keyEvent KEY_LEFT) =
      .next (mkSession hello 5 [] 70) := by
  decide

/-- C10 as stated fails: with the buffer "héllo" and the cursor at offset 6, a Left-arrow
event does not leave the cursor at offset 4. -/
theorem left_hello_not_4 :
    ¬ ∃ s, step utf8Locale (mkSession hello 6 [] 70) (keyEvent KEY_LEFT) = .next s ∧
      s.cur.cursor = 4 := by
  rintro ⟨s, h, h4⟩
  rw [step_left_hello] at h
  cases h
  revert h4
  decide

/-- C10 amended: with the buffer "héllo" (6 bytes) and the cursor at offset 6, a
Left-arrow event moves the cursor to offset 5, the start of the one-byte "o"; the buffer
is unchanged. -/
theorem left_hello_5 :
    ∃ s, step utf8Locale (mkSession hello 6 [] 70) (keyEvent KEY_LEFT) = .next s ∧
      s.cur.cursor = 5 ∧ s.cur.buf = hello ∧ Utf8PrevChar hello 6 = 5 :=
  ⟨_, step_left_hello, by decide, by decide, by decide⟩

/-! ## Sessions -/

theorem toSizeT_of_nonneg (i : Int) (h : 0 ≤ i) : toSizeT i = i.toNat := by
  simp [toSizeT, h]

theorem toSizeT_natCast (n : Nat) : toSizeT (n : Int) = n := by
  simp [toSizeT]

theorem Session.cur_setCur (s : Session) (f : Field) : (s.setCur f).cur = f := by
  unfold Session.setCur Session.cur
  split <;> simp_all

theorem Session.other_setCur (s : Session) (f : Field) : (s.setCur f).other = s.other := by
  unfold Session.setCur Session.other
  split <;> simp_all

theorem Session.active_setCur (s : Session) (f : Field) : (s.setCur f).active = s.active := by
  unfold Session.setCur
  split <;> rfl

theorem Session.done_setCur (s : Session) (f : Field) : (s.setCur f).done = s.done := by
  unfold Session.setCur
  split <;> rfl

theorem Session.Both.cur {P : List Byte → Int → Prop} {s : Session} (h : s.Both P) :
    P s.cur.buf s.cur.cursor := by
  unfold Session.cur
  split
  · exact h.1
  · exact h.2

theorem Session.Both.setCur {P : List Byte → Int → Prop} {s : Session} (h : s.Both P)
    (f : Field) (hf : P f.buf f.cursor) : (s.setCur f).Both P := by
  unfold Session.setCur
  split
  · exact ⟨hf, h.2⟩
  · exact ⟨h.1, hf⟩

theorem switchField_both {lc : Libc} {P : List Byte → Int → Prop} {Q : List Byte → Prop}
    (hP : FieldInvariant lc P Q) {s : Session} (h : s.Both P) : (switchField s).Both P := by
  unfold switchField
  dsimp only
  split
  · exact ⟨hP.atEnd _ _ h.1, h.2⟩
  · exact ⟨h.1, hP.atEnd _ _ h.2⟩

theorem backspace_safe {lc : Libc} {P : List Byte → Int → Prop} {Q : List Byte → Prop}
    (hP : FieldInvariant lc P Q) {s : Session} (h : s.Both P) :
    (backspace s).Safe (Session.Both P) := by
  unfold backspace
  dsimp only
  split
  · rename_i hc
    obtain ⟨b1, hb, hp⟩ := hP.backspace _ _ h.cur hc
    simp only [hb]
    exact h.setCur _ hp
  · exact h

theorem textInput_safe {lc : Libc} {P : List Byte → Int → Prop} {Q : List Byte → Prop}
    (hP : FieldInvariant lc P Q) {s : Session} (h : s.Both P) (wch : Nat)
    (hl : isCaseLabel wch = false) : (textInput lc s wch).Safe (Session.Both P) := by
  unfold textInput
  dsimp only
  split
  · rename_i hp
    split
    · obtain ⟨b1, hb, hp1⟩ := hP.insert _ _ wch h.cur hp hl
      simp only [hb]
      exact h.setCur _ hp1
    · exact h
  · exact h

theorem stepKey_safe {lc : Libc} {P : List Byte → Int → Prop} {Q : List Byte → Prop}
    (hP : FieldInvariant lc P Q) {s : Session} (h : s.Both P) (ev : Event) :
    (stepKey s ev).Safe (Session.Both P) := by
  unfold stepKey
  dsimp only
  split_ifs with h1 h2 h3 h4 h5 h6 h7 h8 h9 h10 h11
  · exact h
  · exact h.setCur _ (hP.left _ _ h.cur h3)
  · exact h
  · exact h.setCur _ (hP.right _ _ h.cur h5)
  · exact h
  · exact switchField_both hP h
  · exact switchField_both hP h
  · exact backspace_safe hP h
  · obtain ⟨b1, hb, hp⟩ := hP.delete _ _ h.cur h10
    simp only [hb]
    exact h.setCur _ hp
  · exact h
  · exact h
  · exact h

theorem isCaseLabel_eq_false (wch : Nat) :
    isCaseLabel wch = false ↔
      wch ≠ KEY_CTRLC ∧ wch ≠ KEY_CTRLD ∧ wch ≠ KEY_CTRLX ∧ wch ≠ KEY_CTRLA ∧ wch ≠ KEY_HOME ∧
      wch ≠ KEY_CTRLE ∧ wch ≠ KEY_END ∧ wch ≠ KEY_CTRLK ∧ wch ≠ KEY_CTRLU ∧ wch ≠ 127 ∧
      wch ≠ 8 ∧ wch ≠ 10 ∧ wch ≠ 13 ∧ wch ≠ 9 := by
  simp [isCaseLabel]

/-- A character without a `case` label is handled by `default:`. -/
theorem stepChar_default (lc : Libc) (s : Session) (ev : Event)
    (h : isCaseLabel ev.wch = false) : stepChar lc s ev = textInput lc s ev.wch := by
  obtain ⟨h1, h2, h3, h4, h5, h6, h7, h8, h9, h10, h11, h12, h13, h14⟩ :=
    (isCaseLabel_eq_false ev.wch).1 h
  unfold stepChar
  simp [h1, h2, h3, h4, h5, h6, h7, h8, h9, h10, h11, h12, h13, h14]

theorem stepChar_safe {lc : Libc} {P : List Byte → Int → Prop} {Q : List Byte → Prop}
    (hP : FieldInvariant lc P Q) {s : Session} (h : s.Both P) (ev : Event)
    (hid : ∀ p, ev.identify = some p → Q p.1 ∧ Q p.2) :
    (stepChar lc s ev).Safe (Session.Both P) := by
  by_cases hl : isCaseLabel ev.wch = false
  · rw [stepChar_default lc s ev hl]
    exact textInput_safe hP h _ hl
  · unfold stepChar
    dsimp only
    by_cases h1 : ev.wch = KEY_CTRLC
    · rw [if_pos h1]
      trivial
    rw [if_neg h1]
    by_cases h2 : ev.wch = KEY_CTRLD
    · rw [if_pos h2]
      split
      · rename_i a t hi
        obtain ⟨q1, q2⟩ := hid (a, t) hi
        exact ⟨hP.identified _ q1, hP.identified _ q2⟩
      · exact h
    rw [if_neg h2]
    by_cases h3 : ev.wch = KEY_CTRLX
    · rw [if_pos h3]
      exact h
    rw [if_neg h3]
    by_cases h4 : ev.wch = KEY_CTRLA ∨ ev.wch = KEY_HOME
    · rw [if_pos h4]
      exact h.setCur _ (hP.atHome _ _ h.cur)
    rw [if_neg h4]
    by_cases h5 : ev.wch = KEY_CTRLE ∨ ev.wch = KEY_END
    · rw [if_pos h5]
      exact h.setCur _ (hP.atEnd _ _ h.cur)
    rw [if_neg h5]
    by_cases h6 : ev.wch = KEY_CTRLK
    · rw [if_pos h6]
      split
      · rename_i h7
        obtain ⟨b1, hb, hp⟩ := hP.killToEnd _ _ h.cur h7
        simp only [hb]
        exact h.setCur _ hp
      · exact h
    rw [if_neg h6]
    by_cases h8 : ev.wch = KEY_CTRLU
    · rw [if_pos h8]
      split
      · rename_i h9
        obtain ⟨b1, hb, hp⟩ := hP.killToStart _ _ h.cur h9
        simp only [hb]
        exact h.setCur _ hp
      · exact h
    rw [if_neg h8]
    by_cases h10 : ev.wch = 127 ∨ ev.wch = 8
    · rw [if_pos h10]
      exact backspace_safe hP h
    rw [if_neg h10]
    by_cases h11 : ev.wch = 10 ∨ ev.wch = 13
    · rw [if_pos h11]
      split
      · exact h
      · exact ⟨h.1, hP.atEnd _ _ h.2⟩
    rw [if_neg h11]
    by_cases h12 : ev.wch = 9
    · rw [if_pos h12]
      exact switchField_both hP h
    exact absurd ((isCaseLabel_eq_false ev.wch).2
      ⟨h1, h2, h3, by tauto, by tauto, by tauto, by tauto, h6, h8, by tauto, by tauto,
        by tauto, by tauto, h12⟩) hl

theorem step_safe {lc : Libc} {P : List Byte → Int → Prop} {Q : List Byte → Prop}
    (hP : FieldInvariant lc P Q) {s : Session} (h : s.Both P) (ev : Event)
    (hid : ∀ p, ev.identify = some p → Q p.1 ∧ Q p.2) :
    (step lc s ev).Safe (Session.Both P) := by
  unfold step
  split
  · exact stepKey_safe hP h ev
  · exact stepChar_safe hP h ev hid

theorem runLoop_safe {lc : Libc} {P : List Byte → Int → Prop} {Q : List Byte → Prop}
    (hP : FieldInvariant lc P Q) (evs : List Event) :
    ∀ s : Session, s.Both P → (∀ ev ∈ evs, ∀ p, ev.identify = some p → Q p.1 ∧ Q p.2) →
      (runLoop lc s evs).Safe (Session.Both P) := by
  induction evs with
  | nil => exact fun s h _ => h
  | cons ev evs ih =>
    intro s h hid
    unfold runLoop
    split
    · exact h
    · have hstep := step_safe hP h ev (hid ev (List.mem_cons_self _ _))
      cases hr : step lc s ev with
      | next s1 =>
        rw [hr] at hstep
        exact ih s1 hstep (fun e he => hid e (List.mem_cons_of_mem _ he))
      | cancelled => trivial
      | thrown =>
        rw [hr] at hstep
        exact hstep.elim

theorem initSession_both {P : List Byte → Int → Prop} (a t : List Byte) (rows cols : Int)
    (ha : P a (toInt a.length)) (ht : P t (toInt t.length)) :
    (initSession a t rows cols).Both P := ⟨ha, ht⟩

/-! ## Cursor bounds -/

theorem Utf8PrevChar_lt (s : List Byte) (pos : Nat) (h1 : 0 < pos) (h2 : pos ≤ s.length) :
    Utf8PrevChar s pos < pos :=
  (Utf8PrevChar_of_pos s pos h1 h2).1

/-- The bounds `0 ≤ cursor ≤ length(buf)` are kept by every editing operation, whatever
the bytes of the buffer are. -/
theorem cursorBounds_invariant (lc : Libc) :
    FieldInvariant lc (fun b c => 0 ≤ c ∧ c ≤ (b.length : Int)) (fun _ => True) where
  atEnd := fun b c _ => by simp [toInt]
  atHome := fun b c _ => by simp
  identified := fun a _ => by simp [toInt]
  left := fun b c ⟨h0, h1⟩ hc => by
    obtain ⟨n, rfl⟩ := Int.eq_ofNat_of_zero_le h0
    have := Utf8PrevChar_lt b n (by omega) (by omega)
    simp only [toSizeT_natCast, toInt]
    omega
  right := fun b c ⟨h0, h1⟩ hc => by
    obtain ⟨n, rfl⟩ := Int.eq_ofNat_of_zero_le h0
    simp only [toInt] at hc
    have := Utf8CharLen_le b n (by omega)
    simp only [toSizeT_natCast, toInt]
    omega
  backspace := fun b c ⟨h0, h1⟩ hc => by
    obtain ⟨n, rfl⟩ := Int.eq_ofNat_of_zero_le h0
    have := Utf8PrevChar_lt b n (by omega) (by omega)
    simp only [toSizeT_natCast, toInt]
    refine ⟨_, if_neg (by omega), ?_⟩
    simp only [List.length_append, List.length_take, List.length_drop]
    omega
  delete := fun b c ⟨h0, h1⟩ hc => by
    obtain ⟨n, rfl⟩ := Int.eq_ofNat_of_zero_le h0
    simp only [toInt] at hc
    simp only [toSizeT_natCast]
    refine ⟨_, if_neg (by omega), ?_⟩
    simp only [List.length_append, List.length_take, List.length_drop]
    omega
  killToEnd := fun b c ⟨h0, h1⟩ hc => by
    obtain ⟨n, rfl⟩ := Int.eq_ofNat_of_zero_le h0
    simp only [toSizeT_natCast]
    refine ⟨_, if_neg (by omega), ?_⟩
    simp only [List.length_take]
    omega
  killToStart := fun b c ⟨h0, h1⟩ hc => by
    obtain ⟨n, rfl⟩ := Int.eq_ofNat_of_zero_le h0
    simp only [toSizeT_natCast]
    exact ⟨_, if_neg (by omega), by simp⟩
  insert := fun b c wch ⟨h0, h1⟩ _ _ => by
    obtain ⟨n, rfl⟩ := Int.eq_ofNat_of_zero_le h0
    simp only [toSizeT_natCast, toInt]
    refine ⟨_, if_neg (by omega), ?_⟩
    simp only [List.length_append, List.length_take, List.length_drop]
    omega

/-- C1: from the initial state of `Editor::Edit`, whatever the two strings, the terminal
size and the C library are, after every sequence of events (keys, characters, resizes,
Ctrl-D with either outcome of Identify) the loop has not thrown and both fields satisfy
`0 ≤ cursor ≤ length(buf)`. -/
theorem cursor_in_bounds (lc : Libc) (p_Artist p_Title : List Byte) (rows cols : Int)
    (evs : List Event) :
    (runLoop lc (initSession p_Artist p_Title rows cols) evs).Safe
      (fun s => CursorInBounds s.artist ∧ CursorInBounds s.title) :=
  runLoop_safe (cursorBounds_invariant lc) evs _
    (initSession_both p_Artist p_Title rows cols (by simp [toInt]) (by simp [toInt]))
    (fun _ _ _ _ => ⟨trivial, trivial⟩)

/-! ## Character boundaries -/

theorem OnBoundary.wellFormed {C : List Byte → Prop} {s : List Byte} {o : Nat}
    (h : OnBoundary C s o) : WellFormed C s := by
  obtain ⟨pre, post, hpre, hpost, rfl, _⟩ := h
  refine ⟨pre ++ post, fun ch hch => ?_, by simp⟩
  rcases List.mem_append.1 hch with h1 | h1
  · exact hpre ch h1
  · exact hpost ch h1

theorem WellFormed.atEnd {C : List Byte → Prop} {s : List Byte} (h : WellFormed C s) :
    OnBoundary C s s.length := by
  obtain ⟨chars, hc, rfl⟩ := h
  exact ⟨chars, [], hc, by simp, by simp, rfl⟩

theorem WellFormed.atStart {C : List Byte → Prop} {s : List Byte} (h : WellFormed C s) :
    OnBoundary C s 0 := by
  obtain ⟨chars, hc, rfl⟩ := h
  exact ⟨[], chars, by simp, hc, by simp, rfl⟩

/-- A boundary that is not the start of the buffer is the end of a character. -/
theorem OnBoundary.split_left {C : List Byte → Prop}
    {s : List Byte} {o : Nat} (h : OnBoundary C s o) (ho : 0 < o) :
    ∃ (pre : List (List Byte)) (ch : List Byte) (post : List (List Byte)),
      (∀ c ∈ pre, C c) ∧ C ch ∧ (∀ c ∈ post, C c) ∧
      s = pre.flatten ++ ch ++ post.flatten ∧ o = pre.flatten.length + ch.length := by
  obtain ⟨pre, post, hpre, hpost, rfl, rfl⟩ := h
  rcases List.eq_nil_or_concat pre with rfl | ⟨init, ch, rfl⟩
  · simp at ho
  · rw [List.concat_eq_append] at hpre ⊢
    refine ⟨init, ch, post, fun c hc => hpre c (List.mem_append_left _ hc),
      hpre ch (by simp), hpost, ?_, ?_⟩
    · simp [List.flatten_append]
    · simp [List.flatten_append]

/-- A boundary that is not the end of the buffer is the start of a character. -/
theorem OnBoundary.split_right {C : List Byte → Prop}
    {s : List Byte} {o : Nat} (h : OnBoundary C s o) (ho : o < s.length) :
    ∃ (pre : List (List Byte)) (ch : List Byte) (post : List (List Byte)),
      (∀ c ∈ pre, C c) ∧ C ch ∧ (∀ c ∈ post, C c) ∧
      s = pre.flatten ++ ch ++ post.flatten ∧ o = pre.flatten.length := by
  obtain ⟨pre, post, hpre, hpost, rfl, rfl⟩ := h
  cases post with
  | nil => simp at ho
  | cons ch post =>
    exact ⟨pre, ch, post, hpre, hpost ch (List.mem_cons_self _ _),
      fun c hc => hpost c (List.mem_cons_of_mem _ hc), by simp, rfl⟩

theorem onBoundary_before {C : List Byte → Prop} {pre post : List (List Byte)}
    {ch : List Byte} (hpre : ∀ c ∈ pre, C c) (hch : C ch) (hpost : ∀ c ∈ post, C c) :
    OnBoundary C (pre.flatten ++ ch ++ post.flatten) pre.flatten.length :=
  ⟨pre, ch :: post, hpre, by simpa using ⟨hch, hpost⟩, by simp, rfl⟩

theorem onBoundary_after {C : List Byte → Prop} {pre post : List (List Byte)}
    {ch : List Byte} (hpre : ∀ c ∈ pre, C c) (hch : C ch) (hpost : ∀ c ∈ post, C c) :
    OnBoundary C (pre.flatten ++ ch ++ post.flatten) (pre.flatten.length + ch.length) :=
  ⟨pre ++ [ch], post, by
      intro c hc
      rcases List.mem_append.1 hc with h1 | h1
      · exact hpre c h1
      · rw [List.mem_singleton.1 h1]
        exact hch,
    hpost, by simp, by simp⟩

/-- Being on a character boundary of a well-formed buffer is kept by every editing
operation, when the characters inserted are encoded as one character each. -/
theorem boundary_invariant (C : List Byte → Prop) (hC : ∀ ch, C ch → IsUtf8Char ch)
    (lc : Libc)
    (hEnc : ∀ wch, lc.iswprint wch = true → isCaseLabel wch = false →
      C (WCharToUtf8 lc wch)) :
    FieldInvariant lc (fun b c => ∃ o : Nat, c = (o : Int) ∧ OnBoundary C b o)
      (WellFormed C) where
  atEnd := fun b c ⟨o, _, h⟩ => ⟨b.length, rfl, h.wellFormed.atEnd⟩
  atHome := fun b c ⟨o, _, h⟩ => ⟨0, rfl, h.wellFormed.atStart⟩
  identified := fun a h => ⟨a.length, rfl, h.atEnd⟩
  left := fun b c ⟨o, hc, h⟩ hpos => by
    subst hc
    obtain ⟨pre, ch, post, hpre, hch, hpost, rfl, rfl⟩ := h.split_left (by omega)
    rw [toSizeT_natCast, Utf8PrevChar_char _ _ _ (hC ch hch)]
    exact ⟨_, rfl, onBoundary_before hpre hch hpost⟩
  right := fun b c ⟨o, hc, h⟩ hlt => by
    subst hc
    simp only [toInt] at hlt
    obtain ⟨pre, ch, post, hpre, hch, hpost, rfl, rfl⟩ := h.split_right (by omega)
    rw [toSizeT_natCast, Utf8CharLen_char _ _ _ (hC ch hch)]
    exact ⟨_, by simp [toInt], onBoundary_after hpre hch hpost⟩
  backspace := fun b c ⟨o, hc, h⟩ hpos => by
    subst hc
    obtain ⟨pre, ch, post, hpre, hch, hpost, rfl, rfl⟩ := h.split_left (by omega)
    rw [toSizeT_natCast, Utf8PrevChar_char _ _ _ (hC ch hch)]
    refine ⟨pre.flatten ++ post.flatten, ?_, _, rfl, pre, post, hpre, hpost, rfl, rfl⟩
    unfold strErase
    rw [if_neg (by simp), List.append_assoc, List.take_left]
    have e : pre.flatten.length + (pre.flatten.length + ch.length - pre.flatten.length) =
        pre.flatten.length + ch.length := by omega
    rw [e, ← List.append_assoc, List.drop_left' (by simp)]
  delete := fun b c ⟨o, hc, h⟩ hlt => by
    subst hc
    simp only [toInt] at hlt
    obtain ⟨pre, ch, post, hpre, hch, hpost, rfl, rfl⟩ := h.split_right (by omega)
    rw [toSizeT_natCast, Utf8CharLen_char _ _ _ (hC ch hch)]
    refine ⟨pre.flatten ++ post.flatten, ?_, _, rfl, pre, post, hpre, hpost, rfl, rfl⟩
    unfold strErase
    rw [if_neg (by simp), List.drop_left' (by simp), List.append_assoc, List.take_left]
  killToEnd := fun b c ⟨o, hc, h⟩ _ => by
    subst hc
    obtain ⟨pre, post, hpre, hpost, rfl, rfl⟩ := h
    rw [toSizeT_natCast]
    refine ⟨pre.flatten, ?_, _, rfl, pre, [], hpre, by simp, by simp, rfl⟩
    unfold strEraseToEnd
    rw [if_neg (by simp), List.take_left]
  killToStart := fun b c ⟨o, hc, h⟩ _ => by
    subst hc
    obtain ⟨pre, post, hpre, hpost, rfl, rfl⟩ := h
    rw [toSizeT_natCast]
    refine ⟨post.flatten, ?_, 0, rfl, [], post, by simp, hpost, by simp, rfl⟩
    unfold strErase
    rw [if_neg (by simp), Nat.zero_add, List.drop_left]
    rfl
  insert := fun b c wch ⟨o, hc, h⟩ hp hl => by
    subst hc
    obtain ⟨pre, post, hpre, hpost, rfl, rfl⟩ := h
    rw [toSizeT_natCast]
    refine ⟨pre.flatten ++ WCharToUtf8 lc wch ++ post.flatten, ?_, _, by simp [toInt],
      onBoundary_after hpre (hEnc wch hp hl) hpost⟩
    unfold strInsert
    rw [if_neg (by simp), List.take_left, List.drop_left]

/-- C2: when the initial artist and title strings and every string Identify returns are
well-formed UTF-8, and each inserted character is encoded as one well-formed UTF-8
character, then after every sequence of events the loop has not thrown, both buffers are
well-formed UTF-8 and both cursors are on a character boundary. `C` is the set of
well-formed characters: any set of byte sequences of the shape `IsUtf8Char`. -/
theorem cursor_on_boundary (C : List Byte → Prop) (hC : ∀ ch, C ch → IsUtf8Char ch)
    (lc : Libc)
    (hEnc : ∀ wch, lc.iswprint wch = true → isCaseLabel wch = false →
      C (WCharToUtf8 lc wch))
    (p_Artist p_Title : List Byte) (hArtist : WellFormed C p_Artist)
    (hTitle : WellFormed C p_Title) (rows cols : Int) (evs : List Event)
    (hIdentify : ∀ ev ∈ evs, ∀ p, ev.identify = some p → WellFormed C p.1 ∧ WellFormed C p.2) :
    (runLoop lc (initSession p_Artist p_Title rows cols) evs).Safe
      (fun s => s.artist.OnBoundary C ∧ s.title.OnBoundary C) := by
  have h := runLoop_safe (boundary_invariant C hC lc hEnc) evs
    (initSession p_Artist p_Title rows cols)
    (initSession_both p_Artist p_Title rows cols ⟨_, rfl, hArtist.atEnd⟩ ⟨_, rfl, hTitle.atEnd⟩)
    hIdentify
  cases hr : runLoop lc (initSession p_Artist p_Title rows cols) evs with
  | next s =>
    rw [hr] at h
    obtain ⟨⟨o1, h1, b1⟩, ⟨o2, h2, b2⟩⟩ := h
    exact ⟨⟨b1.wellFormed, o1, h1, b1⟩, ⟨b2.wellFormed, o2, h2, b2⟩⟩
  | cancelled => trivial
  | thrown =>
    rw [hr] at h
    exact h.elim

/-- In the UTF-8 locale every printable character is encoded as one UTF-8 character. -/
theorem utf8Locale_encodes (wch : Nat) (hp : utf8Locale.iswprint wch = true) :
    IsUtf8Char (WCharToUtf8 utf8Locale wch) := by
  simp only [utf8Locale, utf8Iswprint, decide_eq_true_eq] at hp
  obtain ⟨h1, h2, h3, h4⟩ := hp
  unfold WCharToUtf8 utf8Locale utf8Encode
  dsimp only
  split_ifs with c1 c2 c3
  all_goals simp only [IsUtf8Char, leadLength, IsContinuation, Fin.ofNat, List.length_cons,
    List.length_nil, List.mem_cons, List.mem_singleton, List.not_mem_nil, forall_eq_or_imp,
    forall_eq, or_false, IsEmpty.forall_iff, implies_true, and_true, gt_iff_lt,
    Nat.zero_lt_succ, if_true]
  all_goals split_ifs
  all_goals omega

theorem helloChars_wellFormed : ∀ ch ∈ helloChars, IsUtf8Char ch := by
  simp [helloChars, IsUtf8Char, leadLength, IsContinuation]
  decide

theorem hello_wellFormed : WellFormed IsUtf8Char hello :=
  ⟨helloChars, helloChars_wellFormed, by decide⟩

theorem nil_wellFormed (C : List Byte → Prop) : WellFormed C [] :=
  ⟨[], by simp, rfl⟩

theorem helloEvents_identify :
    ∀ ev ∈ helloEvents, ∀ p, ev.identify = some p →
      WellFormed IsUtf8Char p.1 ∧ WellFormed IsUtf8Char p.2 := by
  intro ev hev p hp
  simp only [helloEvents, List.mem_cons, List.mem_singleton, List.not_mem_nil, or_false] at hev
  rcases hev with rfl | rfl | rfl | rfl
  · simp [keyEvent] at hp
  · simp [charEvent] at hp
  · simp [keyEvent] at hp
  · simp only [charEvent, Option.some.injEq] at hp
    subst hp
    exact ⟨hello_wellFormed, nil_wellFormed _⟩

/-- C2 at a concrete input: the session `helloEvents` on "héllo" in the UTF-8 locale. -/
theorem cursor_on_boundary_witness :
    (∀ wch, utf8Locale.iswprint wch = true → isCaseLabel wch = false →
      IsUtf8Char (WCharToUtf8 utf8Locale wch)) ∧
    WellFormed IsUtf8Char hello ∧ WellFormed IsUtf8Char [] ∧
    (∀ ev ∈ helloEvents, ∀ p, ev.identify = some p →
      WellFormed IsUtf8Char p.1 ∧ WellFormed IsUtf8Char p.2) ∧
    (runLoop utf8Locale (initSession hello [] 24 80) helloEvents).Safe
      (fun s => s.artist.OnBoundary IsUtf8Char ∧ s.title.OnBoundary IsUtf8Char) :=
  ⟨fun wch hp _ => utf8Locale_encodes wch hp, hello_wellFormed, nil_wellFormed _,
    helloEvents_identify,
    cursor_on_boundary IsUtf8Char (fun _ h => h) utf8Locale
      (fun wch hp _ => utf8Locale_encodes wch hp) hello [] hello_wellFormed
      (nil_wellFormed _) 24 80 helloEvents helloEvents_identify⟩

/-! ## Text input -/

theorem step_char (lc : Libc) (s : Session) (ev : Event) (hrc : ev.rc ≠ KEY_CODE_YES) :
    step lc s ev = stepChar lc s ev := by
  unfold step
  rw [if_neg hrc]

/-- A character without a `case` label whose width does not fit is rejected: the event
changes nothing. -/
theorem textInput_rejects (lc : Libc) (s : Session) (ev : Event) (hrc : ev.rc ≠ KEY_CODE_YES)
    (hlabel : isCaseLabel ev.wch = false)
    (hw : Utf8DisplayWidth lc s.cur.buf + charWidth lc ev.wch > s.cur.w) :
    step lc s ev = .next s := by
  rw [step_char lc s ev hrc, stepChar_default lc s ev hlabel]
  unfold textInput
  dsimp only
  split
  · rw [if_neg (by omega)]
  · rfl

/-- C7: a printable character that reaches the text-input branch and fits the width of
the active field, whose cursor is within its buffer, is inserted at the cursor: the new
buffer is `buf[0..cursor) ++ utf8(c) ++ buf[cursor..)`, the cursor advances by the length
of `utf8(c)`, and the other field, the active index, the geometry of the active field and
the rest of the session are unchanged. -/
theorem textInput_accepts (lc : Libc) (s : Session) (ev : Event) (hrc : ev.rc ≠ KEY_CODE_YES)
    (hlabel : isCaseLabel ev.wch = false) (hprint : lc.iswprint ev.wch = true)
    (hcur : CursorInBounds s.cur)
    (hw : Utf8DisplayWidth lc s.cur.buf + charWidth lc ev.wch ≤ s.cur.w) :
    ∃ s1, step lc s ev = .next s1 ∧
      s1.cur.buf = s.cur.buf.take s.cur.cursor.toNat ++ WCharToUtf8 lc ev.wch ++
        s.cur.buf.drop s.cur.cursor.toNat ∧
      s1.cur.cursor = s.cur.cursor + ((WCharToUtf8 lc ev.wch).length : Int) ∧
      s1.other = s.other ∧ s1.active = s.active ∧
      s1.cur.y = s.cur.y ∧ s1.cur.x = s.cur.x ∧ s1.cur.w = s.cur.w ∧
      s1.cur.label = s.cur.label ∧ s1.rows = s.rows ∧ s1.cols = s.cols ∧ s1.done = s.done := by
  obtain ⟨h0, h1⟩ := hcur
  have hpos : ¬ toSizeT s.cur.cursor > s.cur.buf.length := by
    rw [toSizeT_of_nonneg _ h0]
    omega
  rw [step_char lc s ev hrc, stepChar_default lc s ev hlabel]
  unfold textInput strInsert
  dsimp only
  rw [if_pos hprint, if_pos hw, if_neg hpos]
  refine ⟨_, rfl, ?_⟩
  rw [Session.cur_setCur, Session.other_setCur, Session.active_setCur, Session.done_setCur,
    toSizeT_of_nonneg _ h0]
  refine ⟨rfl, rfl, rfl, rfl, rfl, rfl, rfl, rfl, ?_, ?_, rfl⟩
  · unfold Session.setCur
    split <;> rfl
  · unfold Session.setCur
    split <;> rfl

/-- C7 at a concrete input: U+4E2D typed at the end of "héllo" in a field 70 cells wide
appends its three bytes E4 B8 AD and moves the cursor from 6 to 9. -/
theorem textInput_accepts_witness :
    (charEvent 0x4E2D).rc ≠ KEY_CODE_YES ∧ isCaseLabel 0x4E2D = false ∧
    utf8Locale.iswprint 0x4E2D = true ∧ CursorInBounds (mkSession hello 6 [] 70).cur ∧
    Utf8DisplayWidth utf8Locale hello + charWidth utf8Locale 0x4E2D ≤ 70 ∧
    step utf8Locale (mkSession hello 6 [] 70) (charEvent 0x4E2D) =
      .next (mkSession (hello ++ [0xE4, 0xB8, 0xAD]) 9 [] 70) ∧
    ∃ s1, step utf8Locale (mkSession hello 6 [] 70) (charEvent 0x4E2D) = .next s1 ∧
      s1.cur.cursor = 6 + ((WCharToUtf8 utf8Locale 0x4E2D).length : Int) :=
  ⟨by decide, by decide, by decide, by decide, by decide, by decide,
    (textInput_accepts utf8Locale (mkSession hello 6 [] 70) (charEvent 0x4E2D) (by decide)
      (by decide) (by decide) (by decide) (by decide)).imp fun _ h => ⟨h.1, h.2.2.1⟩⟩

/-! ## Home and End -/

/-- The characters 262 (U+0106) and 360 (U+0168) are taken by the labels `KEY_HOME` and
`KEY_END` of the character switch: they move the cursor and never reach `default:`. -/
theorem step_char_home_end (lc : Libc) (s : Session) :
    step lc s (charEvent 262) = .next (s.setCur { s.cur with cursor := 0 }) ∧
    step lc s (charEvent 360) =
      .next (s.setCur { s.cur with cursor := toInt s.cur.buf.length }) := by
  constructor <;> rfl

/-- The characters Ctrl-A (1) and Ctrl-E (5) move the cursor of the active field to the
start and to the end of its buffer. -/
theorem step_ctrlA_ctrlE (lc : Libc) (s : Session) :
    step lc s (charEvent KEY_CTRLA) = .next (s.setCur { s.cur with cursor := 0 }) ∧
    step lc s (charEvent KEY_CTRLE) =
      .next (s.setCur { s.cur with cursor := toInt s.cur.buf.length }) := by
  constructor <;> rfl

/-- The function keys Home and End have no `case` in the function-key switch: the event
changes nothing. -/
theorem step_key_home_end (lc : Libc) (s : Session) :
    step lc s (keyEvent KEY_HOME) = .next s ∧ step lc s (keyEvent KEY_END) = .next s := by
  constructor <;> rfl

/-- C8, the code at the failing input: in the UTF-8 locale U+0106 and U+0168 are printable,
one column wide, encoded as C4 86 and C5 A8, and fit a field 70 cells wide that holds "ab";
yet typing U+0106 with the cursor at 2 leaves the buffer "ab" and moves the cursor to 0,
and typing U+0168 with the cursor at 0 leaves the buffer "ab" and moves the cursor to 2. -/
theorem char_home_end_not_inserted :
    utf8Locale.iswprint 262 = true ∧ utf8Locale.iswprint 360 = true ∧
    Utf8DisplayWidth utf8Locale ab + charWidth utf8Locale 262 ≤ 70 ∧
    Utf8DisplayWidth utf8Locale ab + charWidth utf8Locale 360 ≤ 70 ∧
    WCharToUtf8 utf8Locale 262 = [0xC4, 0x86] ∧ WCharToUtf8 utf8Locale 360 = [0xC5, 0xA8] ∧
    step utf8Locale (mkSession ab 2 [] 70) (charEvent 262) = .next (mkSession ab 0 [] 70) ∧
    step utf8Locale (mkSession ab 0 [] 70) (charEvent 360) = .next (mkSession ab 2 [] 70) := by
  decide

/-- C9, the code at the failing input: with the buffer "ab", the function key Home
leaves the cursor at 2 and the function key End leaves the cursor at 0; the whole session
is unchanged. -/
theorem key_home_end_ignored :
    step utf8Locale (mkSession ab 2 [] 70) (keyEvent KEY_HOME) = .next (mkSession ab 2 [] 70) ∧
    step utf8Locale (mkSession ab 0 [] 70) (keyEvent KEY_END) = .next (mkSession ab 0 [] 70) := by
  decide

/-- C6, the code at the failing input: a field 20 cells wide holds ten characters two
columns wide (width 20), the cursor is at its end (offset 30); U+0106 is printable and one
column wide, so it does not fit, yet the character event moves the cursor to 0. -/
theorem full_field_char_262_moves_cursor :
    utf8Locale.iswprint 262 = true ∧ Utf8DisplayWidth utf8Locale tenWide = 20 ∧
    charWidth utf8Locale 262 = 1 ∧
    Utf8DisplayWidth utf8Locale tenWide + charWidth utf8Locale 262 > 20 ∧
    step utf8Locale (mkSession tenWide 30 [] 20) (charEvent 262) =
      .next (mkSession tenWide 0 [] 20) := by
  decide

/-- The scenario of the full field on a character that reaches the text-input branch: with
ten characters two columns wide in a field 20 cells wide, the character "a" is rejected. -/
theorem full_field_rejects_a :
    Utf8DisplayWidth utf8Locale tenWide + charWidth utf8Locale 0x61 > 20 ∧
    step utf8Locale (mkSession tenWide 30 [] 20) (charEvent 0x61) =
      .next (mkSession tenWide 30 [] 20) :=
  ⟨by decide, textInput_rejects utf8Locale _ (charEvent 0x61) (by decide) (by decide)
    (by decide)⟩

/-! ## `Utf8DisplayWidth` -/

/-- The loop of `Utf8DisplayWidth` exits within `s.length - pos` iterations: any two
iteration bounds of at least that many give the same result. -/
theorem Utf8DisplayWidthLoop_fuel (lc : Libc) (s : List Byte) (n : Nat) :
    ∀ (m pos : Nat) (width : Int), s.length - pos ≤ n → s.length - pos ≤ m →
      Utf8DisplayWidthLoop lc s n pos width = Utf8DisplayWidthLoop lc s m pos width := by
  induction n with
  | zero =>
    intro m pos width hn _
    cases m with
    | zero => rfl
    | succ m =>
      unfold Utf8DisplayWidthLoop
      rw [if_neg (by omega)]
  | succ n ih =>
    intro m pos width hn hm
    by_cases hp : pos < s.length
    · have hlen := Utf8CharLen_pos s pos hp
      obtain ⟨k, rfl⟩ : ∃ k, m = k + 1 := ⟨m - 1, by omega⟩
      unfold Utf8DisplayWidthLoop
      rw [if_pos hp, if_pos hp]
      exact ih k _ _ (by omega) (by omega)
    · cases m with
      | zero =>
        unfold Utf8DisplayWidthLoop
        rw [if_neg hp]
      | succ m =>
        unfold Utf8DisplayWidthLoop
        rw [if_neg hp, if_neg hp]

/-! ## Deleting -/

theorem step_key (lc : Libc) (s : Session) (ev : Event) (hrc : ev.rc = KEY_CODE_YES) :
    step lc s ev = stepKey s ev := by
  unfold step
  rw [if_pos hrc]

theorem stepKey_backspace (s : Session) (ev : Event) (h : ev.wch = KEY_BACKSPACE) :
    stepKey s ev = backspace s := by
  obtain ⟨rc, wch, rows, cols, id⟩ := ev
  simp only at h
  subst h
  rfl

theorem stepChar_backspace (lc : Libc) (s : Session) (ev : Event)
    (h : ev.wch = 127 ∨ ev.wch = 8) : stepChar lc s ev = backspace s := by
  obtain ⟨rc, wch, rows, cols, id⟩ := ev
  simp only at h
  rcases h with rfl | rfl <;> rfl

theorem step_backspace (lc : Libc) (s : Session) (ev : Event) (h : ev.isBackspace) :
    step lc s ev = backspace s := by
  rcases h with ⟨h1, h2⟩ | ⟨h1, h2⟩
  · rw [step_key lc s ev h1, stepKey_backspace s ev h2]
  · rw [step_char lc s ev h1, stepChar_backspace lc s ev h2]

/-- C11: in a session whose active field has `0 ≤ cursor ≤ length(buf)`, a Backspace event
(KEY_BACKSPACE, DEL or Ctrl-H) changes nothing when the cursor is 0; otherwise, with
`start = Utf8PrevChar(buf, cursor)`, the new buffer is `buf[0..start) ++ buf[cursor..)`,
the new cursor is `start`, and the other field and the active index are unchanged. -/
theorem deleteBackward (lc : Libc) (s : Session) (ev : Event) (hev : ev.isBackspace)
    (hcur : CursorInBounds s.cur) :
    (s.cur.cursor = 0 → step lc s ev = .next s) ∧
    (0 < s.cur.cursor → ∃ s1, step lc s ev = .next s1 ∧
      s1.cur.buf = s.cur.buf.take (Utf8PrevChar s.cur.buf s.cur.cursor.toNat) ++
        s.cur.buf.drop s.cur.cursor.toNat ∧
      s1.cur.cursor = (Utf8PrevChar s.cur.buf s.cur.cursor.toNat : Int) ∧
      s1.other = s.other ∧ s1.active = s.active) := by
  obtain ⟨h0, h1⟩ := hcur
  rw [step_backspace lc s ev hev]
  unfold backspace
  dsimp only
  constructor
  · intro hz
    rw [if_neg (by omega)]
  · intro hp
    have hlt := Utf8PrevChar_lt s.cur.buf s.cur.cursor.toNat (by omega) (by omega)
    rw [if_pos hp, toSizeT_of_nonneg _ h0]
    unfold strErase
    rw [if_neg (by omega)]
    refine ⟨_, rfl, ?_⟩
    rw [Session.cur_setCur, Session.other_setCur, Session.active_setCur]
    refine ⟨?_, rfl, rfl, rfl⟩
    have e : Utf8PrevChar s.cur.buf s.cur.cursor.toNat +
        (s.cur.cursor.toNat - Utf8PrevChar s.cur.buf s.cur.cursor.toNat) =
        s.cur.cursor.toNat := by omega
    simp only [e]

/-- C11 at concrete inputs: Backspace at the end of "héllo" removes "o"; DEL at offset 3
removes the two bytes of "é"; Ctrl-H at offset 0, and on an empty buffer, changes
nothing. -/
theorem deleteBackward_witness :
    (keyEvent KEY_BACKSPACE).isBackspace ∧ CursorInBounds (mkSession hello 6 [] 70).cur ∧
    step utf8Locale (mkSession hello 6 [] 70) (keyEvent KEY_BACKSPACE) =
      .next (mkSession [0x68, 0xC3, 0xA9, 0x6C, 0x6C] 5 [] 70) ∧
    step utf8Locale (mkSession hello 3 [] 70) (charEvent 127) =
      .next (mkSession [0x68, 0x6C, 0x6C, 0x6F] 1 [] 70) ∧
    step utf8Locale (mkSession hello 0 [] 70) (charEvent 8) = .next (mkSession hello 0 [] 70) ∧
    step utf8Locale (mkSession [] 0 [] 70) (charEvent 8) = .next (mkSession [] 0 [] 70) ∧
    ∃ s1, step utf8Locale (mkSession hello 6 [] 70) (keyEvent KEY_BACKSPACE) = .next s1 ∧
      s1.cur.cursor = 5 :=
  ⟨by decide, by decide, by decide, by decide, by decide, by decide,
    ((deleteBackward utf8Locale (mkSession hello 6 [] 70) (keyEvent KEY_BACKSPACE)
      (by decide) (by decide)).2 (by decide)).imp fun _ h => ⟨h.1, h.2.2.1⟩⟩

theorem stepKey_delete (s : Session) (ev : Event) (h : ev.wch = KEY_DC) :
    stepKey s ev =
      if s.cur.cursor < toInt s.cur.buf.length then
        match strErase s.cur.buf (toSizeT s.cur.cursor)
            (Utf8CharLen s.cur.buf (toSizeT s.cur.cursor)) with
        | none => .thrown
        | some b => .next (s.setCur { s.cur with buf := b })
      else .next s := by
  obtain ⟨rc, wch, rows, cols, id⟩ := ev
  simp only at h
  subst h
  rfl

/-- C12: in a session whose active field has `0 ≤ cursor ≤ length(buf)`, a Delete-key
event (KEY_DC) changes nothing when the cursor is at the end of the buffer; otherwise, with
`len = Utf8CharLen(buf, cursor)`, the new buffer is `buf[0..cursor) ++ buf[cursor+len..)`,
the cursor is unchanged, and the other field and the active index are unchanged. -/
theorem deleteForward (lc : Libc) (s : Session) (ev : Event) (hev : ev.isDelete)
    (hcur : CursorInBounds s.cur) :
    (s.cur.cursor = (s.cur.buf.length : Int) → step lc s ev = .next s) ∧
    (s.cur.cursor < (s.cur.buf.length : Int) → ∃ s1, step lc s ev = .next s1 ∧
      s1.cur.buf = s.cur.buf.take s.cur.cursor.toNat ++
        s.cur.buf.drop (s.cur.cursor.toNat + Utf8CharLen s.cur.buf s.cur.cursor.toNat) ∧
      s1.cur.cursor = s.cur.cursor ∧ s1.other = s.other ∧ s1.active = s.active) := by
  obtain ⟨h0, h1⟩ := hcur
  rw [step_key lc s ev hev.1, stepKey_delete s ev hev.2]
  constructor
  · intro he
    rw [if_neg (by simp only [toInt]; omega)]
  · intro hlt
    rw [if_pos (by simp only [toInt]; omega), toSizeT_of_nonneg _ h0]
    unfold strErase
    rw [if_neg (by omega)]
    refine ⟨_, rfl, ?_⟩
    rw [Session.cur_setCur, Session.other_setCur, Session.active_setCur]
    exact ⟨rfl, rfl, rfl, rfl⟩

/-- C12 at concrete inputs: Delete at offset 1 of "héllo" removes the two bytes of "é" and
leaves the cursor at 1; at the end of the buffer, and on an empty buffer, it changes
nothing. -/
theorem deleteForward_witness :
    (keyEvent KEY_DC).isDelete ∧ CursorInBounds (mkSession hello 1 [] 70).cur ∧
    step utf8Locale (mkSession hello 1 [] 70) (keyEvent KEY_DC) =
      .next (mkSession [0x68, 0x6C, 0x6C, 0x6F] 1 [] 70) ∧
    step utf8Locale (mkSession hello 6 [] 70) (keyEvent KEY_DC) =
      .next (mkSession hello 6 [] 70) ∧
    step utf8Locale (mkSession [] 0 [] 70) (keyEvent KEY_DC) = .next (mkSession [] 0 [] 70) ∧
    ∃ s1, step utf8Locale (mkSession hello 1 [] 70) (keyEvent KEY_DC) = .next s1 ∧
      s1.cur.cursor = 1 :=
  ⟨by decide, by decide, by decide, by decide, by decide,
    ((deleteForward utf8Locale (mkSession hello 1 [] 70) (keyEvent KEY_DC)
      (by decide) (by decide)).2 (by decide)).imp fun _ h => ⟨h.1, h.2.2.1⟩⟩

theorem stepChar_ctrlK (lc : Libc) (s : Session) (ev : Event) (h : ev.wch = KEY_CTRLK) :
    stepChar lc s ev =
      if s.cur.cursor < toInt s.cur.buf.length then
        match strEraseToEnd s.cur.buf (toSizeT s.cur.cursor) with
        | none => .thrown
        | some b => .next (s.setCur { s.cur with buf := b })
      else .next s := by
  obtain ⟨rc, wch, rows, cols, id⟩ := ev
  simp only at h
  subst h
  rfl

theorem stepChar_ctrlU (lc : Libc) (s : Session) (ev : Event) (h : ev.wch = KEY_CTRLU) :
    stepChar lc s ev =
      if s.cur.cursor > 0 then
        match strErase s.cur.buf 0 (toSizeT s.cur.cursor) with
        | none => .thrown
        | some b => .next (s.setCur { s.cur with buf := b, cursor := 0 })
      else .next s := by
  obtain ⟨rc, wch, rows, cols, id⟩ := ev
  simp only at h
  subst h
  rfl

theorem Session.setCur_cur (s : Session) : s.setCur s.cur = s := by
  cases s
  unfold Session.setCur Session.cur
  dsimp only
  split <;> rename_i h <;> simp [h]

/-- What Ctrl-K does to a field within bounds: the buffer becomes `buf[0..cursor)`. -/
theorem step_ctrlK (lc : Libc) (s : Session) (ev : Event) (hev : ev.isChar KEY_CTRLK)
    (hcur : CursorInBounds s.cur) :
    step lc s ev =
      .next (s.setCur { s.cur with buf := s.cur.buf.take s.cur.cursor.toNat }) := by
  obtain ⟨h0, h1⟩ := hcur
  rw [step_char lc s ev hev.1, stepChar_ctrlK lc s ev hev.2]
  by_cases hlt : s.cur.cursor < toInt s.cur.buf.length
  · rw [if_pos hlt, toSizeT_of_nonneg _ h0]
    unfold strEraseToEnd
    rw [if_neg (by omega)]
  · rw [if_neg hlt]
    simp only [toInt] at hlt
    have e : s.cur.buf.take s.cur.cursor.toNat = s.cur.buf :=
      List.take_of_length_le (by omega)
    rw [e]
    exact congrArg _ (Session.setCur_cur s).symm

/-- What Ctrl-U does to a field within bounds: the buffer becomes `buf[cursor..)` and the
cursor 0. -/
theorem step_ctrlU (lc : Libc) (s : Session) (ev : Event) (hev : ev.isChar KEY_CTRLU)
    (hcur : CursorInBounds s.cur) :
    step lc s ev =
      .next (s.setCur { s.cur with buf := s.cur.buf.drop s.cur.cursor.toNat, cursor := 0 }) := by
  obtain ⟨h0, h1⟩ := hcur
  rw [step_char lc s ev hev.1, stepChar_ctrlU lc s ev hev.2]
  by_cases hp : s.cur.cursor > 0
  · rw [if_pos hp, toSizeT_of_nonneg _ h0]
    unfold strErase
    rw [if_neg (by omega)]
    simp
  · rw [if_neg hp]
    have hz : s.cur.cursor = 0 := by omega
    have e : ({ s.cur with buf := s.cur.buf.drop s.cur.cursor.toNat, cursor := 0 } : Field) =
        s.cur := by
      rw [hz]
      conv_rhs => rw [show s.cur = { s.cur with cursor := s.cur.cursor } from rfl, hz]
      rfl
    rw [e, Session.setCur_cur]

/-- C13: in a session whose active field has `0 ≤ cursor ≤ length(buf)`, Ctrl-K leaves the
buffer `buf[0..cursor)` and the cursor where it was, Ctrl-U leaves the buffer
`buf[cursor..)` and the cursor at 0; the two kept parts, in this order, are the original
buffer; the other field and the active index are unchanged by both. -/
theorem killToEnd_killToStart (lc : Libc) (s : Session) (evK evU : Event)
    (hK : evK.isChar KEY_CTRLK) (hU : evU.isChar KEY_CTRLU) (hcur : CursorInBounds s.cur) :
    ∃ sK sU, step lc s evK = .next sK ∧ step lc s evU = .next sU ∧
      sK.cur.buf = s.cur.buf.take s.cur.cursor.toNat ∧ sK.cur.cursor = s.cur.cursor ∧
      sU.cur.buf = s.cur.buf.drop s.cur.cursor.toNat ∧ sU.cur.cursor = 0 ∧
      sK.cur.buf ++ sU.cur.buf = s.cur.buf ∧
      sK.other = s.other ∧ sK.active = s.active ∧
      sU.other = s.other ∧ sU.active = s.active := by
  refine ⟨_, _, step_ctrlK lc s evK hK hcur, step_ctrlU lc s evU hU hcur, ?_⟩
  simp only [Session.cur_setCur, Session.other_setCur, Session.active_setCur,
    List.take_append_drop, and_self]

/-- C13 at a concrete input: at offset 3 of "héllo", Ctrl-K keeps "hé" with the cursor at
3 and Ctrl-U keeps "llo" with the cursor at 0. -/
theorem killToEnd_killToStart_witness :
    (charEvent KEY_CTRLK).isChar KEY_CTRLK ∧ (charEvent KEY_CTRLU).isChar KEY_CTRLU ∧
    CursorInBounds (mkSession hello 3 [] 70).cur ∧
    step utf8Locale (mkSession hello 3 [] 70) (charEvent KEY_CTRLK) =
      .next (mkSession [0x68, 0xC3, 0xA9] 3 [] 70) ∧
    step utf8Locale (mkSession hello 3 [] 70) (charEvent KEY_CTRLU) =
      .next (mkSession [0x6C, 0x6C, 0x6F] 0 [] 70) ∧
    ∃ sK sU, step utf8Locale (mkSession hello 3 [] 70) (charEvent KEY_CTRLK) = .next sK ∧
      step utf8Locale (mkSession hello 3 [] 70) (charEvent KEY_CTRLU) = .next sU ∧
      sK.cur.buf ++ sU.cur.buf = hello :=
  ⟨by decide, by decide, by decide, by decide, by decide,
    (killToEnd_killToStart utf8Locale (mkSession hello 3 [] 70) (charEvent KEY_CTRLK)
      (charEvent KEY_CTRLU) (by decide) (by decide) (by decide)).imp fun _ h =>
        h.imp fun _ h => ⟨h.1, h.2.1, h.2.2.2.2.2.2.1⟩⟩

/-! ## Detect -/

theorem stepChar_ctrlD (lc : Libc) (s : Session) (ev : Event) (h : ev.wch = KEY_CTRLD) :
    stepChar lc s ev =
      match ev.identify with
      | some (idArtist, idTitle) =>
        .next { s with
          artist := { s.artist with buf := idArtist, cursor := toInt idArtist.length }
          title := { s.title with buf := idTitle, cursor := toInt idTitle.length }
          active := 0 }
      | none => .next s := by
  obtain ⟨rc, wch, rows, cols, id⟩ := ev
  simp only at h
  subst h
  rfl

/-- C17: on Ctrl-D, when Identify succeeds with `(a, t)` the artist buffer becomes `a`, the
title buffer `t`, each cursor the length of its new buffer and the active field the artist;
when Identify fails the session is unchanged. -/
theorem ctrlD_identify (lc : Libc) (s : Session) (ev : Event) (hev : ev.isChar KEY_CTRLD) :
    (∀ a t, ev.identify = some (a, t) → ∃ s1, step lc s ev = .next s1 ∧
      s1.artist.buf = a ∧ s1.title.buf = t ∧
      s1.artist.cursor = (a.length : Int) ∧ s1.title.cursor = (t.length : Int) ∧
      s1.active = 0) ∧
    (ev.identify = none → step lc s ev = .next s) := by
  rw [step_char lc s ev hev.1, stepChar_ctrlD lc s ev hev.2]
  constructor
  · intro a t h
    rw [h]
    exact ⟨_, rfl, rfl, rfl, rfl, rfl, rfl⟩
  · intro h
    rw [h]

/-- C17 at the input of the scenario: with the title field active and both buffers
holding "ab", Identify returning "Unknown Artist" and "Unknown Title" gives these two
buffers, the cursors 14 and 13, and the artist field active; Identify failing changes
nothing. -/
theorem ctrlD_identify_witness :
    ({ charEvent KEY_CTRLD with identify := some (unknownArtist, unknownTitle) } :
      Event).isChar KEY_CTRLD ∧
    step utf8Locale { mkSession ab 1 ab 70 with active := 1 }
        { charEvent KEY_CTRLD with identify := some (unknownArtist, unknownTitle) } =
      .next { mkSession unknownArtist 14 unknownTitle 70 with active := 0 } ∧
    step utf8Locale { mkSession ab 1 ab 70 with active := 1 } (charEvent KEY_CTRLD) =
      .next { mkSession ab 1 ab 70 with active := 1 } ∧
    ∃ s1, step utf8Locale { mkSession ab 1 ab 70 with active := 1 }
        { charEvent KEY_CTRLD with identify := some (unknownArtist, unknownTitle) } =
        .next s1 ∧ s1.artist.buf = unknownArtist ∧ s1.title.buf = unknownTitle :=
  ⟨by decide, by decide, by decide,
    ((ctrlD_identify utf8Locale { mkSession ab 1 ab 70 with active := 1 }
      { charEvent KEY_CTRLD with identify := some (unknownArtist, unknownTitle) }
      (by decide)).1 unknownArtist unknownTitle rfl).imp fun _ h => ⟨h.1, h.2.1, h.2.2.1⟩⟩

/-! ## Layout -/

theorem tdiv_eq_truncDiv (a b : Int) : a.tdiv b = truncDiv a b := by
  unfold truncDiv
  rcases a with a | a <;> rcases b with b | b
  · have h : (0 : Int) ≤ Int.ofNat a ∧ (0 : Int) ≤ Int.ofNat b :=
      ⟨Int.ofNat_nonneg a, Int.ofNat_nonneg b⟩
    rw [if_pos (Or.inl h)]
    rfl
  · have h : ¬ (((0 : Int) ≤ Int.ofNat a ∧ (0 : Int) ≤ Int.negSucc b) ∨
        (Int.ofNat a < 0 ∧ Int.negSucc b < 0)) := by
      have h1 : Int.negSucc b < 0 := Int.negSucc_lt_zero b
      have h2 : (0 : Int) ≤ Int.ofNat a := Int.ofNat_nonneg a
      rintro (⟨_, h4⟩ | ⟨h3, _⟩)
      · exact absurd h1 (Int.not_lt.2 h4)
      · exact absurd h3 (Int.not_lt.2 h2)
    rw [if_neg h]
    rfl
  · have h : ¬ (((0 : Int) ≤ Int.negSucc a ∧ (0 : Int) ≤ Int.ofNat b) ∨
        (Int.negSucc a < 0 ∧ Int.ofNat b < 0)) := by
      have h1 : Int.negSucc a < 0 := Int.negSucc_lt_zero a
      have h2 : (0 : Int) ≤ Int.ofNat b := Int.ofNat_nonneg b
      rintro (⟨h3, _⟩ | ⟨_, h4⟩)
      · exact absurd h1 (Int.not_lt.2 h3)
      · exact absurd h4 (Int.not_lt.2 h2)
    rw [if_neg h]
    rfl
  · have h : Int.negSucc a < 0 ∧ Int.negSucc b < 0 :=
      ⟨Int.negSucc_lt_zero a, Int.negSucc_lt_zero b⟩
    rw [if_pos (Or.inr h)]
    rfl

theorem max_min_eq_clamp (x : Int) : max 20 (min 70 x) = clamp x 20 70 := by
  unfold clamp
  simp only [max_def, min_def]
  split_ifs <;> omega

theorem tdiv_two_bounds (a : Int) :
    (0 ≤ a → a.tdiv 2 = a / 2) ∧ (a < 0 → a.tdiv 2 = -(-a / 2)) ∧
      (-2147483648 ≤ a → a ≤ 2147483647 → -1073741824 ≤ a.tdiv 2 ∧ a.tdiv 2 ≤ 1073741823) := by
  have h1 : 0 ≤ a → a.tdiv 2 = a / 2 := fun h => Int.tdiv_eq_ediv h (by decide)
  have h2 : a < 0 → a.tdiv 2 = -(-a / 2) := fun h => by
    have e : a = -(-a) := by omega
    rw [e, Int.neg_tdiv, Int.tdiv_eq_ediv (by omega) (by decide)]
    simp
  refine ⟨h1, h2, fun hl hu => ?_⟩
  rcases Int.lt_or_le a 0 with h | h
  · rw [h2 h]
    omega
  · rw [h1 h]
    omega

theorem wrapInt_of_int (x : Int) (h1 : -2 ^ 31 ≤ x) (h2 : x < 2 ^ 31) : wrapInt x = x := by
  unfold wrapInt
  omega

/-- At `cols = INT_MIN` the subtraction `p_Cols - 5` overflows: the wrapped difference is
`INT_MAX - 4`, so `field_w` is 70 and `start_x` is `(2^31 - 70) / 2`. -/
theorem ComputeLayout_int_min :
    ComputeLayout 24 (-2147483648) = { field_w := 70, start_y := 8, start_x := 1073741789 } := by
  decide

/-- C18: for all `int` values `rows` and `cols` for which no subtraction overflows
(`cols ≥ INT_MIN + 20`), `ComputeLayout` returns `field_w = clamp(cols - 5, 20, 70)`,
`start_y = max(1, rows/2 - 4)` and `start_x = (cols - field_w)/2`, the division
truncating toward zero (`-7/2 = -3`); `field_w` lies in `[20, 70]` for all arguments. -/
theorem ComputeLayout_spec (rows cols : Int) :
    (20 ≤ (ComputeLayout rows cols).field_w ∧ (ComputeLayout rows cols).field_w ≤ 70) ∧
    (-2147483648 ≤ rows → rows ≤ 2147483647 → -2147483648 + 20 ≤ cols → cols ≤ 2147483647 →
      (ComputeLayout rows cols).field_w = clamp (cols - 5) 20 70 ∧
      (ComputeLayout rows cols).start_y = max 1 (truncDiv rows 2 - 4) ∧
      (ComputeLayout rows cols).start_x =
        truncDiv (cols - (ComputeLayout rows cols).field_w) 2) ∧
    truncDiv (-7) 2 = -3 ∧ truncDiv 7 2 = 3 := by
  refine ⟨?_, fun hr1 hr2 hc1 hc2 => ?_, by decide, by decide⟩
  · unfold ComputeLayout
    dsimp only
    rw [max_min_eq_clamp]
    unfold clamp
    constructor <;> split_ifs <;> omega
  · have hw : wrapInt (cols - 5) = cols - 5 := wrapInt_of_int _ (by omega) (by omega)
    have hf : 20 ≤ clamp (cols - 5) 20 70 ∧ clamp (cols - 5) 20 70 ≤ 70 := by
      unfold clamp
      constructor <;> split_ifs <;> omega
    have hx : wrapInt (cols - clamp (cols - 5) 20 70) = cols - clamp (cols - 5) 20 70 := by
      unfold clamp
      split_ifs <;> exact wrapInt_of_int _ (by omega) (by omega)
    have hy : wrapInt (rows.tdiv 2 - 4) = rows.tdiv 2 - 4 := by
      have h2 := tdiv_two_bounds rows
      exact wrapInt_of_int _ (by omega) (by omega)
    unfold ComputeLayout
    dsimp only
    rw [max_min_eq_clamp, hw, hx, hy, tdiv_eq_truncDiv, tdiv_eq_truncDiv]
    exact ⟨rfl, rfl, rfl⟩

/-- C18 at concrete inputs: a terminal of 24 by 80 cells gives a field of 70 cells at
column 5 under row 8; one of 6 by 22 cells a field of 20 cells at column 1 under row 1. -/
theorem ComputeLayout_spec_witness :
    ComputeLayout 24 80 = { field_w := 70, start_y := 8, start_x := 5 } ∧
    ComputeLayout 6 22 = { field_w := 20, start_y := 1, start_x := 1 } ∧
    (ComputeLayout 24 80).field_w = clamp (80 - 5) 20 70 ∧
    (ComputeLayout 24 80).start_y = max 1 (truncDiv 24 2 - 4) ∧
    (ComputeLayout 24 80).start_x = truncDiv (80 - (ComputeLayout 24 80).field_w) 2 :=
  ⟨by decide, by decide,
    (ComputeLayout_spec 24 80).2.1 (by decide) (by decide) (by decide) (by decide)⟩

/-! ## The shapes of one step -/

theorem backspace_cases {M : LoopResult → Prop} (s : Session) (hsame : M (.next s))
    (hset : ∀ f, M (.next (s.setCur f))) (hthrown : M .thrown) : M (backspace s) := by
  unfold backspace
  dsimp only
  split
  · split
    · exact hthrown
    · exact hset _
  · exact hsame

theorem textInput_cases {M : LoopResult → Prop} (lc : Libc) (s : Session) (wch : Nat)
    (hsame : M (.next s)) (hset : ∀ f, M (.next (s.setCur f))) (hthrown : M .thrown) :
    M (textInput lc s wch) := by
  unfold textInput
  dsimp only
  split
  · split
    · split
      · exact hthrown
      · exact hset _
    · exact hsame
  · exact hsame

/-- Every result of one iteration has one of these shapes: the session unchanged, the
active field replaced, the focus switched by Tab, `done` set by a save event, both fields
overwritten by Identify, the focus moved to the title by Enter, the geometry recomputed by
a resize, the return of Ctrl-C, or an exception. -/
theorem step_cases {M : LoopResult → Prop} (lc : Libc) (s : Session) (ev : Event)
    (hsame : M (.next s)) (hset : ∀ f, M (.next (s.setCur f)))
    (hswitch : M (.next (switchField s)))
    (hdone : ev.isSave s → M (.next { s with done := true }))
    (hident : ∀ a t, M (.next { s with
      artist := { s.artist with buf := a, cursor := toInt a.length }
      title := { s.title with buf := t, cursor := toInt t.length }
      active := 0 }))
    (henter : ¬ s.active = 1 → M (.next { s with
      active := 1, title := { s.title with cursor := toInt s.title.buf.length } }))
    (hresize : M (.next { s with
      rows := ev.rows, cols := ev.cols,
      artist := (DrawStaticFrame ev.rows ev.cols s.artist s.title).1,
      title := (DrawStaticFrame ev.rows ev.cols s.artist s.title).2 }))
    (hcancel : ev.isChar KEY_CTRLC → M .cancelled) (hthrown : M .thrown) :
    M (step lc s ev) := by
  unfold step
  by_cases hrc : ev.rc = KEY_CODE_YES
  · rw [if_pos hrc]
    unfold stepKey
    dsimp only
    split_ifs with h1 h2 h3 h4 h5 h6 h7 h8 h9 h10 h11
    · exact hresize
    · exact hset _
    · exact hsame
    · exact hset _
    · exact hsame
    · exact hswitch
    · exact hswitch
    · exact backspace_cases s hsame hset hthrown
    · split
      · exact hthrown
      · exact hset _
    · exact hsame
    · exact hdone (Or.inr (Or.inl ⟨hrc, h11⟩))
    · exact hsame
  · rw [if_neg hrc]
    unfold stepChar
    dsimp only
    by_cases h1 : ev.wch = KEY_CTRLC
    · rw [if_pos h1]
      exact hcancel ⟨hrc, h1⟩
    rw [if_neg h1]
    by_cases h2 : ev.wch = KEY_CTRLD
    · rw [if_pos h2]
      split
      · exact hident _ _
      · exact hsame
    rw [if_neg h2]
    by_cases h3 : ev.wch = KEY_CTRLX
    · rw [if_pos h3]
      exact hdone (Or.inl ⟨hrc, h3⟩)
    rw [if_neg h3]
    by_cases h4 : ev.wch = KEY_CTRLA ∨ ev.wch = KEY_HOME
    · rw [if_pos h4]
      exact hset _
    rw [if_neg h4]
    by_cases h5 : ev.wch = KEY_CTRLE ∨ ev.wch = KEY_END
    · rw [if_pos h5]
      exact hset _
    rw [if_neg h5]
    by_cases h6 : ev.wch = KEY_CTRLK
    · rw [if_pos h6]
      split
      · split
        · exact hthrown
        · exact hset _
      · exact hsame
    rw [if_neg h6]
    by_cases h8 : ev.wch = KEY_CTRLU
    · rw [if_pos h8]
      split
      · split
        · exact hthrown
        · exact hset _
      · exact hsame
    rw [if_neg h8]
    by_cases h10 : ev.wch = 127 ∨ ev.wch = 8
    · rw [if_pos h10]
      exact backspace_cases s hsame hset hthrown
    rw [if_neg h10]
    by_cases h11 : ev.wch = 10 ∨ ev.wch = 13
    · rw [if_pos h11]
      split
      · rename_i ha
        exact hdone (Or.inr (Or.inr ⟨h11.imp (fun h => ⟨hrc, h⟩) (fun h => ⟨hrc, h⟩), ha⟩))
      · rename_i ha
        exact henter ha
    rw [if_neg h11]
    by_cases h12 : ev.wch = 9
    · rw [if_pos h12]
      exact hswitch
    rw [if_neg h12]
    exact textInput_cases lc s ev.wch hsame hset hthrown

/-! ## Focus -/

theorem runLoop_safe_of {lc : Libc} {I : Session → Prop}
    (hstep : ∀ s ev, I s → (step lc s ev).Safe I) (evs : List Event) :
    ∀ s : Session, I s → (runLoop lc s evs).Safe I := by
  induction evs with
  | nil => exact fun s h => h
  | cons ev evs ih =>
    intro s h
    unfold runLoop
    split
    · exact h
    · have hs := hstep s ev h
      cases hr : step lc s ev with
      | next s1 =>
        rw [hr] at hs
        exact ih s1 hs
      | cancelled => trivial
      | thrown =>
        rw [hr] at hs
        exact hs.elim

theorem switchField_of_artist (s : Session) (h : s.active = 0) :
    switchField s =
      { s with active := 1, title := { s.title with cursor := toInt s.title.buf.length } } := by
  unfold switchField
  rw [h]
  rfl

theorem switchField_of_title (s : Session) (h : s.active = 1) :
    switchField s =
      { s with active := 0, artist := { s.artist with cursor := toInt s.artist.buf.length } } := by
  unfold switchField
  rw [h]
  rfl

theorem step_active (lc : Libc) (s : Session) (ev : Event) (h : s.active = 0 ∨ s.active = 1) :
    ∀ s1, step lc s ev = .next s1 → s1.active = 0 ∨ s1.active = 1 := by
  apply step_cases lc s ev (M := fun r => ∀ s1, r = .next s1 → s1.active = 0 ∨ s1.active = 1)
  · rintro s1 ⟨⟩
    exact h
  · rintro f s1 ⟨⟩
    rw [Session.active_setCur]
    exact h
  · rintro s1 ⟨⟩
    rcases h with h | h
    · rw [switchField_of_artist s h]
      exact Or.inr rfl
    · rw [switchField_of_title s h]
      exact Or.inl rfl
  · rintro _ s1 ⟨⟩
    exact h
  · rintro a t s1 ⟨⟩
    exact Or.inl rfl
  · rintro _ s1 ⟨⟩
    exact Or.inr rfl
  · rintro s1 ⟨⟩
    exact h
  · rintro _ s1 h1
    cases h1
  · rintro s1 h1
    cases h1

theorem step_changesFocus (lc : Libc) (s : Session) (ev : Event) (hev : ev.changesFocus s) :
    step lc s ev =
      if s.active = 0 ∧ (ev.isChar 10 ∨ ev.isChar 13) then
        .next { s with
          active := 1, title := { s.title with cursor := toInt s.title.buf.length } }
      else .next (switchField s) := by
  obtain ⟨rc, wch, rows, cols, id⟩ := ev
  simp only [Event.changesFocus, Event.isKey, Event.isChar] at hev ⊢
  rcases hev with ⟨h1, h2⟩ | ⟨h1, h2⟩ | ⟨h1, h2⟩ | ⟨h1, h2⟩ | ⟨h1, h2⟩ |
    ⟨⟨h1, h2⟩ | ⟨h1, h2⟩, h3⟩
  · subst h1 h2
    rw [if_neg (by simp)]
    rfl
  · subst h1 h2
    rw [if_neg (by simp)]
    rfl
  · subst h1 h2
    rw [if_neg (by simp)]
    rfl
  · subst h1 h2
    rw [if_neg (by simp)]
    rfl
  · subst h2
    rw [if_neg (by simp), step_char _ _ _ h1]
    rfl
  · subst h2
    rw [if_pos ⟨h3, Or.inl ⟨h1, rfl⟩⟩, step_char _ _ _ h1]
    simp [stepChar, h3, KEY_CTRLC, KEY_CTRLD, KEY_CTRLX, KEY_CTRLA, KEY_HOME, KEY_CTRLE,
      KEY_END, KEY_CTRLK, KEY_CTRLU]
  · subst h2
    rw [if_pos ⟨h3, Or.inr ⟨h1, rfl⟩⟩, step_char _ _ _ h1]
    simp [stepChar, h3, KEY_CTRLC, KEY_CTRLD, KEY_CTRLX, KEY_CTRLA, KEY_HOME, KEY_CTRLE,
      KEY_END, KEY_CTRLK, KEY_CTRLU]

theorem LoopResult.Safe.mono {P Q : Session → Prop} {r : LoopResult} (h : r.Safe P)
    (hPQ : ∀ s, P s → Q s) : r.Safe Q := by
  cases r with
  | next s => exact hPQ s h
  | cancelled => trivial
  | thrown => exact h

theorem step_safe_active (lc : Libc) (s : Session) (ev : Event)
    (h : s.Both (fun b c => 0 ≤ c ∧ c ≤ (b.length : Int)) ∧ (s.active = 0 ∨ s.active = 1)) :
    (step lc s ev).Safe
      (fun s => s.Both (fun b c => 0 ≤ c ∧ c ≤ (b.length : Int)) ∧
        (s.active = 0 ∨ s.active = 1)) := by
  have h1 := step_safe (cursorBounds_invariant lc) h.1 ev (fun _ _ => ⟨trivial, trivial⟩)
  have h2 := step_active lc s ev h.2
  cases hr : step lc s ev with
  | next s1 =>
    rw [hr] at h1
    exact ⟨h1, h2 s1 hr⟩
  | cancelled => trivial
  | thrown =>
    rw [hr] at h1
    exact h1.elim

/-- The loop never throws, and in every state it reaches both cursors are within their
buffers and the active index is 0 or 1. -/
theorem runLoop_safe_active (lc : Libc) (p_Artist p_Title : List Byte) (rows cols : Int)
    (evs : List Event) :
    (runLoop lc (initSession p_Artist p_Title rows cols) evs).Safe
      (fun s => s.Both (fun b c => 0 ≤ c ∧ c ≤ (b.length : Int)) ∧
        (s.active = 0 ∨ s.active = 1)) :=
  runLoop_safe_of (step_safe_active lc) evs _
    ⟨initSession_both p_Artist p_Title rows cols (by simp [toInt]) (by simp [toInt]),
      Or.inl rfl⟩

/-- C14: in a session whose active index is 0 or 1, each event that changes the active
field (Up, Shift-Tab, Down, Tab, Enter while the artist field is active) turns the index
0 into 1 and 1 into 0 (Enter on artist: into 1), puts the cursor of the newly active field
at the end of its buffer, and leaves both buffers and the cursor of the previously active
field unchanged; and in every state the loop reaches from the initial state the active
index is 0 or 1. -/
theorem focus_change (lc : Libc) :
    (∀ s ev, (s.active = 0 ∨ s.active = 1) → ev.changesFocus s →
      ∃ s1, step lc s ev = .next s1 ∧ s1.active = 1 - s.active ∧
        s1.cur.cursor = (s1.cur.buf.length : Int) ∧
        s1.artist.buf = s.artist.buf ∧ s1.title.buf = s.title.buf ∧
        s1.other.cursor = s.cur.cursor) ∧
    (∀ p_Artist p_Title rows cols evs,
      (runLoop lc (initSession p_Artist p_Title rows cols) evs).Safe
        (fun s => s.active = 0 ∨ s.active = 1)) := by
  constructor
  · intro s ev h hev
    rw [step_changesFocus lc s ev hev]
    rcases h with h | h
    · have e : (if s.active = 0 ∧ (ev.isChar 10 ∨ ev.isChar 13) then
          LoopResult.next { s with
            active := 1, title := { s.title with cursor := toInt s.title.buf.length } }
          else .next (switchField s)) =
          .next { s with
            active := 1, title := { s.title with cursor := toInt s.title.buf.length } } := by
        split
        · rfl
        · rw [switchField_of_artist s h]
      rw [e]
      refine ⟨_, rfl, ?_⟩
      simp [Session.cur, Session.other, h, toInt]
    · rw [if_neg (by simp [h]), switchField_of_title s h]
      refine ⟨_, rfl, ?_⟩
      simp [Session.cur, Session.other, h, toInt]
  · intro p_Artist p_Title rows cols evs
    exact (runLoop_safe_active lc p_Artist p_Title rows cols evs).mono fun _ h => h.2

/-- C14 at concrete inputs: with the artist field active and the title cursor at 0 of
"ab", Tab makes the title field active with its cursor at 2 and leaves the artist cursor
at 3; Enter does the same; Shift-Tab from the title field goes back to the artist field
with its cursor at 6. -/
theorem focus_change_witness :
    ((mkSession hello 3 ab 70).active = 0 ∨ (mkSession hello 3 ab 70).active = 1) ∧
    (charEvent 9).changesFocus (mkSession hello 3 ab 70) ∧
    step utf8Locale { mkSession hello 3 ab 70 with title := mkField "Title" ab 0 70 }
        (charEvent 9) = .next { mkSession hello 3 ab 70 with active := 1 } ∧
    step utf8Locale { mkSession hello 3 ab 70 with title := mkField "Title" ab 0 70 }
        (charEvent 10) = .next { mkSession hello 3 ab 70 with active := 1 } ∧
    step utf8Locale { mkSession hello 3 ab 70 with active := 1 } (keyEvent KEY_BTAB) =
      .next (mkSession hello 6 ab 70) ∧
    ∃ s1, step utf8Locale (mkSession hello 3 ab 70) (charEvent 9) = .next s1 ∧
      s1.active = 1 - (mkSession hello 3 ab 70).active :=
  ⟨by decide, by decide, by decide, by decide, by decide,
    ((focus_change utf8Locale).1 (mkSession hello 3 ab 70) (charEvent 9) (by decide)
      (by decide)).imp fun _ h => ⟨h.1, h.2.1⟩⟩

/-! ## Saving and cancelling -/

theorem runLoop_nil (lc : Libc) (s : Session) : runLoop lc s [] = .next s := rfl

theorem runLoop_cons (lc : Libc) (s : Session) (ev : Event) (evs : List Event) :
    runLoop lc s (ev :: evs) =
      if s.done then .next s
      else
        match step lc s ev with
        | .next s1 => runLoop lc s1 evs
        | r => r := by
  rw [runLoop]

/-- Handling one more event: when the loop is still running after `evs`, the next
iteration is `step` on the new event; otherwise nothing changes. -/
theorem runLoop_append (lc : Libc) (evs : List Event) (ev : Event) :
    ∀ s : Session, runLoop lc s (evs ++ [ev]) =
      match runLoop lc s evs with
      | .next s1 => if s1.done then .next s1 else step lc s1 ev
      | r => r := by
  induction evs with
  | nil =>
    intro s
    rw [List.nil_append, runLoop_cons, runLoop_nil]
    dsimp only
    split
    · rfl
    · cases step lc s ev <;> rfl
  | cons e evs ih =>
    intro s
    rw [List.cons_append, runLoop_cons, runLoop_cons]
    split
    · rename_i hd
      dsimp only
      rw [if_pos hd]
    · cases hs : step lc s e with
      | next s1 => exact ih s1
      | cancelled => rfl
      | thrown => rfl

theorem runLoop_append_running (lc : Libc) (s0 s : Session) (evs : List Event) (ev : Event)
    (hrun : runLoop lc s0 evs = .next s) (hdone : s.done = false) :
    runLoop lc s0 (evs ++ [ev]) = step lc s ev := by
  rw [runLoop_append, hrun]
  dsimp only
  rw [if_neg (by simp [hdone])]

theorem step_isSave (lc : Libc) (s : Session) (ev : Event) (hev : ev.isSave s) :
    step lc s ev = .next { s with done := true } := by
  obtain ⟨rc, wch, rows, cols, id⟩ := ev
  simp only [Event.isSave, Event.isKey, Event.isChar] at hev
  rcases hev with ⟨h1, h2⟩ | ⟨h1, h2⟩ | ⟨⟨h1, h2⟩ | ⟨h1, h2⟩, h3⟩
  · subst h2
    rw [step_char _ _ _ h1]
    rfl
  · subst h1 h2
    rfl
  · subst h2
    rw [step_char _ _ _ h1]
    simp [stepChar, h3, KEY_CTRLC, KEY_CTRLD, KEY_CTRLX, KEY_CTRLA, KEY_HOME, KEY_CTRLE,
      KEY_END, KEY_CTRLK, KEY_CTRLU]
  · subst h2
    rw [step_char _ _ _ h1]
    simp [stepChar, h3, KEY_CTRLC, KEY_CTRLD, KEY_CTRLX, KEY_CTRLA, KEY_HOME, KEY_CTRLE,
      KEY_END, KEY_CTRLK, KEY_CTRLU]

theorem switchField_done (s : Session) : (switchField s).done = s.done := by
  unfold switchField
  dsimp only
  split <;> rfl

/-- Only a save event sets `done`. -/
theorem step_done (lc : Libc) (s : Session) (ev : Event) (hdone : s.done = false) :
    ∀ s1, step lc s ev = .next s1 → s1.done = true → ev.isSave s := by
  apply step_cases lc s ev (M := fun r => ∀ s1, r = .next s1 → s1.done = true → ev.isSave s)
  · rintro s1 ⟨⟩ h
    rw [hdone] at h
    cases h
  · rintro f s1 ⟨⟩ h
    rw [Session.done_setCur, hdone] at h
    cases h
  · rintro s1 ⟨⟩ h
    rw [switchField_done, hdone] at h
    cases h
  · rintro hs s1 _ _
    exact hs
  · rintro a t s1 ⟨⟩ h
    exact absurd (hdone ▸ h) (by simp)
  · rintro _ s1 ⟨⟩ h
    exact absurd (hdone ▸ h) (by simp)
  · rintro s1 ⟨⟩ h
    exact absurd (hdone ▸ h) (by simp)
  · rintro _ s1 h1
    cases h1
  · rintro s1 h1
    cases h1

theorem step_ctrlC (lc : Libc) (s : Session) (ev : Event) (hev : ev.isChar KEY_CTRLC) :
    step lc s ev = .cancelled := by
  obtain ⟨rc, wch, rows, cols, id⟩ := ev
  obtain ⟨h1, h2⟩ := hev
  simp only at h2
  subst h2
  rw [step_char _ _ _ h1]
  rfl

/-- C15: when the loop is waiting for the next event in the state `s`, the call ends in
Saved on that event exactly when it is Ctrl-X, F10, or Enter with the title field active;
it then returns true with the caller's strings set to the two buffers of `s`. Enter with
the artist field active leaves the call waiting, with the title field active. -/
theorem edit_saved (lc : Libc) (p_Artist p_Title : List Byte) (rows cols : Int)
    (evs : List Event) (ev : Event) (s : Session)
    (hrun : runLoop lc (initSession p_Artist p_Title rows cols) evs = .next s)
    (hdone : s.done = false) :
    (ev.isSave s →
      Edit lc p_Artist p_Title rows cols (evs ++ [ev]) =
        .returned true s.artist.buf s.title.buf) ∧
    (¬ ev.isSave s →
      ∀ a t, Edit lc p_Artist p_Title rows cols (evs ++ [ev]) ≠ .returned true a t) ∧
    ((ev.isChar 10 ∨ ev.isChar 13) → s.active = 0 →
      ∃ s1, Edit lc p_Artist p_Title rows cols (evs ++ [ev]) = .waiting s1 ∧
        s1.active = 1) := by
  unfold Edit
  rw [runLoop_append_running lc _ s evs ev hrun hdone]
  refine ⟨fun hev => ?_, fun hev a t => ?_, fun hev ha => ?_⟩
  · rw [step_isSave lc s ev hev]
    rfl
  · cases hs : step lc s ev with
    | next s1 =>
      dsimp only
      by_cases hd : s1.done = true
      · exact absurd (step_done lc s ev hdone s1 hs hd) hev
      · rw [if_neg hd]
        exact fun h => by cases h
    | cancelled => exact fun h => by cases h
    | thrown => exact fun h => by cases h
  · rw [step_changesFocus lc s ev (Or.inr (Or.inr (Or.inr (Or.inr (Or.inr ⟨hev, ha⟩))))),
      if_pos ⟨ha, hev⟩]
    dsimp only
    rw [if_neg (by simp [hdone])]
    exact ⟨_, rfl, rfl⟩

/-- C15 at concrete inputs: on "héllo" and "ab", Backspace followed by Ctrl-X returns true
with "héll" and "ab"; Enter on the artist field does not end the call, a second Enter (on
the title field) does; F10 ends it at once. -/
theorem edit_saved_witness :
    runLoop utf8Locale (initSession hello ab 24 80) [keyEvent KEY_BACKSPACE] =
      .next (session24x80 [0x68, 0xC3, 0xA9, 0x6C, 0x6C] 5 ab 2 0) ∧
    (session24x80 [0x68, 0xC3, 0xA9, 0x6C, 0x6C] 5 ab 2 0).done = false ∧
    (charEvent KEY_CTRLX).isSave (session24x80 [0x68, 0xC3, 0xA9, 0x6C, 0x6C] 5 ab 2 0) ∧
    Edit utf8Locale hello ab 24 80 [keyEvent KEY_BACKSPACE, charEvent KEY_CTRLX] =
      .returned true [0x68, 0xC3, 0xA9, 0x6C, 0x6C] ab ∧
    Edit utf8Locale hello ab 24 80 [charEvent 10] = .waiting (session24x80 hello 6 ab 2 1) ∧
    Edit utf8Locale hello ab 24 80 [charEvent 10, charEvent 10] = .returned true hello ab ∧
    Edit utf8Locale hello ab 24 80 [keyEvent (KEY_F 10)] = .returned true hello ab ∧
    Edit utf8Locale hello ab 24 80 ([keyEvent KEY_BACKSPACE] ++ [charEvent KEY_CTRLX]) =
      .returned true (session24x80 [0x68, 0xC3, 0xA9, 0x6C, 0x6C] 5 ab 2 0).artist.buf
        (session24x80 [0x68, 0xC3, 0xA9, 0x6C, 0x6C] 5 ab 2 0).title.buf :=
  ⟨by decide, by decide, by decide, by decide, by decide, by decide, by decide,
    (edit_saved utf8Locale hello ab 24 80 [keyEvent KEY_BACKSPACE] (charEvent KEY_CTRLX)
      (session24x80 [0x68, 0xC3, 0xA9, 0x6C, 0x6C] 5 ab 2 0) (by decide) (by decide)).1
      (by decide)⟩

theorem calls_before_edit (o : Flags) (env : FileEnv) (st0 : FileState) :
    ∀ c ∈ (doDetect o env (doRead o env (doClear o env st0))).calls,
      c ∈ st0.calls ∨ c = Call.tagClear ∨ c = Call.tagRead ∨ c = Call.identify := by
  intro c hc
  unfold doDetect doRead doClear at hc
  repeat' split at hc
  all_goals try simp only [List.mem_append, List.mem_singleton] at hc
  all_goals tauto

/-- When `Editor::Edit` is called and returns false, the result of the file is false and
neither `Tag::Write`, `Tag::MakePath` nor `Util::Rename` is called. -/
theorem processFile_edit_false (o : Flags) (filePath : List Byte) (env : FileEnv)
    (a t : List Byte) (hcall : Call.edit a t ∈ (processFile o filePath env).calls)
    (hres : (env.edit a t).1 = false) :
    (processFile o filePath env).result = false ∧
    ∀ c ∈ (processFile o filePath env).calls,
      (∀ a1 t1, c ≠ Call.tagWrite a1 t1) ∧ (∀ a1 t1, c ≠ Call.makePath a1 t1) ∧
      (∀ p, c ≠ Call.rename p) := by
  unfold processFile at hcall ⊢
  have hpre := calls_before_edit o env (FileState.init filePath env)
  rw [show (FileState.init filePath env).calls = [] from rfl] at hpre
  generalize doDetect o env (doRead o env (doClear o env (FileState.init filePath env))) = st3
    at hcall hpre ⊢
  have hno : ∀ a1 t1, Call.edit a1 t1 ∉ st3.calls := by
    intro a1 t1 h
    have := hpre _ h
    simp at this
  by_cases he : (st3.result && o.edit) = true
  · have hE : doEdit o env st3 =
        { st3 with
          artist := (env.edit st3.artist st3.title).2.1,
          title := (env.edit st3.artist st3.title).2.2,
          result := (env.edit st3.artist st3.title).1,
          calls := st3.calls ++ [Call.edit st3.artist st3.title] } := by
      unfold doEdit
      rw [if_pos he]
    have hW : ∀ st : FileState, st.result = false → doWrite o env st = st := by
      intro st h
      unfold doWrite
      rw [if_neg (by simp [h])]
    rw [hE] at hcall ⊢
    have hat : a = st3.artist ∧ t = st3.title := by
      by_cases hr : (env.edit st3.artist st3.title).1 = false
      · rw [hW _ hr] at hcall
        simp only [List.mem_append, List.mem_singleton, Call.edit.injEq] at hcall
        rcases hcall with h | h
        · exact absurd h (hno a t)
        · exact h
      · exfalso
        unfold doWrite at hcall
        dsimp only at hcall
        repeat' split at hcall
        all_goals simp only [List.mem_append, List.mem_singleton, List.mem_cons,
          List.not_mem_nil, Call.edit.injEq, or_false, reduceCtorEq] at hcall
        all_goals
          rcases hcall with h | h
          · exact absurd h (hno a t)
          · rw [h.1, h.2] at hres
            exact hr hres
    rw [← hat.1, ← hat.2] at *
    rw [hW _ hres]
    refine ⟨hres, fun c hc => ?_⟩
    simp only [List.mem_append, List.mem_singleton] at hc
    rcases hc with h | h
    · have := hpre c h
      simp only [List.not_mem_nil, false_or] at this
      rcases this with rfl | rfl | rfl <;> simp
    · subst h
      simp
  · exfalso
    have hE : doEdit o env st3 = st3 := by
      unfold doEdit
      rw [if_neg he]
    rw [hE] at hcall
    unfold doWrite at hcall
    dsimp only at hcall
    repeat' split at hcall
    all_goals try simp only [List.mem_append, List.mem_singleton, List.mem_cons,
      List.not_mem_nil, or_false, reduceCtorEq] at hcall
    all_goals exact absurd hcall (hno a t)

/-- C16: when Ctrl-C arrives while the loop is waiting, after any sequence of events,
`Editor::Edit` returns false and the caller's two strings are what they were before the
call; whatever the events before it, a call that has been delivered Ctrl-C has returned
false with the strings unchanged unless an earlier event had already ended it in Saved;
and in `main`, when the call of `Editor::Edit` returns false the file's result is false
and `Tag::Write`, `Tag::MakePath` and `Util::Rename` are not called for it. -/
theorem ctrlC_cancels (lc : Libc) (p_Artist p_Title : List Byte) (rows cols : Int)
    (evs : List Event) (ev : Event) (hev : ev.isChar KEY_CTRLC) :
    (∀ s, runLoop lc (initSession p_Artist p_Title rows cols) evs = .next s →
      s.done = false →
      Edit lc p_Artist p_Title rows cols (evs ++ [ev]) = .returned false p_Artist p_Title) ∧
    (Edit lc p_Artist p_Title rows cols (evs ++ [ev]) = .returned false p_Artist p_Title ∨
      ∃ s, runLoop lc (initSession p_Artist p_Title rows cols) evs = .next s ∧
        s.done = true ∧
        Edit lc p_Artist p_Title rows cols (evs ++ [ev]) =
          .returned true s.artist.buf s.title.buf) ∧
    (∀ (o : Flags) (filePath : List Byte) (env : FileEnv) (a t : List Byte),
      Call.edit a t ∈ (processFile o filePath env).calls → (env.edit a t).1 = false →
      (processFile o filePath env).result = false ∧
      ∀ c ∈ (processFile o filePath env).calls,
        (∀ a1 t1, c ≠ Call.tagWrite a1 t1) ∧ (∀ a1 t1, c ≠ Call.makePath a1 t1) ∧
        (∀ p, c ≠ Call.rename p)) := by
  have hA : ∀ s, runLoop lc (initSession p_Artist p_Title rows cols) evs = .next s →
      s.done = false →
      Edit lc p_Artist p_Title rows cols (evs ++ [ev]) =
        .returned false p_Artist p_Title := by
    intro s hrun hdone
    unfold Edit
    rw [runLoop_append_running lc _ s evs ev hrun hdone, step_ctrlC lc s ev hev]
  refine ⟨hA, ?_, processFile_edit_false⟩
  have hsafe := runLoop_safe_active lc p_Artist p_Title rows cols evs
  cases hr : runLoop lc (initSession p_Artist p_Title rows cols) evs with
  | next s =>
    by_cases hd : s.done = true
    · refine Or.inr ⟨s, rfl, hd, ?_⟩
      unfold Edit
      rw [runLoop_append, hr]
      dsimp only
      rw [if_pos hd]
      dsimp only
      rw [if_pos hd]
    · exact Or.inl (hA s hr (by simpa using hd))
  | cancelled =>
    left
    unfold Edit
    rw [runLoop_append, hr]
  | thrown =>
    rw [hr] at hsafe
    exact hsafe.elim

/-- C16 at concrete inputs: on "héllo" and "ab", after a Backspace and a successful
Ctrl-D, Ctrl-C returns false with the strings "héllo" and "ab"; and a file processed
with `--detect --edit --rename` whose edit is cancelled gets the result false after the
calls of `Tag::Read`, `AcoustId::Identify` and `Editor::Edit` only. -/
theorem ctrlC_cancels_witness :
    (charEvent KEY_CTRLC).isChar KEY_CTRLC ∧
    Edit utf8Locale hello ab 24 80
        [keyEvent KEY_BACKSPACE,
          { charEvent KEY_CTRLD with identify := some (unknownArtist, unknownTitle) },
          charEvent KEY_CTRLC] = .returned false hello ab ∧
    processFile { clear := false, detect := true, edit := true, rename := true } ab
        cancelledEnv =
      { artist := hello, title := ab, result := false, newFilePath := ab,
        calls := [Call.tagRead, Call.identify, Call.edit hello ab] } ∧
    (Edit utf8Locale hello ab 24 80
        ([keyEvent KEY_BACKSPACE,
          { charEvent KEY_CTRLD with identify := some (unknownArtist, unknownTitle) }] ++
          [charEvent KEY_CTRLC]) = .returned false hello ab ∨
      ∃ s, runLoop utf8Locale (initSession hello ab 24 80)
          [keyEvent KEY_BACKSPACE,
            { charEvent KEY_CTRLD with identify := some (unknownArtist, unknownTitle) }] =
          .next s ∧ s.done = true ∧
        Edit utf8Locale hello ab 24 80
          ([keyEvent KEY_BACKSPACE,
            { charEvent KEY_CTRLD with identify := some (unknownArtist, unknownTitle) }] ++
            [charEvent KEY_CTRLC]) = .returned true s.artist.buf s.title.buf) :=
  ⟨by decide, by decide, by decide,
    (ctrlC_cancels utf8Locale hello ab 24 80
      [keyEvent KEY_BACKSPACE,
        { charEvent KEY_CTRLD with identify := some (unknownArtist, unknownTitle) }]
      (charEvent KEY_CTRLC) (by decide)).2.1⟩

/-! ## Characters of a buffer -/

theorem Utf8CharWidth_nonneg (lc : Libc) (s : List Byte) (pos len : Nat) :
    0 ≤ Utf8CharWidth lc s pos len := by
  unfold Utf8CharWidth
  dsimp only
  split_ifs <;> omega

theorem Utf8CharWidth_zero (lc : Libc) (s : List Byte) (pos : Nat) :
    Utf8CharWidth lc s pos 0 = 0 := by
  simp [Utf8CharWidth]

theorem charStart_le (s : List Byte) (k : Nat) : charStart s k ≤ s.length := by
  induction k with
  | zero => exact Nat.zero_le _
  | succ k ih =>
    unfold charStart
    by_cases h : charStart s k < s.length
    · exact Utf8CharLen_le s _ h
    · rw [Utf8CharLen_of_ge s _ (by omega)]
      exact ih

theorem charStart_succ_of_lt (s : List Byte) (k : Nat) (h : charStart s k < s.length) :
    charStart s k < charStart s (k + 1) := by
  have := Utf8CharLen_pos s _ h
  show charStart s k < charStart s k + Utf8CharLen s (charStart s k)
  omega

theorem charStart_succ_of_end (s : List Byte) (k : Nat) (h : charStart s k = s.length) :
    charStart s (k + 1) = s.length := by
  show charStart s k + Utf8CharLen s (charStart s k) = s.length
  rw [Utf8CharLen_of_ge s _ (by omega)]
  exact h

theorem charStart_mono (s : List Byte) {k m : Nat} (h : k ≤ m) :
    charStart s k ≤ charStart s m := by
  induction m with
  | zero =>
    have : k = 0 := by omega
    subst this
    exact Nat.le_refl _
  | succ m ih =>
    by_cases hk : k = m + 1
    · subst hk
      exact Nat.le_refl _
    · have h1 := ih (by omega)
      have h2 : charStart s m ≤ charStart s (m + 1) := Nat.le_add_right _ _
      omega

theorem charStart_ge (s : List Byte) (k : Nat) : min k s.length ≤ charStart s k := by
  induction k with
  | zero => simp
  | succ k ih =>
    by_cases h : charStart s k < s.length
    · have := charStart_succ_of_lt s k h
      omega
    · have h1 := charStart_le s k
      have := charStart_succ_of_end s k (by omega)
      omega

theorem charStart_length (s : List Byte) : charStart s s.length = s.length := by
  have h1 := charStart_ge s s.length
  have h2 := charStart_le s s.length
  simp only [Nat.min_self] at h1
  omega

theorem prefixWidth_succ_of_end (lc : Libc) (s : List Byte) (k : Nat)
    (h : charStart s k = s.length) : prefixWidth lc s (k + 1) = prefixWidth lc s k := by
  show prefixWidth lc s k + Utf8CharWidth lc s _ (Utf8CharLen s (charStart s k)) = _
  rw [Utf8CharLen_of_ge s _ (by omega), Utf8CharWidth_zero]
  omega

theorem charStart_add_of_end (s : List Byte) (k j : Nat) (h : charStart s k = s.length) :
    charStart s (k + j) = s.length := by
  induction j with
  | zero => exact h
  | succ j ih => exact charStart_succ_of_end s (k + j) ih

theorem prefixWidth_add_of_end (lc : Libc) (s : List Byte) (k j : Nat)
    (h : charStart s k = s.length) : prefixWidth lc s (k + j) = prefixWidth lc s k := by
  induction j with
  | zero => rfl
  | succ j ih =>
    have := prefixWidth_succ_of_end lc s (k + j) (charStart_add_of_end s k j h)
    rw [← ih]
    exact this

theorem prefixWidth_eq_of_end (lc : Libc) (s : List Byte) (a b : Nat)
    (ha : charStart s a = s.length) (hb : charStart s b = s.length) :
    prefixWidth lc s a = prefixWidth lc s b := by
  rcases Nat.le_total a b with h | h
  · obtain ⟨j, rfl⟩ := Nat.exists_eq_add_of_le h
    exact (prefixWidth_add_of_end lc s a j ha).symm
  · obtain ⟨j, rfl⟩ := Nat.exists_eq_add_of_le h
    exact prefixWidth_add_of_end lc s b j hb

theorem prefixWidth_mono (lc : Libc) (s : List Byte) {k m : Nat} (h : k ≤ m) :
    prefixWidth lc s k ≤ prefixWidth lc s m := by
  induction m with
  | zero =>
    have : k = 0 := by omega
    subst this
    exact Int.le_refl _
  | succ m ih =>
    by_cases hk : k = m + 1
    · subst hk
      exact Int.le_refl _
    · have h1 := ih (by omega)
      have h2 : prefixWidth lc s (m + 1) = prefixWidth lc s m +
          Utf8CharWidth lc s (charStart s m) (Utf8CharLen s (charStart s m)) := rfl
      have h3 := Utf8CharWidth_nonneg lc s (charStart s m) (Utf8CharLen s (charStart s m))
      omega

theorem prefixWidth_nonneg (lc : Libc) (s : List Byte) (k : Nat) : 0 ≤ prefixWidth lc s k :=
  prefixWidth_mono lc s (Nat.zero_le k)

/-- The loop of `Utf8DisplayWidth`, entered at the start of character `k` with the width of
the first `k` characters, ends with the width of the first `k + fuel` characters. -/
theorem Utf8DisplayWidthLoop_prefixWidth (lc : Libc) (s : List Byte) (fuel : Nat) :
    ∀ k, Utf8DisplayWidthLoop lc s fuel (charStart s k) (prefixWidth lc s k) =
      prefixWidth lc s (k + fuel) := by
  induction fuel with
  | zero => exact fun k => rfl
  | succ fuel ih =>
    intro k
    unfold Utf8DisplayWidthLoop
    by_cases h : charStart s k < s.length
    · rw [if_pos h]
      have := ih (k + 1)
      rw [show k + 1 + fuel = k + (fuel + 1) by omega] at this
      exact this
    · rw [if_neg h]
      have h1 := charStart_le s k
      exact (prefixWidth_add_of_end lc s k (fuel + 1) (by omega)).symm

/-- `Utf8DisplayWidth` is the summed width of all the characters of the string. -/
theorem Utf8DisplayWidth_eq_prefixWidth (lc : Libc) (s : List Byte) :
    Utf8DisplayWidth lc s = prefixWidth lc s s.length := by
  have := Utf8DisplayWidthLoop_prefixWidth lc s s.length 0
  rw [Nat.zero_add] at this
  exact this

/-! ## `DrawFieldLine` -/

/-- The loop of `DrawFieldLine` exits within `src.length - pos` iterations: any two
iteration bounds of at least that many give the same result. -/
theorem DrawFieldLineLoop_fuel (lc : Libc) (src : List Byte) (fieldW : Int) (n : Nat) :
    ∀ (m pos : Nat) (width : Int) (content : List Byte),
      src.length - pos ≤ n → src.length - pos ≤ m →
      DrawFieldLineLoop lc src fieldW n pos width content =
        DrawFieldLineLoop lc src fieldW m pos width content := by
  induction n with
  | zero =>
    intro m pos width content hn _
    cases m with
    | zero => rfl
    | succ m =>
      unfold DrawFieldLineLoop
      rw [if_neg (by omega)]
  | succ n ih =>
    intro m pos width content hn hm
    by_cases hp : pos < src.length
    · have hlen := Utf8CharLen_pos src pos hp
      obtain ⟨k, rfl⟩ : ∃ k, m = k + 1 := ⟨m - 1, by omega⟩
      unfold DrawFieldLineLoop
      rw [if_pos hp, if_pos hp]
      dsimp only
      split
      · rfl
      · exact ih k _ _ _ (by omega) (by omega)
    · cases m with
      | zero =>
        unfold DrawFieldLineLoop
        rw [if_neg hp]
      | succ m =>
        unfold DrawFieldLineLoop
        rw [if_neg hp, if_neg hp]

/-- The loop of `DrawFieldLine`, entered at the start of character `k` with the first `k`
characters copied, stops after some `n ≥ k` characters: they fit, and either they are the
whole buffer or the next character does not fit. -/
theorem DrawFieldLineLoop_spec (lc : Libc) (s : List Byte) (fieldW : Int) (fuel : Nat) :
    ∀ k, s.length - charStart s k ≤ fuel → prefixWidth lc s k ≤ fieldW →
      ∃ n, k ≤ n ∧
        DrawFieldLineLoop lc s fieldW fuel (charStart s k) (prefixWidth lc s k)
            (s.take (charStart s k)) =
          (s.take (charStart s n), prefixWidth lc s n) ∧
        prefixWidth lc s n ≤ fieldW ∧
        (charStart s n = s.length ∨ fieldW < prefixWidth lc s (n + 1)) := by
  induction fuel with
  | zero =>
    intro k hk hw
    have := charStart_le s k
    exact ⟨k, Nat.le_refl _, rfl, hw, Or.inl (by omega)⟩
  | succ fuel ih =>
    intro k hk hw
    unfold DrawFieldLineLoop
    by_cases hp : charStart s k < s.length
    · rw [if_pos hp]
      dsimp only
      by_cases hfit : prefixWidth lc s k +
          Utf8CharWidth lc s (charStart s k) (Utf8CharLen s (charStart s k)) > fieldW
      · rw [if_pos hfit]
        exact ⟨k, Nat.le_refl _, rfl, hw, Or.inr hfit⟩
      · rw [if_neg hfit]
        have hlt := charStart_succ_of_lt s k hp
        have hcontent : s.take (charStart s k) ++
            (s.drop (charStart s k)).take (Utf8CharLen s (charStart s k)) =
            s.take (charStart s (k + 1)) := by
          show _ = s.take (charStart s k + Utf8CharLen s (charStart s k))
          rw [List.take_add]
        rw [hcontent]
        obtain ⟨n, hn, hrun, hwn, hend⟩ := ih (k + 1) (by omega) (by
          show prefixWidth lc s k + _ ≤ fieldW
          omega)
        exact ⟨n, by omega, hrun, hwn, hend⟩
    · rw [if_neg hp]
      have := charStart_le s k
      exact ⟨k, Nat.le_refl _, rfl, hw, Or.inl (by omega)⟩

/-- C19: for a display width `w ≥ 0`, `DrawFieldLine` writes `P` followed by `w - width(P)`
spaces, where `P` is the first `n` characters of the buffer (whole `Utf8CharLen` segments),
their summed `Utf8CharWidth` is at most `w`, and no prefix of whole characters whose width
is at most `w` is longer; so the width of `P` and the padding add up to `w`, and when the
display width of the buffer is at most `w`, `P` is the whole buffer. -/
theorem DrawFieldLine_spec (lc : Libc) (f : Field) (isActive : Bool) (hw : 0 ≤ f.w) :
    ∃ n : Nat,
      DrawFieldLine lc f isActive =
        some { y := f.y, x := f.x,
               text := f.buf.take (charStart f.buf n) ++
                 List.replicate (f.w - prefixWidth lc f.buf n).toNat 0x20,
               reverse := isActive } ∧
      prefixWidth lc f.buf n ≤ f.w ∧
      (∀ m, prefixWidth lc f.buf m ≤ f.w → charStart f.buf m ≤ charStart f.buf n) ∧
      prefixWidth lc f.buf n + ((f.w - prefixWidth lc f.buf n).toNat : Int) = f.w ∧
      (Utf8DisplayWidth lc f.buf ≤ f.w →
        f.buf.take (charStart f.buf n) = f.buf ∧
        prefixWidth lc f.buf n = Utf8DisplayWidth lc f.buf) := by
  obtain ⟨n, _, hrun, hwn, hend⟩ :=
    DrawFieldLineLoop_spec lc f.buf f.w f.buf.length 0 (by simp [charStart]) hw
  have hlongest : ∀ m, prefixWidth lc f.buf m ≤ f.w →
      charStart f.buf m ≤ charStart f.buf n := by
    intro m hm
    rcases hend with hend | hend
    · rw [hend]
      exact charStart_le f.buf m
    · by_cases hmn : m ≤ n
      · exact charStart_mono f.buf hmn
      · have := prefixWidth_mono lc f.buf (show n + 1 ≤ m by omega)
        omega
  refine ⟨n, ?_, hwn, hlongest, by omega, fun hall => ?_⟩
  · unfold DrawFieldLine
    rw [if_neg (by omega)]
    have hrun0 : DrawFieldLineLoop lc f.buf f.w f.buf.length 0 0 [] =
        (f.buf.take (charStart f.buf n), prefixWidth lc f.buf n) := hrun
    dsimp only
    rw [hrun0]
    dsimp only
    by_cases hlt : prefixWidth lc f.buf n < f.w
    · rw [if_pos hlt, toSizeT_of_nonneg _ (by omega)]
    · rw [if_neg hlt]
      have : (f.w - prefixWidth lc f.buf n).toNat = 0 := by omega
      rw [this, List.replicate_zero, List.append_nil]
  · rw [Utf8DisplayWidth_eq_prefixWidth] at hall ⊢
    have h1 := hlongest f.buf.length hall
    rw [charStart_length] at h1
    have h2 := charStart_le f.buf n
    have h3 : charStart f.buf n = f.buf.length := by omega
    exact ⟨by rw [h3, List.take_length],
      prefixWidth_eq_of_end lc f.buf n f.buf.length h3 (charStart_length f.buf)⟩

/-- C19 at concrete inputs: ten characters two columns wide in a field 7 cells wide are
written as three of them and one space; "héllo" in a field 8 cells wide is written whole,
followed by three spaces. -/
theorem DrawFieldLine_spec_witness :
    (0 : Int) ≤ (mkField "Artist" tenWide 0 7).w ∧
    DrawFieldLine utf8Locale (mkField "Artist" tenWide 0 7) true =
      some { y := 0, x := 0,
             text := [0xE4, 0xB8, 0xAD, 0xE4, 0xB8, 0xAD, 0xE4, 0xB8, 0xAD, 0x20],
             reverse := true } ∧
    DrawFieldLine utf8Locale (mkField "Artist" hello 0 8) false =
      some { y := 0, x := 0, text := hello ++ [0x20, 0x20, 0x20], reverse := false } ∧
    ∃ n : Nat, DrawFieldLine utf8Locale (mkField "Artist" tenWide 0 7) true =
        some { y := 0, x := 0,
               text := tenWide.take (charStart tenWide n) ++
                 List.replicate (7 - prefixWidth utf8Locale tenWide n).toNat 0x20,
               reverse := true } ∧
      prefixWidth utf8Locale tenWide n ≤ 7 :=
  ⟨by decide, by decide, by decide,
    (DrawFieldLine_spec utf8Locale (mkField "Artist" tenWide 0 7) true (by decide)).imp
      fun _ h => ⟨h.1, h.2.1⟩⟩

/-! ## `PlaceCursor` -/

/-- The loop of `PlaceCursor`, entered at the start of character `k` with the width of the
first `k` characters, all of which start below `cursorPos ≤ length(buf)`, exits with the
width of the first `n` characters: those that start below `cursorPos`. -/
theorem PlaceCursorLoop_spec (lc : Libc) (s : List Byte) (cursorPos : Nat)
    (hc : cursorPos ≤ s.length) (fuel : Nat) :
    ∀ k, cursorPos - charStart s k ≤ fuel → (∀ j, j < k → charStart s j < cursorPos) →
      ∃ n, PlaceCursorLoop lc s cursorPos fuel (charStart s k) (prefixWidth lc s k) =
          some (prefixWidth lc s n) ∧
        cursorPos ≤ charStart s n ∧ ∀ j, j < n → charStart s j < cursorPos := by
  induction fuel with
  | zero =>
    intro k hk hbelow
    unfold PlaceCursorLoop
    rw [if_neg (by omega)]
    exact ⟨k, rfl, by omega, hbelow⟩
  | succ fuel ih =>
    intro k hk hbelow
    unfold PlaceCursorLoop
    by_cases hp : charStart s k < cursorPos
    · rw [if_pos hp]
      have hlt := charStart_succ_of_lt s k (by omega)
      refine ih (k + 1) (by omega) (fun j hj => ?_)
      by_cases hjk : j = k
      · rw [hjk]
        exact hp
      · exact hbelow j (by omega)
    · rw [if_neg hp]
      exact ⟨k, rfl, by omega, hbelow⟩

/-- With `cursorPos ≤ length(buf)` the loop of `PlaceCursor` exits within `length(buf)`
iterations. -/
theorem PlaceCursorLoop_exits (lc : Libc) (s : List Byte) (cursorPos : Nat)
    (hc : cursorPos ≤ s.length) :
    ∃ col, PlaceCursorLoop lc s cursorPos s.length 0 0 = some col := by
  obtain ⟨n, h, _⟩ := PlaceCursorLoop_spec lc s cursorPos hc s.length 0
    (by simp only [charStart]; omega) (fun j hj => by omega)
  exact ⟨_, h⟩

/-- With `cursorPos > length(buf)` the loop of `PlaceCursor` never exits: `pos` stops at
the end of the buffer, where `Utf8CharLen` is 0. -/
theorem PlaceCursorLoop_hangs (lc : Libc) (s : List Byte) (cursorPos : Nat)
    (hc : s.length < cursorPos) (fuel : Nat) :
    ∀ (pos : Nat) (col : Int), pos ≤ s.length →
      PlaceCursorLoop lc s cursorPos fuel pos col = none := by
  induction fuel with
  | zero =>
    intro pos col hp
    unfold PlaceCursorLoop
    rw [if_pos (by omega)]
  | succ fuel ih =>
    intro pos col hp
    unfold PlaceCursorLoop
    rw [if_pos (by omega)]
    refine ih _ _ ?_
    by_cases h : pos < s.length
    · exact Utf8CharLen_le s pos h
    · rw [Utf8CharLen_of_ge s pos (by omega)]
      exact hp

/-- Why `PlaceCursor` needs the invariant `0 ≤ cursor` that `Editor::Edit` keeps for the
fields it passes: for a cursor of -1, which no call of the program passes,
`static_cast<size_t>` would make `cursorPos` `2^64 - 1` and the loop would not exit. -/
theorem PlaceCursor_negative_cursor_hangs :
    (0 : Int) ≤ (mkField "Artist" ab (-1) 70).w ∧
    PlaceCursor utf8Locale (mkField "Artist" ab (-1) 70) true = .hangs ∧
    (¬ ∃ cy cx, PlaceCursor utf8Locale (mkField "Artist" ab (-1) 70) true = .move cy cx) ∧
    ∀ fuel, PlaceCursorLoop utf8Locale ab
      (toSizeT (min (mkField "Artist" ab (-1) 70).cursor (toInt ab.length))) fuel 0 0 =
        none := by
  have h : PlaceCursor utf8Locale (mkField "Artist" ab (-1) 70) true = .hangs := by decide
  refine ⟨by decide, h, ?_, fun fuel => ?_⟩
  · rintro ⟨cy, cx, hm⟩
    rw [h] at hm
    cases hm
  · exact PlaceCursorLoop_hangs utf8Locale ab _ (by decide) fuel 0 0 (Nat.zero_le _)

/-- C20: for an active field with `w ≥ 0`, the cursor being an offset (`cursor ≥ 0`, as
for every field `Editor::Edit` passes), `PlaceCursor` moves the terminal cursor to
`(y, x + col)` where `col` is the smaller of `w` and the summed `Utf8CharWidth` of the
first `n` characters, which are the characters that start at offsets below
`min(cursor, length(buf))`; so `x ≤ x + col ≤ x + w`. For an inactive field it does
nothing. -/
theorem PlaceCursor_spec (lc : Libc) (f : Field) :
    PlaceCursor lc f false = .nothing ∧
    (0 ≤ f.w → 0 ≤ f.cursor →
      ∃ n : Nat,
        (∀ j, j < n → (charStart f.buf j : Int) < min f.cursor f.buf.length) ∧
        min f.cursor (f.buf.length : Int) ≤ charStart f.buf n ∧
        PlaceCursor lc f true = .move f.y (f.x + min (prefixWidth lc f.buf n) f.w) ∧
        f.x ≤ f.x + min (prefixWidth lc f.buf n) f.w ∧
        f.x + min (prefixWidth lc f.buf n) f.w ≤ f.x + f.w) := by
  refine ⟨rfl, fun hw hcur => ?_⟩
  obtain ⟨c, hc⟩ : ∃ c : Nat, min f.cursor (f.buf.length : Int) = c :=
    ⟨(min f.cursor (f.buf.length : Int)).toNat, by omega⟩
  have hcle : c ≤ f.buf.length := by omega
  obtain ⟨n, hrun, hge, hbelow⟩ := PlaceCursorLoop_spec lc f.buf c hcle f.buf.length 0
    (by simp only [charStart]; omega) (fun j hj => by omega)
  have hpos := prefixWidth_nonneg lc f.buf n
  refine ⟨n, fun j hj => ?_, by omega, ?_, by omega, by omega⟩
  · have := hbelow j hj
    omega
  · unfold PlaceCursor
    simp only [Bool.not_true, Bool.false_eq_true, if_false, toInt]
    rw [hc, toSizeT_natCast]
    have hrun0 : PlaceCursorLoop lc f.buf c f.buf.length 0 0 =
        some (prefixWidth lc f.buf n) := hrun
    rw [hrun0]
    dsimp only
    congr 2
    by_cases hgt : prefixWidth lc f.buf n > f.w
    · rw [if_pos hgt]
      omega
    · rw [if_neg hgt]
      omega

/-- C20 at concrete inputs: in a field at row 3, column 5, 70 cells wide, holding
ten characters two columns wide, the cursor at byte 9 is placed 6 columns in; in a field 7
cells wide a cursor past the end is placed 7 columns in. -/
theorem PlaceCursor_spec_witness :
    (0 : Int) ≤ ({ mkField "Artist" tenWide 9 70 with y := 3, x := 5 } : Field).w ∧
    (0 : Int) ≤ ({ mkField "Artist" tenWide 9 70 with y := 3, x := 5 } : Field).cursor ∧
    PlaceCursor utf8Locale { mkField "Artist" tenWide 9 70 with y := 3, x := 5 } true =
      .move 3 11 ∧
    PlaceCursor utf8Locale { mkField "Artist" tenWide 100 7 with y := 3, x := 5 } true =
      .move 3 12 ∧
    ∃ n : Nat,
      PlaceCursor utf8Locale { mkField "Artist" tenWide 9 70 with y := 3, x := 5 } true =
        .move 3 (5 + min (prefixWidth utf8Locale tenWide n) 70) :=
  ⟨by decide, by decide, by decide, by decide,
    ((PlaceCursor_spec utf8Locale { mkField "Artist" tenWide 9 70 with y := 3, x := 5 }).2
      (by decide) (by decide)).imp fun _ h => h.2.2.1⟩

/-! ## The form inside the border -/

/-- C30: on a terminal with `rows ≥ 6` and `cols ≥ 22` (both `int` values, so at most
`INT_MAX`), the geometry `DrawStaticFrame` stores keeps both fields between the side borders (`1 ≤ x` and `x + w ≤ cols - 1`), and
the four lines are on increasing rows inside the frame:
`1 ≤ start_y < artist.y < title label row < title.y ≤ rows - 2`, with
`title.y - artist.y` equal to 3 when `rows > 8` and to 2 otherwise. -/
theorem form_inside_border (rows cols : Int) (p_Artist p_Title : Field) (hr : 6 ≤ rows)
    (hc : 22 ≤ cols) (hrmax : rows ≤ 2147483647) (hcmax : cols ≤ 2147483647) :
    1 ≤ (DrawStaticFrame rows cols p_Artist p_Title).1.x ∧
    (DrawStaticFrame rows cols p_Artist p_Title).1.x +
      (DrawStaticFrame rows cols p_Artist p_Title).1.w ≤ cols - 1 ∧
    1 ≤ (DrawStaticFrame rows cols p_Artist p_Title).2.x ∧
    (DrawStaticFrame rows cols p_Artist p_Title).2.x +
      (DrawStaticFrame rows cols p_Artist p_Title).2.w ≤ cols - 1 ∧
    1 ≤ (labelRows rows cols).1 ∧
    (labelRows rows cols).1 < (DrawStaticFrame rows cols p_Artist p_Title).1.y ∧
    (DrawStaticFrame rows cols p_Artist p_Title).1.y < (labelRows rows cols).2 ∧
    (labelRows rows cols).2 < (DrawStaticFrame rows cols p_Artist p_Title).2.y ∧
    (DrawStaticFrame rows cols p_Artist p_Title).2.y ≤ rows - 2 ∧
    (DrawStaticFrame rows cols p_Artist p_Title).2.y -
      (DrawStaticFrame rows cols p_Artist p_Title).1.y = (if rows > 8 then 3 else 2) := by
  have hw1 : 20 ≤ max 20 (min 70 (cols - 5)) := le_max_left _ _
  have hw2 : max 20 (min 70 (cols - 5)) ≤ cols - 2 := by
    simp only [max_def, min_def]
    split_ifs <;> omega
  have hw3 : max 20 (min 70 (cols - 5)) ≤ 70 := by
    simp only [max_def, min_def]
    split_ifs <;> omega
  have hw4 : cols - 5 ≤ max 20 (min 70 (cols - 5)) ∨ max 20 (min 70 (cols - 5)) = 70 := by
    simp only [max_def, min_def]
    split_ifs <;> omega
  have hx : (cols - max 20 (min 70 (cols - 5))).tdiv 2 =
      (cols - max 20 (min 70 (cols - 5))) / 2 :=
    Int.tdiv_eq_ediv (by omega) (by omega)
  have hy : rows.tdiv 2 = rows / 2 := Int.tdiv_eq_ediv (by omega) (by omega)
  have hwc : wrapInt (cols - 5) = cols - 5 := wrapInt_of_int _ (by omega) (by omega)
  have hwx : wrapInt (cols - max 20 (min 70 (cols - 5))) =
      cols - max 20 (min 70 (cols - 5)) := wrapInt_of_int _ (by omega) (by omega)
  have hwy : wrapInt (rows / 2 - 4) = rows / 2 - 4 := wrapInt_of_int _ (by omega) (by omega)
  unfold DrawStaticFrame labelRows ComputeLayout
  dsimp only
  rw [hwc, hwx, hx, hy, hwy]
  generalize max 20 (min 70 (cols - 5)) = w at *
  have hs : (1 : Int) ≤ max 1 (rows / 2 - 4) := le_max_left _ _
  have hs2 : max 1 (rows / 2 - 4) = 1 ∨ max 1 (rows / 2 - 4) = rows / 2 - 4 := by
    simp only [max_def]
    split_ifs <;> omega
  generalize max 1 (rows / 2 - 4) = sy at *
  refine ⟨by omega, by omega, by omega, by omega, by omega, by omega, ?_, ?_, ?_, ?_⟩
  all_goals split_ifs <;> omega

/-- C30 at concrete inputs: on the smallest terminal, 6 by 22, the fields are at column 1,
20 cells wide, on rows 2 and 4, under labels on rows 1 and 3; on a terminal of 24 by 80
they are at column 5, 70 cells wide, on rows 9 and 12. -/
theorem form_inside_border_witness :
    (6 : Int) ≤ 6 ∧ (22 : Int) ≤ 22 ∧ (6 : Int) ≤ 2147483647 ∧ (22 : Int) ≤ 2147483647 ∧
    DrawStaticFrame 6 22 (mkField "Artist" [] 0 0) (mkField "Title" [] 0 0) =
      ({ mkField "Artist" [] 0 20 with y := 2, x := 1 },
       { mkField "Title" [] 0 20 with y := 4, x := 1 }) ∧
    labelRows 6 22 = (1, 3) ∧
    DrawStaticFrame 24 80 (mkField "Artist" [] 0 0) (mkField "Title" [] 0 0) =
      ({ mkField "Artist" [] 0 70 with y := 9, x := 5 },
       { mkField "Title" [] 0 70 with y := 12, x := 5 }) ∧
    1 ≤ (DrawStaticFrame 6 22 (mkField "Artist" [] 0 0) (mkField "Title" [] 0 0)).1.x :=
  ⟨by decide, by decide, by decide, by decide, by decide, by decide, by decide,
    (form_inside_border 6 22 (mkField "Artist" [] 0 0) (mkField "Title" [] 0 0) (by decide)
      (by decide) (by decide) (by decide)).1⟩

/-! ## `AcoustId::GetBestMatch` -/

/-- The loop of `GetBestMatch`, entered with the best of the matches seen so far, which is
the earliest of them with the highest score, ends with the earliest match of the whole
list with the highest score. -/
theorem bestMatchLoop_spec (rest : List Match) :
    ∀ (pre mid : List Match) (best : Match),
      (∀ x ∈ pre, x.score < best.score) → (∀ x ∈ mid, x.score ≤ best.score) →
      ∃ pre1 post1, pre ++ best :: mid ++ rest = pre1 ++ bestMatchLoop best rest :: post1 ∧
        (∀ x ∈ pre1, x.score < (bestMatchLoop best rest).score) ∧
        (∀ x ∈ post1, x.score ≤ (bestMatchLoop best rest).score) := by
  induction rest with
  | nil =>
    intro pre mid best hpre hmid
    exact ⟨pre, mid, by simp [bestMatchLoop], hpre, hmid⟩
  | cons m rest ih =>
    intro pre mid best hpre hmid
    unfold bestMatchLoop
    by_cases hgt : m.score > best.score
    · rw [if_pos hgt]
      obtain ⟨pre1, post1, he, h1, h2⟩ := ih (pre ++ best :: mid) [] m
        (fun x hx => by
          rcases List.mem_append.1 hx with h | h
          · exact lt_trans (hpre x h) hgt
          · rcases List.mem_cons.1 h with h | h
            · rw [h]
              exact hgt
            · exact lt_of_le_of_lt (hmid x h) hgt)
        (fun x hx => by simp at hx)
      refine ⟨pre1, post1, ?_, h1, h2⟩
      rw [← he]
      simp
    · rw [if_neg hgt]
      obtain ⟨pre1, post1, he, h1, h2⟩ := ih pre (mid ++ [m]) best hpre
        (fun x hx => by
          rcases List.mem_append.1 hx with h | h
          · exact hmid x h
          · rw [List.mem_singleton.1 h]
            exact not_lt.1 hgt)
      refine ⟨pre1, post1, ?_, h1, h2⟩
      rw [← he]
      simp

/-- C27: `GetBestMatch` returns false for the empty list; for a non-empty list it returns
true with a match that stands in the list, after matches of strictly lower score only and
before matches of lower or equal score only: an element with the highest score, the
earliest one when scores tie. -/
theorem GetBestMatch_spec (p_Matches : List Match) :
    (p_Matches = [] → GetBestMatch p_Matches = none) ∧
    (p_Matches ≠ [] → ∃ best pre post, GetBestMatch p_Matches = some best ∧
      p_Matches = pre ++ best :: post ∧ best ∈ p_Matches ∧
      (∀ x ∈ p_Matches, x.score ≤ best.score) ∧
      (∀ x ∈ pre, x.score < best.score) ∧ (∀ x ∈ post, x.score ≤ best.score)) := by
  constructor
  · rintro rfl
    rfl
  · intro hne
    cases p_Matches with
    | nil => exact absurd rfl hne
    | cons m0 rest =>
      have hstart : bestMatchLoop m0 (m0 :: rest) = bestMatchLoop m0 rest := by
        show bestMatchLoop (if m0.score > m0.score then m0 else m0) rest = _
        rw [if_neg (lt_irrefl _)]
      obtain ⟨pre, post, he, h1, h2⟩ := bestMatchLoop_spec rest [] [] m0
        (fun x hx => by simp at hx) (fun x hx => by simp at hx)
      simp only [List.nil_append, List.cons_append] at he
      refine ⟨bestMatchLoop m0 rest, pre, post, ?_, he, ?_, ?_, h1, h2⟩
      · show some (bestMatchLoop m0 (m0 :: rest)) = _
        rw [hstart]
      · rw [he]
        simp
      · intro x hx
        rw [he] at hx
        rcases List.mem_append.1 hx with h | h
        · exact le_of_lt (h1 x h)
        · rcases List.mem_cons.1 h with h | h
          · rw [h]
          · exact h2 x h

/-- C27 at a concrete input: of three matches with the scores 1/2, 9/10 and 9/10 the
second one is returned. -/
theorem GetBestMatch_spec_witness :
    sampleMatches ≠ [] ∧
    GetBestMatch sampleMatches =
      some { title := unknownTitle, artist := unknownArtist, score := 9 / 10 } ∧
    GetBestMatch [] = none ∧
    ∃ best pre post, GetBestMatch sampleMatches = some best ∧
      sampleMatches = pre ++ best :: post :=
  ⟨by simp [sampleMatches],
    by norm_num [GetBestMatch, bestMatchLoop, sampleMatches], rfl,
    ((GetBestMatch_spec sampleMatches).2 (by simp [sampleMatches])).imp fun _ h =>
      h.imp fun _ h => h.imp fun _ h => ⟨h.1, h.2.1⟩⟩

/-! ## Display width of ASCII strings -/

theorem byteAt_eq_getElem (s : List Byte) (k : Nat) (h : k < s.length) :
    byteAt s k = (s[k]).val := by
  simp [byteAt, List.getD_eq_getElem?_getD, List.getElem?_eq_getElem h]

theorem drop_take_one (s : List Byte) (k : Nat) (h : k < s.length) :
    (s.drop k).take 1 = [s[k]] := by
  rw [List.drop_eq_getElem_cons h]
  rfl

/-- In a string of bytes 0x20..0x7E, with a C library for which these characters are one
column wide, character number `k` starts at offset `k` and the first `k` characters are
`k` columns wide. -/
theorem ascii_widths (lc : Libc) (s : List Byte)
    (hlc : ∀ b : Byte, 0x20 ≤ b.val → b.val ≤ 0x7E →
      ((lc.mbrtowc [b]).1 ≤ 0 ∨ (lc.mbrtowc [b]).2 = b.val) ∧ lc.wcwidth b.val = 1)
    (hs : ∀ b ∈ s, 0x20 ≤ b.val ∧ b.val ≤ 0x7E) (k : Nat) (hk : k ≤ s.length) :
    charStart s k = k ∧ prefixWidth lc s k = (k : Int) := by
  induction k with
  | zero => exact ⟨rfl, rfl⟩
  | succ k ih =>
    obtain ⟨h1, h2⟩ := ih (by omega)
    have hlt : k < s.length := by omega
    obtain ⟨hb1, hb2⟩ := hs s[k] (List.getElem_mem hlt)
    have hlen : Utf8CharLen s k = 1 := by
      rw [Utf8CharLen_cases s k hlt, byteAt_eq_getElem s k hlt, if_pos (by omega)]
    have hwidth : Utf8CharWidth lc s k 1 = 1 := by
      obtain ⟨hd, hw⟩ := hlc s[k] hb1 hb2
      unfold Utf8CharWidth
      rw [if_neg (by omega), drop_take_one s k hlt]
      dsimp only
      by_cases hr : (lc.mbrtowc [s[k]]).1 ≤ 0
      · rw [if_pos hr]
      · rw [if_neg hr]
        rcases hd with hd | hd
        · exact absurd hd hr
        · rw [hd, hw]
          rfl
    constructor
    · show charStart s k + Utf8CharLen s (charStart s k) = k + 1
      rw [h1, hlen]
    · show prefixWidth lc s k +
        Utf8CharWidth lc s (charStart s k) (Utf8CharLen s (charStart s k)) = _
      rw [h1, hlen, hwidth, h2]
      omega

/-- C21: the loop of `Utf8DisplayWidth` ends for every byte string: `pos` reaches the end
of the string after some `n ≤ length(s)` iterations, and every bound of at least
`length(s)` iterations gives the same result; the empty string has width 0; and for a
string of bytes 0x20..0x7E, each one column wide for the C library, the display width is
the length in bytes. -/
theorem Utf8DisplayWidth_ascii (lc : Libc) (s : List Byte) :
    (∃ n, n ≤ s.length ∧ charStart s n = s.length ∧
      Utf8DisplayWidth lc s = prefixWidth lc s n) ∧
    (∀ fuel, s.length ≤ fuel → Utf8DisplayWidthLoop lc s fuel 0 0 = Utf8DisplayWidth lc s) ∧
    Utf8DisplayWidth lc [] = 0 ∧
    ((∀ b : Byte, 0x20 ≤ b.val → b.val ≤ 0x7E →
        ((lc.mbrtowc [b]).1 ≤ 0 ∨ (lc.mbrtowc [b]).2 = b.val) ∧ lc.wcwidth b.val = 1) →
      (∀ b ∈ s, 0x20 ≤ b.val ∧ b.val ≤ 0x7E) →
      Utf8DisplayWidth lc s = (s.length : Int)) := by
  refine ⟨⟨s.length, Nat.le_refl _, charStart_length s, Utf8DisplayWidth_eq_prefixWidth lc s⟩,
    fun fuel hf => ?_, rfl, fun hlc hs => ?_⟩
  · exact Utf8DisplayWidthLoop_fuel lc s fuel s.length 0 0 (by omega) (by omega)
  · rw [Utf8DisplayWidth_eq_prefixWidth]
    exact (ascii_widths lc s hlc hs s.length (Nat.le_refl _)).2

set_option maxRecDepth 100000 in
theorem utf8Locale_ascii : ∀ b : Byte, 0x20 ≤ b.val → b.val ≤ 0x7E →
    ((utf8Locale.mbrtowc [b]).1 ≤ 0 ∨ (utf8Locale.mbrtowc [b]).2 = b.val) ∧
    utf8Locale.wcwidth b.val = 1 := by
  decide

theorem ab_ascii : ∀ b ∈ ab, 0x20 ≤ b.val ∧ b.val ≤ 0x7E := by
  intro b hb
  simp only [ab, List.mem_cons, List.mem_singleton, List.not_mem_nil, or_false] at hb
  rcases hb with rfl | rfl <;> decide

/-- C21 at a concrete input: "ab" is two columns wide in the UTF-8 locale. -/
theorem Utf8DisplayWidth_ascii_witness :
    (∀ b : Byte, 0x20 ≤ b.val → b.val ≤ 0x7E →
      ((utf8Locale.mbrtowc [b]).1 ≤ 0 ∨ (utf8Locale.mbrtowc [b]).2 = b.val) ∧
      utf8Locale.wcwidth b.val = 1) ∧
    (∀ b ∈ ab, 0x20 ≤ b.val ∧ b.val ≤ 0x7E) ∧
    Utf8DisplayWidth utf8Locale ab = 2 ∧
    Utf8DisplayWidth utf8Locale ab = (ab.length : Int) :=
  ⟨utf8Locale_ascii, ab_ascii, by decide,
    (Utf8DisplayWidth_ascii utf8Locale ab).2.2.2 utf8Locale_ascii ab_ascii⟩

/-! ## Insert, then Backspace -/

/-- The state after an accepted insertion. -/
theorem step_textInput_accept (lc : Libc) (s : Session) (ev : Event)
    (hrc : ev.rc ≠ KEY_CODE_YES) (hlabel : isCaseLabel ev.wch = false)
    (hprint : lc.iswprint ev.wch = true) (hcur : CursorInBounds s.cur)
    (hw : Utf8DisplayWidth lc s.cur.buf + charWidth lc ev.wch ≤ s.cur.w) :
    step lc s ev =
      .next (s.setCur { s.cur with
        buf := s.cur.buf.take s.cur.cursor.toNat ++ WCharToUtf8 lc ev.wch ++
          s.cur.buf.drop s.cur.cursor.toNat,
        cursor := s.cur.cursor + toInt (WCharToUtf8 lc ev.wch).length }) := by
  obtain ⟨h0, h1⟩ := hcur
  have hpos : ¬ toSizeT s.cur.cursor > s.cur.buf.length := by
    rw [toSizeT_of_nonneg _ h0]
    omega
  rw [step_char lc s ev hrc, stepChar_default lc s ev hlabel]
  unfold textInput strInsert
  dsimp only
  rw [if_pos hprint, if_pos hw, if_neg hpos, toSizeT_of_nonneg _ h0]

theorem Session.setCur_setCur (s : Session) (f g : Field) :
    (s.setCur f).setCur g = s.setCur g := by
  unfold Session.setCur
  split <;> rename_i h <;> simp [h]

/-- Backspace in a field whose buffer is `pre ++ ch ++ post` with the cursor after the
character `ch`: the buffer becomes `pre ++ post` and the cursor the length of `pre`. -/
theorem backspace_after_char (s : Session) (pre ch post : List Byte) (hch : IsUtf8Char ch)
    (hbuf : s.cur.buf = pre ++ ch ++ post)
    (hcursor : s.cur.cursor = ((pre.length + ch.length : Nat) : Int)) :
    backspace s =
      .next (s.setCur { s.cur with buf := pre ++ post, cursor := toInt pre.length }) := by
  have hlen := hch.length_pos
  unfold backspace
  dsimp only
  rw [if_pos (by omega), hcursor, toSizeT_natCast, hbuf, Utf8PrevChar_char pre ch post hch]
  unfold strErase
  rw [if_neg (by simp only [List.length_append]; omega)]
  have e : pre.length + (pre.length + ch.length - pre.length) = pre.length + ch.length := by
    omega
  have ht : (pre ++ ch ++ post).take pre.length = pre := by
    rw [List.append_assoc, List.take_left]
  have hd : (pre ++ ch ++ post).drop (pre.length + ch.length) = post :=
    List.drop_left' (by simp)
  simp only [e, ht, hd]

/-- C29: in a field with `0 ≤ cursor ≤ length(buf)`, whatever its bytes, when the character
`c` is accepted for insertion and `utf8(c)` is one well-formed UTF-8 character, the
character event followed by a Backspace event (KEY_BACKSPACE, DEL or Ctrl-H) gives back the
session as it was: the same buffer and the same cursor. -/
theorem insert_then_backspace (lc : Libc) (s : Session) (ev bs : Event)
    (hrc : ev.rc ≠ KEY_CODE_YES) (hlabel : isCaseLabel ev.wch = false)
    (hprint : lc.iswprint ev.wch = true) (hcur : CursorInBounds s.cur)
    (hw : Utf8DisplayWidth lc s.cur.buf + charWidth lc ev.wch ≤ s.cur.w)
    (henc : IsUtf8Char (WCharToUtf8 lc ev.wch)) (hbs : bs.isBackspace) :
    ∃ s1, step lc s ev = .next s1 ∧
      s1.cur.buf = s.cur.buf.take s.cur.cursor.toNat ++ WCharToUtf8 lc ev.wch ++
        s.cur.buf.drop s.cur.cursor.toNat ∧
      step lc s1 bs = .next s := by
  refine ⟨_, step_textInput_accept lc s ev hrc hlabel hprint hcur hw, ?_, ?_⟩
  · rw [Session.cur_setCur]
  · obtain ⟨h0, h1⟩ := hcur
    have htake : (s.cur.buf.take s.cur.cursor.toNat).length = s.cur.cursor.toNat := by
      rw [List.length_take]
      omega
    rw [step_backspace lc _ bs hbs,
      backspace_after_char _ (s.cur.buf.take s.cur.cursor.toNat) (WCharToUtf8 lc ev.wch)
        (s.cur.buf.drop s.cur.cursor.toNat) henc
        (by rw [Session.cur_setCur])
        (by
          rw [Session.cur_setCur, htake]
          simp only [toInt]
          omega)]
    rw [Session.setCur_setCur, Session.cur_setCur, List.take_append_drop, htake]
    have e : ({ s.cur with buf := s.cur.buf, cursor := toInt s.cur.cursor.toNat } : Field) =
        s.cur := by
      have hc : toInt s.cur.cursor.toNat = s.cur.cursor := by
        simp only [toInt]
        omega
      rw [hc]
    exact congrArg _ (by rw [e, Session.setCur_cur])

/-- C29 at a concrete input: U+4E2D typed at offset 3 of "héllo" and then DEL give back
"héllo" with the cursor at 3. -/
theorem insert_then_backspace_witness :
    (charEvent 0x4E2D).rc ≠ KEY_CODE_YES ∧ isCaseLabel 0x4E2D = false ∧
    utf8Locale.iswprint 0x4E2D = true ∧ CursorInBounds (mkSession hello 3 [] 70).cur ∧
    Utf8DisplayWidth utf8Locale hello + charWidth utf8Locale 0x4E2D ≤ 70 ∧
    IsUtf8Char (WCharToUtf8 utf8Locale 0x4E2D) ∧ (charEvent 127).isBackspace ∧
    step utf8Locale (mkSession hello 3 [] 70) (charEvent 0x4E2D) =
      .next (mkSession [0x68, 0xC3, 0xA9, 0xE4, 0xB8, 0xAD, 0x6C, 0x6C, 0x6F] 6 [] 70) ∧
    ∃ s1, step utf8Locale (mkSession hello 3 [] 70) (charEvent 0x4E2D) = .next s1 ∧
      step utf8Locale s1 (charEvent 127) = .next (mkSession hello 3 [] 70) :=
  ⟨by decide, by decide, by decide, by decide, by decide,
    utf8Locale_encodes 0x4E2D (by decide), by decide, by decide,
    (insert_then_backspace utf8Locale (mkSession hello 3 [] 70) (charEvent 0x4E2D)
      (charEvent 127) (by decide) (by decide) (by decide) (by decide) (by decide)
      (utf8Locale_encodes 0x4E2D (by decide)) (by decide)).imp fun _ h => ⟨h.1, h.2.2⟩⟩

/-! ## Detect failure in `main` -/

/-- C23 as stated fails: for an .mp3 file with the tags "héllo" and "ab", processed with
`--detect --edit`, when Identify fails `main` makes no call of `Editor::Edit`: the calls
are `Tag::Read` and `AcoustId::Identify` only, and the result of the file is false. -/
theorem identify_failure_skips_edit :
    (processFile { clear := false, detect := true, edit := true, rename := false } ab
      unidentifiedEnv).calls = [Call.tagRead, Call.identify] ∧
    (processFile { clear := false, detect := true, edit := true, rename := false } ab
      unidentifiedEnv).result = false ∧
    ¬ ∃ a t, Call.edit a t ∈
      (processFile { clear := false, detect := true, edit := true, rename := false } ab
        unidentifiedEnv).calls := by
  have h : (processFile { clear := false, detect := true, edit := true, rename := false } ab
      unidentifiedEnv).calls = [Call.tagRead, Call.identify] := by decide
  refine ⟨h, by decide, ?_⟩
  rintro ⟨a, t, hm⟩
  rw [h] at hm
  simp at hm

/-- C23 amended: for every file processed with `--detect` (with or without `--edit`), when
`AcoustId::Identify` fails the result of the file is false and `main` calls neither
`Editor::Edit` nor `Tag::Write`, `Tag::MakePath` or `Util::Rename` for it; for an .mp3 file
without `--clear` the calls are exactly `Tag::Read` and `AcoustId::Identify`. -/
theorem identify_failure_fails_file (o : Flags) (filePath : List Byte) (env : FileEnv)
    (hdetect : o.detect = true) (hid : env.identify = none) :
    (processFile o filePath env).result = false ∧
    (∀ c ∈ (processFile o filePath env).calls,
      (∀ a t, c ≠ Call.edit a t) ∧ (∀ a t, c ≠ Call.tagWrite a t) ∧
      (∀ a t, c ≠ Call.makePath a t) ∧ (∀ p, c ≠ Call.rename p)) ∧
    (env.isMp3 = true → o.clear = false →
      (processFile o filePath env).calls = [Call.tagRead, Call.identify]) := by
  obtain ⟨clear, detect, edit, rename⟩ := o
  simp only at hdetect
  subst hdetect
  unfold processFile doWrite doEdit doDetect doRead doClear FileState.init
  rw [hid]
  cases env.isMp3 <;> cases clear <;> cases env.tagClear <;> simp

/-! ## `Util::MakeReport` -/

/-- C22, the code at the failing input: with the default format "%i : %r : %o", the input
path "/m/100%off.mp3", the output path "/m/A-B.mp3" and the result true, the report is
"/m/100/m/A-B.mp3ff.mp3 : PASS : /m/A-B.mp3": the second call of `Replace` also replaces
the "%o" inside the input path, which does not appear verbatim in the report. A format and
paths without such a clash give the expected report. -/
theorem MakeReport_token_in_path :
    MakeReport (ascii "%i : %r : %o") (ascii "/m/100%off.mp3") (ascii "/m/A-B.mp3") true =
      some (ascii "/m/100/m/A-B.mp3ff.mp3 : PASS : /m/A-B.mp3") ∧
    MakeReport (ascii "%i : %r : %o") (ascii "/m/100%off.mp3") (ascii "/m/A-B.mp3") true ≠
      some (ascii "/m/100%off.mp3 : PASS : /m/A-B.mp3") ∧
    MakeReport (ascii "%i : %r : %o") (ascii "/m/a.mp3") (ascii "/m/A-B.mp3") false =
      some (ascii "/m/a.mp3 : FAIL : /m/A-B.mp3") := by
  decide

/-- C23 amended, at a concrete input: the file with the tags "héllo" and "ab" that
Identify does not recognise, processed with `--detect --edit --rename`. -/
theorem identify_failure_fails_file_witness :
    ({ clear := false, detect := true, edit := true, rename := true } : Flags).detect = true ∧
    unidentifiedEnv.identify = none ∧
    processFile { clear := false, detect := true, edit := true, rename := true } ab
        unidentifiedEnv =
      { artist := hello, title := ab, result := false, newFilePath := ab,
        calls := [Call.tagRead, Call.identify] } ∧
    (processFile { clear := false, detect := true, edit := true, rename := true } ab
      unidentifiedEnv).result = false :=
  ⟨rfl, rfl, by decide,
    (identify_failure_fails_file { clear := false, detect := true, edit := true, rename := true }
      ab unidentifiedEnv rfl rfl).1⟩

/-! ## Exit status of `main` -/

theorem runFile_noThrows (o : Flags) (filePath : List Byte) (env : FileEnv) :
    runFile o filePath env noThrows = .finished (processFile o filePath env) := by
  unfold runFile
  simp [noThrows, processFile]

theorem Utf8CharWidth_segment (lc : Libc) (a ch b : List Byte) (h : 0 < ch.length) :
    Utf8CharWidth lc (a ++ ch ++ b) a.length ch.length = Utf8CharWidth lc ch 0 ch.length := by
  have hd : ((a ++ ch ++ b).drop a.length).take ch.length = ch := by
    rw [List.append_assoc, List.drop_left, List.take_left]
  have h0 : ¬ (ch.length = 0 ∨ a.length ≥ (a ++ ch ++ b).length) := by
    simp only [List.length_append]
    omega
  have h1 : ¬ (ch.length = 0 ∨ 0 ≥ ch.length) := by omega
  unfold Utf8CharWidth
  rw [if_neg h0, if_neg h1, hd, List.drop_zero, List.take_length]

theorem charsWidth_nil (lc : Libc) : charsWidth lc [] = 0 := rfl

theorem charsWidth_cons (lc : Libc) (ch : List Byte) (chars : List (List Byte)) :
    charsWidth lc (ch :: chars) = Utf8CharWidth lc ch 0 ch.length + charsWidth lc chars := by
  simp [charsWidth]

theorem charsWidth_append (lc : Libc) (pre post : List (List Byte)) :
    charsWidth lc (pre ++ post) = charsWidth lc pre + charsWidth lc post := by
  simp [charsWidth]

theorem charsWidth_nonneg (lc : Libc) (chars : List (List Byte)) : 0 ≤ charsWidth lc chars := by
  induction chars with
  | nil => exact le_refl _
  | cons ch chars ih =>
    rw [charsWidth_cons]
    have := Utf8CharWidth_nonneg lc ch 0 ch.length
    omega

/-- The loop of `Utf8DisplayWidth`, started where a sequence of characters starts, adds the
width of each of them. -/
theorem Utf8DisplayWidthLoop_chars (lc : Libc) (chars : List (List Byte)) :
    (∀ ch ∈ chars, IsUtf8Char ch) → ∀ (a : List Byte) (fuel : Nat) (acc : Int),
      chars.flatten.length ≤ fuel →
      Utf8DisplayWidthLoop lc (a ++ chars.flatten) fuel a.length acc =
        acc + charsWidth lc chars := by
  induction chars with
  | nil =>
    intro _ a fuel acc _
    rw [charsWidth_nil, Int.add_zero]
    cases fuel with
    | zero => rfl
    | succ fuel =>
      unfold Utf8DisplayWidthLoop
      rw [if_neg (by simp)]
  | cons ch chars ih =>
    intro hall a fuel acc hfuel
    have hch : IsUtf8Char ch := hall ch (List.mem_cons_self _ _)
    have hlen := hch.length_pos
    rw [List.flatten_cons, List.length_append] at hfuel
    obtain ⟨k, rfl⟩ : ∃ k, fuel = k + 1 := ⟨fuel - 1, by omega⟩
    have hs : a ++ (ch :: chars).flatten = a ++ ch ++ chars.flatten := by
      rw [List.flatten_cons, List.append_assoc]
    have hpos : a.length < (a ++ ch ++ chars.flatten).length := by
      simp only [List.length_append]
      omega
    rw [hs]
    unfold Utf8DisplayWidthLoop
    rw [if_pos hpos]
    dsimp only
    rw [Utf8CharLen_char a ch _ hch, Utf8CharWidth_segment lc a ch _ hlen, charsWidth_cons]
    have := ih (fun c hc => hall c (List.mem_cons_of_mem _ hc)) (a ++ ch) k
      (acc + Utf8CharWidth lc ch 0 ch.length) (by omega)
    rw [List.length_append] at this
    rw [this]
    omega

/-- The display width of a well-formed buffer is the sum of the widths of its
characters. -/
theorem Utf8DisplayWidth_flatten (lc : Libc) (chars : List (List Byte))
    (h : ∀ ch ∈ chars, IsUtf8Char ch) :
    Utf8DisplayWidth lc chars.flatten = charsWidth lc chars := by
  have := Utf8DisplayWidthLoop_chars lc chars h [] chars.flatten.length 0 (le_refl _)
  simp only [List.nil_append, List.length_nil, Int.zero_add] at this
  exact this

theorem Utf8DisplayWidth_two (lc : Libc) (pre post : List (List Byte))
    (hpre : ∀ ch ∈ pre, IsUtf8Char ch) (hpost : ∀ ch ∈ post, IsUtf8Char ch) :
    Utf8DisplayWidth lc (pre.flatten ++ post.flatten) =
      charsWidth lc pre + charsWidth lc post := by
  rw [← List.flatten_append, Utf8DisplayWidth_flatten lc _ (fun ch hch => by
    rcases List.mem_append.1 hch with h | h
    · exact hpre ch h
    · exact hpost ch h), charsWidth_append]

theorem Utf8DisplayWidth_three (lc : Libc) (pre post : List (List Byte)) (ch : List Byte)
    (hpre : ∀ c ∈ pre, IsUtf8Char c) (hch : IsUtf8Char ch)
    (hpost : ∀ c ∈ post, IsUtf8Char c) :
    Utf8DisplayWidth lc (pre.flatten ++ ch ++ post.flatten) =
      charsWidth lc pre + Utf8CharWidth lc ch 0 ch.length + charsWidth lc post := by
  have := Utf8DisplayWidth_two lc pre (ch :: post) hpre (fun c hc => by
    rcases List.mem_cons.1 hc with h | h
    · rw [h]
      exact hch
    · exact hpost c h)
  rw [List.flatten_cons, ← List.append_assoc, charsWidth_cons] at this
  rw [this]
  omega

theorem erase_prev_width (lc : Libc) (b : List Byte) (o : Nat)
    (h : OnBoundary IsUtf8Char b o) (ho : 0 < o) :
    ∃ b1, strErase b (Utf8PrevChar b o) (o - Utf8PrevChar b o) = some b1 ∧
      Utf8DisplayWidth lc b1 ≤ Utf8DisplayWidth lc b := by
  obtain ⟨pre, ch, post, hpre, hch, hpost, rfl, rfl⟩ := h.split_left ho
  rw [Utf8PrevChar_char _ _ _ hch]
  refine ⟨pre.flatten ++ post.flatten, ?_, ?_⟩
  · unfold strErase
    rw [if_neg (by simp), List.append_assoc, List.take_left]
    have e : pre.flatten.length + (pre.flatten.length + ch.length - pre.flatten.length) =
        pre.flatten.length + ch.length := by omega
    rw [e, ← List.append_assoc, List.drop_left' (by simp)]
  · rw [Utf8DisplayWidth_two lc pre post hpre hpost,
      Utf8DisplayWidth_three lc pre post ch hpre hch hpost]
    have := Utf8CharWidth_nonneg lc ch 0 ch.length
    omega

theorem erase_next_width (lc : Libc) (b : List Byte) (o : Nat)
    (h : OnBoundary IsUtf8Char b o) (ho : o < b.length) :
    ∃ b1, strErase b o (Utf8CharLen b o) = some b1 ∧
      Utf8DisplayWidth lc b1 ≤ Utf8DisplayWidth lc b := by
  obtain ⟨pre, ch, post, hpre, hch, hpost, rfl, rfl⟩ := h.split_right ho
  rw [Utf8CharLen_char _ _ _ hch]
  refine ⟨pre.flatten ++ post.flatten, ?_, ?_⟩
  · unfold strErase
    rw [if_neg (by simp), List.drop_left' (by simp), List.append_assoc, List.take_left]
  · rw [Utf8DisplayWidth_two lc pre post hpre hpost,
      Utf8DisplayWidth_three lc pre post ch hpre hch hpost]
    have := Utf8CharWidth_nonneg lc ch 0 ch.length
    omega

theorem eraseToEnd_width (lc : Libc) (b : List Byte) (o : Nat)
    (h : OnBoundary IsUtf8Char b o) :
    ∃ b1, strEraseToEnd b o = some b1 ∧ Utf8DisplayWidth lc b1 ≤ Utf8DisplayWidth lc b := by
  obtain ⟨pre, post, hpre, hpost, rfl, rfl⟩ := h
  refine ⟨pre.flatten, ?_, ?_⟩
  · unfold strEraseToEnd
    rw [if_neg (by simp), List.take_left]
  · rw [Utf8DisplayWidth_two lc pre post hpre hpost, Utf8DisplayWidth_flatten lc pre hpre]
    have := charsWidth_nonneg lc post
    omega

theorem eraseToStart_width (lc : Libc) (b : List Byte) (o : Nat)
    (h : OnBoundary IsUtf8Char b o) :
    ∃ b1, strErase b 0 o = some b1 ∧ Utf8DisplayWidth lc b1 ≤ Utf8DisplayWidth lc b := by
  obtain ⟨pre, post, hpre, hpost, rfl, rfl⟩ := h
  refine ⟨post.flatten, ?_, ?_⟩
  · unfold strErase
    rw [if_neg (by simp), Nat.zero_add, List.drop_left]
    rfl
  · rw [Utf8DisplayWidth_two lc pre post hpre hpost, Utf8DisplayWidth_flatten lc post hpost]
    have := charsWidth_nonneg lc pre
    omega

theorem insert_width (lc : Libc) (b : List Byte) (o : Nat) (enc : List Byte)
    (h : OnBoundary IsUtf8Char b o) (henc : IsUtf8Char enc) :
    Utf8DisplayWidth lc (b.take o ++ enc ++ b.drop o) =
      Utf8DisplayWidth lc b + Utf8CharWidth lc enc 0 enc.length := by
  obtain ⟨pre, post, hpre, hpost, rfl, rfl⟩ := h
  rw [List.take_left, List.drop_left, Utf8DisplayWidth_two lc pre post hpre hpost,
    Utf8DisplayWidth_three lc pre post enc hpre henc hpost]
  omega

theorem noWider_refl (lc : Libc) (s : Session) : NoWider lc s s :=
  ⟨rfl, rfl, le_refl _, le_refl _⟩

theorem noWider_setCur (lc : Libc) (s : Session) (f : Field) (hw : f.w = s.cur.w)
    (hb : Utf8DisplayWidth lc f.buf ≤ Utf8DisplayWidth lc s.cur.buf) :
    NoWider lc s (s.setCur f) := by
  unfold Session.cur at hw hb
  unfold Session.setCur
  split_ifs at hw hb ⊢
  · exact ⟨hw, rfl, hb, le_refl _⟩
  · exact ⟨rfl, hw, le_refl _, hb⟩

theorem noWider_switchField (lc : Libc) (s : Session) : NoWider lc s (switchField s) := by
  unfold Idntag.switchField
  dsimp only
  split
  · exact ⟨rfl, rfl, le_refl _, le_refl _⟩
  · exact ⟨rfl, rfl, le_refl _, le_refl _⟩

theorem Session.cur_onBoundary (s : Session) (ha : s.artist.OnBoundary IsUtf8Char)
    (ht : s.title.OnBoundary IsUtf8Char) : s.cur.OnBoundary IsUtf8Char := by
  unfold Session.cur
  split
  · exact ha
  · exact ht

theorem Field.OnBoundary.inBounds {f : Field} (h : f.OnBoundary IsUtf8Char) :
    CursorInBounds f := by
  obtain ⟨_, o, hc, pre, post, _, _, hb, ho⟩ := h
  unfold CursorInBounds
  rw [hc, hb, ho]
  simp only [List.length_append]
  omega

theorem backspace_noWider (lc : Libc) (s : Session) (hb : s.cur.OnBoundary IsUtf8Char) :
    (backspace s).Safe (NoWider lc s) := by
  obtain ⟨_, o, hc, h⟩ := hb
  unfold backspace
  dsimp only
  by_cases hpos : s.cur.cursor > 0
  · rw [if_pos hpos, hc, toSizeT_natCast]
    obtain ⟨b1, e, hw⟩ := erase_prev_width lc s.cur.buf o h (by omega)
    rw [e]
    exact noWider_setCur lc s _ rfl hw
  · rw [if_neg hpos]
    exact noWider_refl lc s

/-- An event that is neither detect nor resize nor an accepted insertion leaves both
capacities as they are and increases no display width. -/
theorem step_noWider (lc : Libc) (s : Session) (ev : Event)
    (ha : s.artist.OnBoundary IsUtf8Char) (ht : s.title.OnBoundary IsUtf8Char)
    (hdetect : ¬ ev.isChar KEY_CTRLD) (hresize : ¬ ev.isKey KEY_RESIZE)
    (hrej : ¬ ev.isAccepted lc s) : (step lc s ev).Safe (NoWider lc s) := by
  have hcur := Session.cur_onBoundary s ha ht
  obtain ⟨_, o, hc, hob⟩ := hcur
  have hlen : o ≤ s.cur.buf.length := by
    obtain ⟨pre, post, _, _, hb, ho⟩ := hob
    rw [hb, ho]
    simp
  unfold step
  by_cases hrc : ev.rc = KEY_CODE_YES
  · rw [if_pos hrc]
    unfold stepKey
    dsimp only
    split_ifs with h1 h2 h3 h4 h5 h6 h7 h8 h9 h10 h11
    · exact absurd ⟨hrc, h1⟩ hresize
    · exact noWider_setCur lc s _ rfl (le_refl _)
    · exact noWider_refl lc s
    · exact noWider_setCur lc s _ rfl (le_refl _)
    · exact noWider_refl lc s
    · exact noWider_switchField lc s
    · exact noWider_switchField lc s
    · exact backspace_noWider lc s (Session.cur_onBoundary s ha ht)
    · obtain ⟨b1, e, hw⟩ := erase_next_width lc s.cur.buf o hob (by
        simp only [toInt, hc] at h10
        omega)
      rw [hc, toSizeT_natCast, e]
      exact noWider_setCur lc s _ rfl hw
    · exact noWider_refl lc s
    · exact ⟨rfl, rfl, le_refl _, le_refl _⟩
    · exact noWider_refl lc s
  · rw [if_neg hrc]
    unfold stepChar
    dsimp only
    by_cases h1 : ev.wch = KEY_CTRLC
    · rw [if_pos h1]
      trivial
    rw [if_neg h1]
    by_cases h2 : ev.wch = KEY_CTRLD
    · exact absurd ⟨hrc, h2⟩ hdetect
    rw [if_neg h2]
    by_cases h3 : ev.wch = KEY_CTRLX
    · rw [if_pos h3]
      exact ⟨rfl, rfl, le_refl _, le_refl _⟩
    rw [if_neg h3]
    by_cases h4 : ev.wch = KEY_CTRLA ∨ ev.wch = KEY_HOME
    · rw [if_pos h4]
      exact noWider_setCur lc s _ rfl (le_refl _)
    rw [if_neg h4]
    by_cases h5 : ev.wch = KEY_CTRLE ∨ ev.wch = KEY_END
    · rw [if_pos h5]
      exact noWider_setCur lc s _ rfl (le_refl _)
    rw [if_neg h5]
    by_cases h6 : ev.wch = KEY_CTRLK
    · rw [if_pos h6]
      by_cases hlt : s.cur.cursor < toInt s.cur.buf.length
      · obtain ⟨b1, e, hw⟩ := eraseToEnd_width lc s.cur.buf o hob
        rw [if_pos hlt, hc, toSizeT_natCast, e]
        exact noWider_setCur lc s _ rfl hw
      · rw [if_neg hlt]
        exact noWider_refl lc s
    rw [if_neg h6]
    by_cases h8 : ev.wch = KEY_CTRLU
    · rw [if_pos h8]
      by_cases hpos : s.cur.cursor > 0
      · obtain ⟨b1, e, hw⟩ := eraseToStart_width lc s.cur.buf o hob
        rw [if_pos hpos, hc, toSizeT_natCast, e]
        exact noWider_setCur lc s _ rfl hw
      · rw [if_neg hpos]
        exact noWider_refl lc s
    rw [if_neg h8]
    by_cases h10 : ev.wch = 127 ∨ ev.wch = 8
    · rw [if_pos h10]
      exact backspace_noWider lc s (Session.cur_onBoundary s ha ht)
    rw [if_neg h10]
    by_cases h11 : ev.wch = 10 ∨ ev.wch = 13
    · rw [if_pos h11]
      split
      · exact ⟨rfl, rfl, le_refl _, le_refl _⟩
      · exact ⟨rfl, rfl, le_refl _, le_refl _⟩
    rw [if_neg h11]
    by_cases h12 : ev.wch = 9
    · rw [if_pos h12]
      exact noWider_switchField lc s
    rw [if_neg h12]
    have hlabel : isCaseLabel ev.wch = false := by
      rw [isCaseLabel_eq_false]
      simp only [not_or] at h4 h5 h10 h11
      exact ⟨h1, h2, h3, h4.1, h4.2, h5.1, h5.2, h6, h8, h10.1, h10.2, h11.1, h11.2, h12⟩
    unfold textInput
    dsimp only
    by_cases hp : lc.iswprint ev.wch = true
    · rw [if_pos hp]
      by_cases hw : Utf8DisplayWidth lc s.cur.buf + charWidth lc ev.wch ≤ s.cur.w
      · exact absurd ⟨hrc, hlabel, hp, hw⟩ hrej
      · rw [if_neg hw]
        exact noWider_refl lc s
    · rw [if_neg hp]
      exact noWider_refl lc s

/-- An accepted insertion of a character encoded as one UTF-8 character whose measured
width is the width the capacity check counted: the display width of the active buffer
grows by that width, and nothing else changes but the cursor. -/
theorem step_insert_width (lc : Libc) (s : Session) (ev : Event)
    (hcur : s.cur.OnBoundary IsUtf8Char) (hacc : ev.isAccepted lc s)
    (henc : IsUtf8Char (WCharToUtf8 lc ev.wch))
    (hwid : Utf8CharWidth lc (WCharToUtf8 lc ev.wch) 0 (WCharToUtf8 lc ev.wch).length =
      charWidth lc ev.wch) :
    ∃ f : Field, step lc s ev = .next (s.setCur f) ∧ f.w = s.cur.w ∧
      Utf8DisplayWidth lc f.buf = Utf8DisplayWidth lc s.cur.buf + charWidth lc ev.wch := by
  obtain ⟨hrc, hlabel, hp, hw⟩ := hacc
  refine ⟨_, step_textInput_accept lc s ev hrc hlabel hp hcur.inBounds hw, rfl, ?_⟩
  obtain ⟨_, o, hc, hob⟩ := hcur
  dsimp only
  rw [hc, Int.toNat_ofNat, insert_width lc s.cur.buf o _ hob henc, hwid]

theorem zhong_isUtf8Char : IsUtf8Char zhong := by
  simp [zhong, IsUtf8Char, leadLength, IsContinuation]
  decide

theorem hello_boundary_3 :
    (mkSession hello 3 [] 70).artist.OnBoundary IsUtf8Char :=
  ⟨hello_wellFormed, 3, rfl, [[0x68], [0xC3, 0xA9]], [[0x6C], [0x6C], [0x6F]],
    fun ch hch => helloChars_wellFormed ch (by
      simp only [helloChars, List.mem_cons] at hch ⊢
      tauto),
    fun ch hch => helloChars_wellFormed ch (by
      simp only [helloChars, List.mem_cons] at hch ⊢
      tauto),
    rfl, rfl⟩

theorem empty_boundary (label : String) (w : Int) :
    (mkField label [] 0 w).OnBoundary IsUtf8Char :=
  ⟨nil_wellFormed _, 0, rfl, [], [], by simp, by simp, rfl, rfl⟩

/-- C28 as stated fails: in an ISO-8859-1 locale the field holds the well-formed UTF-8
buffer E4 B8 AD (U+4E2D), of display width 1, with the cursor at offset 0 and a capacity of
2 cells. The character U+00C9 (width 1) is accepted, its encoding is the byte C9, and the
buffer C9 E4 B8 AD has the display width 3: more than the capacity 2, and not 1 + 1. -/
theorem latin1_insert_overflows :
    (mkSession zhong 0 [] 2).artist.OnBoundary IsUtf8Char ∧
    (mkSession zhong 0 [] 2).title.OnBoundary IsUtf8Char ∧
    Utf8DisplayWidth latin1Locale (mkSession zhong 0 [] 2).artist.buf = 1 ∧
    (mkSession zhong 0 [] 2).artist.w = 2 ∧
    ¬ (charEvent 0xC9).isChar KEY_CTRLD ∧ ¬ (charEvent 0xC9).isKey KEY_RESIZE ∧
    (charEvent 0xC9).isAccepted latin1Locale (mkSession zhong 0 [] 2) ∧
    charWidth latin1Locale 0xC9 = 1 ∧
    step latin1Locale (mkSession zhong 0 [] 2) (charEvent 0xC9) =
      .next (mkSession [0xC9, 0xE4, 0xB8, 0xAD] 1 [] 2) ∧
    Utf8DisplayWidth latin1Locale [0xC9, 0xE4, 0xB8, 0xAD] = 3 :=
  ⟨⟨⟨[zhong], by simpa using zhong_isUtf8Char, by simp [mkSession, mkField]⟩, 0, rfl, [],
      [zhong], by simp, by simpa using zhong_isUtf8Char, by simp [mkSession, mkField], rfl⟩,
    empty_boundary _ _, by decide, rfl, by decide, by decide,
    ⟨by decide, by decide, by decide, by decide⟩, by decide, by decide, by decide⟩

/-- C28 amended: let both buffers be well-formed UTF-8 with the cursors on character
boundaries and display widths within the capacities `w`, and let the event be neither
detect (Ctrl-D) nor resize. When the encoding of a printable event character is one
well-formed UTF-8 character whose measured width `Utf8CharWidth` is `charWidth`, the width
the capacity check counts, then the iteration does not throw, leaves both capacities as
they are and keeps both display widths within them; an accepted insertion of `c` gives
width(buf') = width(buf) + width(c) in the active field and leaves the other field as it
is; every other event, so every deletion event (Backspace, Delete, Ctrl-K, Ctrl-U),
increases the display width of neither field. -/
theorem width_capacity (lc : Libc) (s : Session) (ev : Event)
    (ha : s.artist.OnBoundary IsUtf8Char) (ht : s.title.OnBoundary IsUtf8Char)
    (hwa : Utf8DisplayWidth lc s.artist.buf ≤ s.artist.w)
    (hwt : Utf8DisplayWidth lc s.title.buf ≤ s.title.w)
    (hdetect : ¬ ev.isChar KEY_CTRLD) (hresize : ¬ ev.isKey KEY_RESIZE)
    (henc : lc.iswprint ev.wch = true →
      IsUtf8Char (WCharToUtf8 lc ev.wch) ∧
      Utf8CharWidth lc (WCharToUtf8 lc ev.wch) 0 (WCharToUtf8 lc ev.wch).length =
        charWidth lc ev.wch) :
    (step lc s ev).Safe (fun s1 =>
      s1.artist.w = s.artist.w ∧ s1.title.w = s.title.w ∧
      Utf8DisplayWidth lc s1.artist.buf ≤ s1.artist.w ∧
      Utf8DisplayWidth lc s1.title.buf ≤ s1.title.w) ∧
    (ev.isAccepted lc s →
      ∃ s1, step lc s ev = .next s1 ∧ s1.active = s.active ∧ s1.other = s.other ∧
        Utf8DisplayWidth lc s1.cur.buf =
          Utf8DisplayWidth lc s.cur.buf + charWidth lc ev.wch) ∧
    (¬ ev.isAccepted lc s →
      (step lc s ev).Safe (fun s1 =>
        Utf8DisplayWidth lc s1.artist.buf ≤ Utf8DisplayWidth lc s.artist.buf ∧
        Utf8DisplayWidth lc s1.title.buf ≤ Utf8DisplayWidth lc s.title.buf)) ∧
    (ev.isBackspace ∨ ev.isDelete ∨ ev.isChar KEY_CTRLK ∨ ev.isChar KEY_CTRLU →
      ¬ ev.isAccepted lc s) := by
  have hcur := Session.cur_onBoundary s ha ht
  refine ⟨?_, ?_, ?_, ?_⟩
  · by_cases hacc : ev.isAccepted lc s
    · obtain ⟨he, hw⟩ := henc hacc.2.2.1
      obtain ⟨f, e, hfw, hfb⟩ := step_insert_width lc s ev hcur hacc he hw
      rw [e]
      have hfit : Utf8DisplayWidth lc f.buf ≤ f.w := by
        rw [hfb, hfw]
        exact hacc.2.2.2
      show _ ∧ _ ∧ _ ∧ _
      unfold Session.cur at hfw
      unfold Session.setCur
      split_ifs at hfw ⊢
      · exact ⟨hfw, rfl, hfit, hwt⟩
      · exact ⟨rfl, hfw, hwa, hfit⟩
    · exact (step_noWider lc s ev ha ht hdetect hresize hacc).mono fun s1 h => by
        obtain ⟨h1, h2, h3, h4⟩ := h
        exact ⟨h1, h2, by omega, by omega⟩
  · intro hacc
    obtain ⟨he, hw⟩ := henc hacc.2.2.1
    obtain ⟨f, e, _, hfb⟩ := step_insert_width lc s ev hcur hacc he hw
    exact ⟨_, e, Session.active_setCur s f, Session.other_setCur s f, by
      rw [Session.cur_setCur, hfb]⟩
  · intro hacc
    exact (step_noWider lc s ev ha ht hdetect hresize hacc).mono fun s1 h => ⟨h.2.2.1, h.2.2.2⟩
  · rintro (h | h | h | h) ⟨hrc, hlabel, _, _⟩
    · rcases h with ⟨h1, _⟩ | ⟨_, h2 | h2⟩
      · exact hrc h1
      · rw [h2] at hlabel
        exact absurd hlabel (by decide)
      · rw [h2] at hlabel
        exact absurd hlabel (by decide)
    · exact hrc h.1
    · rw [h.2] at hlabel
      exact absurd hlabel (by decide)
    · rw [h.2] at hlabel
      exact absurd hlabel (by decide)

/-- C28 amended, at a concrete input: in the UTF-8 locale U+4E2D (two cells) typed at
offset 3 of "héllo" (five cells) in a field of 70 cells gives a buffer of seven cells. -/
theorem width_capacity_witness :
    Utf8DisplayWidth utf8Locale hello = 5 ∧ charWidth utf8Locale 0x4E2D = 2 ∧
    (charEvent 0x4E2D).isAccepted utf8Locale (mkSession hello 3 [] 70) ∧
    ∃ s1, step utf8Locale (mkSession hello 3 [] 70) (charEvent 0x4E2D) = .next s1 ∧
      s1.active = (mkSession hello 3 [] 70).active ∧
      s1.other = (mkSession hello 3 [] 70).other ∧
      Utf8DisplayWidth utf8Locale s1.cur.buf =
        Utf8DisplayWidth utf8Locale (mkSession hello 3 [] 70).cur.buf +
          charWidth utf8Locale (charEvent 0x4E2D).wch :=
  ⟨by decide, by decide, ⟨by decide, by decide, by decide, by decide⟩,
    (width_capacity utf8Locale (mkSession hello 3 [] 70) (charEvent 0x4E2D)
      hello_boundary_3 (empty_boundary _ _) (by decide) (by decide) (by decide) (by decide)
      (fun hp => ⟨utf8Locale_encodes 0x4E2D hp, by decide⟩)).2.1
      ⟨by decide, by decide, by decide, by decide⟩⟩

/-! ## `Tag::SanitizeFileName` -/

/-- The loop of `Utf8ToUtf32` exits within `s.length - i` iterations: any two iteration
bounds of at least that many give the same result. -/
theorem Utf8ToUtf32Loop_fuel (s : List Byte) (n : Nat) :
    ∀ (m i : Nat) (out : List Nat), s.length - i ≤ n → s.length - i ≤ m →
      Utf8ToUtf32Loop s n i out = Utf8ToUtf32Loop s m i out := by
  induction n with
  | zero =>
    intro m i out hn _
    cases m with
    | zero => rfl
    | succ m =>
      unfold Utf8ToUtf32Loop
      rw [if_neg (by omega)]
  | succ n ih =>
    intro m i out hn hm
    by_cases hp : i < s.length
    · obtain ⟨k, rfl⟩ : ∃ k, m = k + 1 := ⟨m - 1, by omega⟩
      unfold Utf8ToUtf32Loop
      rw [if_pos hp, if_pos hp]
      dsimp only
      split_ifs
      all_goals exact ih k _ _ (by omega) (by omega)
    · cases m with
      | zero =>
        unfold Utf8ToUtf32Loop
        rw [if_neg hp]
      | succ m =>
        unfold Utf8ToUtf32Loop
        rw [if_neg hp, if_neg hp]

theorem high_bit_or (m x : Nat) (hm : m.testBit 7 = true) : 128 ≤ (m ||| x) % 256 := by
  have h : ((m ||| x) % 2 ^ 8).testBit 7 = true := by
    rw [Nat.testBit_mod_two_pow, Nat.testBit_or, hm]
    rfl
  exact Nat.testBit_implies_ge h

theorem ofNat_val (n : Nat) : (Fin.ofNat n : Byte).val = n % 256 := rfl

theorem encodeCodePoint_bytes (cp : Nat) (h : isStripped cp = false) :
    ∀ b ∈ encodeCodePoint cp,
      0x20 ≤ b.val ∧ b.val ≠ 0x7F ∧ b.val ≠ 0x2F ∧ b.val ≠ 0x5C ∧
        (b.val = 0x20 → cp = 0x20) := by
  simp only [isStripped, decide_eq_false_iff_not, not_or, Nat.not_lt] at h
  obtain ⟨h1, h2, h3, h4⟩ := h
  have h80 := fun x => high_bit_or 0x80 x (by decide)
  have hC0 := fun x => high_bit_or 0xC0 x (by decide)
  have hE0 := fun x => high_bit_or 0xE0 x (by decide)
  have hF0 := fun x => high_bit_or 0xF0 x (by decide)
  intro b hb
  unfold encodeCodePoint at hb
  split_ifs at hb with c1 c2 c3
  · rw [List.mem_singleton] at hb
    subst hb
    rw [ofNat_val]
    omega
  all_goals
    simp only [List.mem_cons, List.mem_singleton, List.not_mem_nil, or_false] at hb
    rcases hb with rfl | rfl | rfl | rfl
  all_goals
    rw [ofNat_val]
    have a1 := h80 (cp &&& 0x3F)
    have a2 := h80 ((cp >>> 6) &&& 0x3F)
    have a3 := h80 ((cp >>> 12) &&& 0x3F)
    have a4 := hC0 (cp >>> 6)
    have a5 := hE0 (cp >>> 12)
    have a6 := hF0 (cp >>> 18)
    omega

theorem keptCodePoints_not_stripped (l : List Nat) :
    ∀ c ∈ keptCodePoints l, isStripped c = false := by
  induction l with
  | nil => simp [keptCodePoints]
  | cons a l ih =>
    unfold keptCodePoints
    intro c hc
    split_ifs at hc with h1 h2
    · exact ih c hc
    all_goals
      rcases List.mem_cons.1 hc with rfl | h
      · simpa using h1
      · exact ih c h

theorem Utf32ToUtf8_bytes (l : List Nat) (h : ∀ c ∈ l, isStripped c = false) :
    ∀ b ∈ Utf32ToUtf8 l, 0x20 ≤ b.val ∧ b.val ≠ 0x7F ∧ b.val ≠ 0x2F ∧ b.val ≠ 0x5C := by
  induction l with
  | nil => simp [Utf32ToUtf8]
  | cons a l ih =>
    intro b hb
    unfold Utf32ToUtf8 at hb
    rcases List.mem_append.1 hb with h1 | h1
    · obtain ⟨p1, p2, p3, p4, _⟩ :=
        encodeCodePoint_bytes a (h a (List.mem_cons_self _ _)) b h1
      exact ⟨p1, p2, p3, p4⟩
    · exact ih (fun c hc => h c (List.mem_cons_of_mem _ hc)) b h1

theorem replaceRuns_mem (c : Byte) (r s : List Byte) :
    ∀ b ∈ replaceRuns c r s, (b ∈ s ∧ b ≠ c) ∨ b ∈ r := by
  induction s with
  | nil => simp [replaceRuns]
  | cons a t ih =>
    intro b hb
    unfold replaceRuns at hb
    split_ifs at hb with h1 h2
    · rcases ih b hb with h | h
      · exact Or.inl ⟨List.mem_cons_of_mem _ h.1, h.2⟩
      · exact Or.inr h
    · rcases List.mem_append.1 hb with h | h
      · exact Or.inr h
      · rcases ih b h with h | h
        · exact Or.inl ⟨List.mem_cons_of_mem _ h.1, h.2⟩
        · exact Or.inr h
    · rcases List.mem_cons.1 hb with rfl | h
      · exact Or.inl ⟨List.mem_cons_self _ _, h1⟩
      · rcases ih b h with h | h
        · exact Or.inl ⟨List.mem_cons_of_mem _ h.1, h.2⟩
        · exact Or.inr h

/-- Replacing every run of `c` by one `c` leaves no two adjacent `c`. -/
theorem replaceRuns_chain (c : Byte) (s : List Byte) :
    List.Chain' (fun a b => ¬ (a = c ∧ b = c)) (replaceRuns c [c] s) ∧
      (s.head? ≠ some c → (replaceRuns c [c] s).head? ≠ some c) := by
  induction s with
  | nil => simp [replaceRuns]
  | cons a t ih =>
    obtain ⟨ih1, ih2⟩ := ih
    unfold replaceRuns
    split_ifs with h1 h2
    · exact ⟨ih1, fun h => absurd (by simp [h1]) h⟩
    · refine ⟨?_, fun h => absurd (by simp [h1]) h⟩
      rw [List.singleton_append, List.chain'_cons']
      refine ⟨fun y hy hc => ?_, ih1⟩
      apply ih2 h2
      rw [Option.mem_def] at hy
      rw [hy, hc.2]
    · refine ⟨?_, fun _ => by simpa using h1⟩
      rw [List.chain'_cons']
      exact ⟨fun y _ hc => h1 hc.1, ih1⟩

theorem trimRuns_append (c : Byte) (s : List Byte) :
    ∃ t1 t2, t1 ++ trimRuns c s ++ t2 = s := by
  obtain ⟨t1, h1⟩ := List.dropWhile_suffix (fun b => decide (b = c)) (l := s)
  obtain ⟨t2, h2⟩ := List.dropWhile_suffix (fun b => decide (b = c))
    (l := (s.dropWhile fun b => b = c).reverse)
  refine ⟨t1, t2.reverse, ?_⟩
  unfold trimRuns
  rw [List.append_assoc, ← List.reverse_append, h2, List.reverse_reverse, h1]

theorem trimRuns_subset (c : Byte) (s : List Byte) : ∀ b ∈ trimRuns c s, b ∈ s := by
  obtain ⟨t1, t2, h⟩ := trimRuns_append c s
  intro b hb
  rw [← h]
  exact List.mem_append_left _ (List.mem_append_right _ hb)

theorem trimRuns_chain (c : Byte) (s : List Byte) (R : Byte → Byte → Prop)
    (h : List.Chain' R s) : List.Chain' R (trimRuns c s) := by
  obtain ⟨t1, t2, e⟩ := trimRuns_append c s
  rw [← e] at h
  exact (List.chain'_append.1 (List.chain'_append.1 h).1).2.1

theorem trimRuns_head (c : Byte) (s : List Byte) : (trimRuns c s).head? ≠ some c := by
  have h1 := List.head?_dropWhile_not (fun b => decide (b = c)) s
  obtain ⟨t2, h2⟩ := List.dropWhile_suffix (fun b => decide (b = c))
    (l := (s.dropWhile fun b => b = c).reverse)
  have e : trimRuns c s ++ t2.reverse = s.dropWhile fun b => b = c := by
    unfold trimRuns
    rw [← List.reverse_append, h2, List.reverse_reverse]
  intro hr
  cases hr2 : trimRuns c s with
  | nil =>
    rw [hr2] at hr
    simp at hr
  | cons x r =>
    rw [hr2] at hr e
    rw [← e] at h1
    simp only [List.cons_append, List.head?_cons, decide_eq_false_iff_not] at h1 hr
    exact h1 (Option.some.inj hr)

theorem trimRuns_last (c : Byte) (s : List Byte) : (trimRuns c s).getLast? ≠ some c := by
  unfold trimRuns
  rw [List.getLast?_reverse]
  have h := List.head?_dropWhile_not (fun b => decide (b = c))
    (s.dropWhile fun b => b = c).reverse
  intro hr
  rw [hr] at h
  simp at h

/-- On bytes below 0x80 the loop of `Utf8ToUtf32` takes every byte as its code point. -/
theorem Utf8ToUtf32Loop_ascii (t : List Byte) :
    (∀ b ∈ t, b.val < 0x80) → ∀ (a : List Byte) (fuel : Nat) (out : List Nat),
      t.length ≤ fuel →
      Utf8ToUtf32Loop (a ++ t) fuel a.length out = out ++ t.map fun b => b.val := by
  induction t with
  | nil =>
    intro _ a fuel out _
    rw [List.map_nil, List.append_nil, List.append_nil]
    cases fuel with
    | zero => rfl
    | succ fuel =>
      unfold Utf8ToUtf32Loop
      rw [if_neg (by omega)]
  | cons b t ih =>
    intro hall a fuel out hfuel
    rw [List.length_cons] at hfuel
    obtain ⟨k, rfl⟩ : ∃ k, fuel = k + 1 := ⟨fuel - 1, by omega⟩
    have hb : byteAt (a ++ b :: t) a.length = b.val := by
      have := byteAt_append_right a (b :: t) 0
      rw [Nat.add_zero] at this
      rw [this, byteAt_cons_zero]
    unfold Utf8ToUtf32Loop
    rw [if_pos (by simp), hb]
    dsimp only
    rw [if_pos (hall b (List.mem_cons_self _ _))]
    have := ih (fun c hc => hall c (List.mem_cons_of_mem _ hc)) (a ++ [b]) k (out ++ [b.val])
      (by omega)
    rw [List.append_assoc, List.singleton_append, List.length_append, List.length_singleton]
      at this
    rw [this, List.map_cons, List.append_assoc, List.singleton_append]

theorem Utf8ToUtf32_ascii (s : List Byte) (h : ∀ b ∈ s, b.val < 0x80) :
    Utf8ToUtf32 s = s.map fun b => b.val := by
  have := Utf8ToUtf32Loop_ascii s h [] s.length [] (le_refl _)
  simpa using this

/-- Of a string of control characters, path separators, spaces and underscores nothing
is left. -/
theorem trimRuns_of_removable (s : List Byte)
    (h : ∀ b ∈ s, b.val < 0x20 ∨ b.val = 0x20 ∨ b.val = 0x2F ∨ b.val = 0x5C ∨ b.val = 0x5F ∨
      b.val = 0x7F) :
    trimRuns 0x5F (replaceRuns 0x5F [0x5F] (replaceRuns 0x20 [0x5F]
      (Utf32ToUtf8 (keptCodePoints (Utf8ToUtf32 s))))) = [] := by
  rw [Utf8ToUtf32_ascii s (fun b hb => by have := h b hb; omega)]
  have h1 : ∀ b ∈ Utf32ToUtf8 (keptCodePoints (s.map fun b => b.val)),
      b = (0x20 : Byte) ∨ b = (0x5F : Byte) := by
    clear * - h
    induction s with
    | nil => simp [keptCodePoints, Utf32ToUtf8]
    | cons a t ih =>
      have ha := h a (List.mem_cons_self _ _)
      have iht := ih fun b hb => h b (List.mem_cons_of_mem _ hb)
      rw [List.map_cons]
      unfold keptCodePoints
      by_cases hs : isStripped a.val = true
      · rw [if_pos hs]
        exact iht
      · have h2 : a.val = 0x20 ∨ a.val = 0x5F := by
          simp only [isStripped, decide_eq_true_eq] at hs
          omega
        have h3 : encodeCodePoint a.val = [a] := by
          rcases h2 with e | e <;> rw [e] <;> (apply List.singleton_inj.2; exact Fin.ext e.symm)
        have h4 : a = (0x20 : Byte) ∨ a = (0x5F : Byte) :=
          h2.imp (fun e => Fin.ext e) (fun e => Fin.ext e)
        rw [if_neg hs]
        have key : ∀ b ∈ Utf32ToUtf8 (a.val :: keptCodePoints (t.map fun b => b.val)),
            b = (0x20 : Byte) ∨ b = (0x5F : Byte) := by
          intro b hb
          unfold Utf32ToUtf8 at hb
          rw [h3] at hb
          rcases List.mem_append.1 hb with hb | hb
          · rw [List.mem_singleton.1 hb]
            exact h4
          · exact iht b hb
        split_ifs
        · exact key
        · exact key
  have h2 : ∀ b ∈ replaceRuns 0x5F [0x5F] (replaceRuns 0x20 [0x5F]
      (Utf32ToUtf8 (keptCodePoints (s.map fun b => b.val)))), b = (0x5F : Byte) := by
    intro b hb
    rcases replaceRuns_mem _ _ _ b hb with hb | hb
    · rcases replaceRuns_mem _ _ _ b hb.1 with hb2 | hb2
      · rcases h1 b hb2.1 with e | e
        · exact absurd e hb2.2
        · exact e
      · exact List.mem_singleton.1 hb2
    · exact List.mem_singleton.1 hb
  unfold trimRuns
  have h3 : List.dropWhile (fun b => decide (b = (0x5F : Byte)))
      (replaceRuns 0x5F [0x5F] (replaceRuns 0x20 [0x5F]
        (Utf32ToUtf8 (keptCodePoints (s.map fun b => b.val))))) = [] := by
    rw [List.dropWhile_eq_nil_iff]
    intro b hb
    simpa using h2 b hb
  rw [h3]
  rfl

theorem unnamed_eq : ascii "unnamed" = [0x75, 0x6E, 0x6E, 0x61, 0x6D, 0x65, 0x64] := by
  decide

theorem unnamed_bytes : ∀ b ∈ ascii "unnamed",
    0x20 ≤ b.val ∧ b.val ≠ 0x7F ∧ b.val ≠ 0x2F ∧ b.val ≠ 0x5C ∧ b.val ≠ 0x20 := by
  rw [unnamed_eq]
  intro b hb
  simp only [List.mem_cons, List.mem_singleton, List.not_mem_nil, or_false] at hb
  rcases hb with rfl | rfl | rfl | rfl | rfl | rfl | rfl <;> decide

theorem unnamed_chain :
    List.Chain' (fun a b => ¬ (a = (0x5F : Byte) ∧ b = (0x5F : Byte))) (ascii "unnamed") := by
  rw [unnamed_eq]
  have h : ∀ a b : Byte, a ≠ 0x5F → ¬ (a = (0x5F : Byte) ∧ b = (0x5F : Byte)) :=
    fun a b h hc => h hc.1
  simp only [List.chain'_cons, List.chain'_singleton, and_true]
  exact ⟨h _ _ (by decide), h _ _ (by decide), h _ _ (by decide), h _ _ (by decide),
    h _ _ (by decide), h _ _ (by decide)⟩

/-- C25: for every byte string `SanitizeFileName` produces a result (the decoding loop
exits by its test within `length` iterations), and the result is non-empty, "unnamed" when
the input holds nothing but control characters, path separators, spaces and underscores;
it contains no byte below 0x20, no 0x7F, no '/', no '\' and no space, does not begin or
end with '_', and has no two adjacent '_'. -/
theorem SanitizeFileName_safe (s : List Byte) :
    (∀ fuel, s.length ≤ fuel → Utf8ToUtf32Loop s fuel 0 [] = Utf8ToUtf32 s) ∧
    SanitizeFileName s ≠ [] ∧
    ((∀ b ∈ s, b.val < 0x20 ∨ b.val = 0x20 ∨ b.val = 0x2F ∨ b.val = 0x5C ∨ b.val = 0x5F ∨
        b.val = 0x7F) → SanitizeFileName s = ascii "unnamed") ∧
    (∀ b ∈ SanitizeFileName s,
      0x20 ≤ b.val ∧ b.val ≠ 0x7F ∧ b.val ≠ 0x2F ∧ b.val ≠ 0x5C ∧ b.val ≠ 0x20) ∧
    (SanitizeFileName s).head? ≠ some 0x5F ∧ (SanitizeFileName s).getLast? ≠ some 0x5F ∧
    List.Chain' (fun a b => ¬ (a = (0x5F : Byte) ∧ b = (0x5F : Byte))) (SanitizeFileName s) := by
  have hbytes : ∀ b ∈ trimRuns 0x5F (replaceRuns 0x5F [0x5F] (replaceRuns 0x20 [0x5F]
      (Utf32ToUtf8 (keptCodePoints (Utf8ToUtf32 s))))),
      0x20 ≤ b.val ∧ b.val ≠ 0x7F ∧ b.val ≠ 0x2F ∧ b.val ≠ 0x5C ∧ b.val ≠ 0x20 := by
    intro b hb
    have hb1 := trimRuns_subset _ _ b hb
    have h5F : ∀ x : Byte, x ∈ [(0x5F : Byte)] →
        0x20 ≤ x.val ∧ x.val ≠ 0x7F ∧ x.val ≠ 0x2F ∧ x.val ≠ 0x5C ∧ x.val ≠ 0x20 := by
      intro x hx
      rw [List.mem_singleton.1 hx]
      decide
    rcases replaceRuns_mem _ _ _ b hb1 with h | h
    · rcases replaceRuns_mem _ _ _ b h.1 with h2 | h2
      · obtain ⟨p1, p2, p3, p4⟩ :=
          Utf32ToUtf8_bytes _ (keptCodePoints_not_stripped _) b h2.1
        exact ⟨p1, p2, p3, p4, fun e => h2.2 (Fin.ext e)⟩
      · exact h5F b h2
    · exact h5F b h
  have hchain := trimRuns_chain 0x5F _ _ (replaceRuns_chain 0x5F (replaceRuns 0x20 [0x5F]
    (Utf32ToUtf8 (keptCodePoints (Utf8ToUtf32 s))))).1
  refine ⟨fun fuel hf => Utf8ToUtf32Loop_fuel s fuel s.length 0 [] (by omega) (by omega),
    ?_, ?_, ?_, ?_, ?_, ?_⟩
  · unfold SanitizeFileName
    dsimp only
    split_ifs with h
    · decide
    · exact h
  · intro h
    unfold SanitizeFileName
    dsimp only
    rw [if_pos (trimRuns_of_removable s h)]
  · unfold SanitizeFileName
    dsimp only
    split_ifs with h
    · exact unnamed_bytes
    · exact hbytes
  · unfold SanitizeFileName
    dsimp only
    split_ifs with h
    · decide
    · exact trimRuns_head _ _
  · unfold SanitizeFileName
    dsimp only
    split_ifs with h
    · decide
    · exact trimRuns_last _ _
  · unfold SanitizeFileName
    dsimp only
    split_ifs with h
    · exact unnamed_chain
    · exact hchain

/-- C25 at concrete inputs: of "/", a control character, a space and "_" nothing is left
and the result is "unnamed"; " a/b  _c_ " becomes "ab_c"; the overlong encoding C0 AF of
"/" is removed. -/
theorem SanitizeFileName_safe_witness :
    SanitizeFileName [0x2F, 0x1F, 0x20, 0x5F] = ascii "unnamed" ∧
    (∀ b ∈ SanitizeFileName [0x2F, 0x1F, 0x20, 0x5F],
      0x20 ≤ b.val ∧ b.val ≠ 0x7F ∧ b.val ≠ 0x2F ∧ b.val ≠ 0x5C ∧ b.val ≠ 0x20) ∧
    SanitizeFileName [0x20, 0x61, 0x2F, 0x62, 0x20, 0x20, 0x5F, 0x63, 0x5F, 0x20] =
      [0x61, 0x62, 0x5F, 0x63] ∧
    SanitizeFileName [0x61, 0xC0, 0xAF, 0x62] = [0x61, 0x62] :=
  ⟨(SanitizeFileName_safe [0x2F, 0x1F, 0x20, 0x5F]).2.2.1 (by
      intro b hb
      simp only [List.mem_cons, List.mem_singleton, List.not_mem_nil, or_false] at hb
      rcases hb with rfl | rfl | rfl | rfl <;> decide),
    (SanitizeFileName_safe [0x2F, 0x1F, 0x20, 0x5F]).2.2.2.1, by decide, by decide⟩

/-! ## Decoding and encoding one character -/

theorem and_3F (x : Nat) : x &&& 0x3F = x % 64 := Nat.and_pow_two_sub_one_eq_mod x 6

theorem and_1F (x : Nat) : x &&& 0x1F = x % 32 := Nat.and_pow_two_sub_one_eq_mod x 5

theorem and_0F (x : Nat) : x &&& 0x0F = x % 16 := Nat.and_pow_two_sub_one_eq_mod x 4

theorem and_07 (x : Nat) : x &&& 0x07 = x % 8 := Nat.and_pow_two_sub_one_eq_mod x 3

theorem shl_or (a b i : Nat) (h : b < 2 ^ i) : (a <<< i) ||| b = a * 2 ^ i + b := by
  rw [Nat.shiftLeft_eq, Nat.mul_comm, ← Nat.mul_add_lt_is_or h]

theorem or_80 (x : Nat) (h : x < 64) : 0x80 ||| x = 128 + x := by
  have := shl_or 2 x 6 h
  simpa using this

theorem or_C0 (x : Nat) (h : x < 32) : 0xC0 ||| x = 192 + x := by
  have := shl_or 6 x 5 h
  simpa using this

theorem or_E0 (x : Nat) (h : x < 16) : 0xE0 ||| x = 224 + x := by
  have := shl_or 14 x 4 h
  simpa using this

theorem or_F0 (x : Nat) (h : x < 8) : 0xF0 ||| x = 240 + x := by
  have := shl_or 30 x 3 h
  simpa using this

theorem decode2_eq (c b : Nat) :
    ((c &&& 0x1F) <<< 6) ||| (b &&& 0x3F) = c % 32 * 64 + b % 64 := by
  rw [and_1F, and_3F, shl_or _ _ 6 (show b % 64 < 2 ^ 6 from Nat.mod_lt _ (by decide))]
  rfl

theorem decode3_eq (c b1 b2 : Nat) :
    (((c &&& 0x0F) <<< 12) ||| ((b1 &&& 0x3F) <<< 6)) ||| (b2 &&& 0x3F) =
      c % 16 * 4096 + b1 % 64 * 64 + b2 % 64 := by
  rw [and_0F, and_3F, and_3F, Nat.shiftLeft_eq (b1 % 64) 6,
    shl_or _ _ 12 (by have := Nat.mod_lt b1 (show 0 < 64 by decide); omega)]
  have e : c % 16 * 2 ^ 12 + b1 % 64 * 2 ^ 6 = (c % 16 * 64 + b1 % 64) <<< 6 := by
    rw [Nat.shiftLeft_eq]
    omega
  rw [e, shl_or _ _ 6 (show b2 % 64 < 2 ^ 6 from Nat.mod_lt _ (by decide))]
  omega

theorem decode4_eq (c b1 b2 b3 : Nat) :
    ((((c &&& 0x07) <<< 18) ||| ((b1 &&& 0x3F) <<< 12)) ||| ((b2 &&& 0x3F) <<< 6)) |||
      (b3 &&& 0x3F) = c % 8 * 262144 + b1 % 64 * 4096 + b2 % 64 * 64 + b3 % 64 := by
  rw [and_07, and_3F, and_3F, and_3F, Nat.shiftLeft_eq (b1 % 64) 12,
    Nat.shiftLeft_eq (b2 % 64) 6,
    shl_or _ _ 18 (by have := Nat.mod_lt b1 (show 0 < 64 by decide); omega)]
  have e : c % 8 * 2 ^ 18 + b1 % 64 * 2 ^ 12 = (c % 8 * 64 + b1 % 64) <<< 12 := by
    rw [Nat.shiftLeft_eq]
    omega
  rw [e, shl_or _ _ 12 (by have := Nat.mod_lt b2 (show 0 < 64 by decide); omega)]
  have e2 : (c % 8 * 64 + b1 % 64) * 2 ^ 12 + b2 % 64 * 2 ^ 6 =
      ((c % 8 * 64 + b1 % 64) * 64 + b2 % 64) <<< 6 := by
    rw [Nat.shiftLeft_eq]
    omega
  rw [e2, shl_or _ _ 6 (show b3 % 64 < 2 ^ 6 from Nat.mod_lt _ (by decide))]
  omega

theorem byteAt_mid (a ch b : List Byte) (j : Nat) (hj : j < ch.length) :
    byteAt (a ++ ch ++ b) (a.length + j) = byteAt ch j := by
  rw [List.append_assoc, byteAt_append_right, byteAt_append_left ch b j hj]

theorem byteAt_mid_zero (a ch b : List Byte) (hj : 0 < ch.length) :
    byteAt (a ++ ch ++ b) a.length = byteAt ch 0 := by
  have := byteAt_mid a ch b 0 hj
  rwa [Nat.add_zero] at this

theorem decode_one (a rest : List Byte) (b0 : Byte) (h0 : b0.val < 0x80) (fuel : Nat)
    (out : List Nat) :
    Utf8ToUtf32Loop (a ++ [b0] ++ rest) (fuel + 1) a.length out =
      Utf8ToUtf32Loop (a ++ [b0] ++ rest) fuel (a.length + 1) (out ++ [b0.val]) := by
  have hb : byteAt (a ++ [b0] ++ rest) a.length = b0.val :=
    byteAt_mid_zero a [b0] rest (by simp)
  rw [Utf8ToUtf32Loop]
  rw [if_pos (by simp), hb]
  dsimp only
  rw [if_pos h0]

theorem decode_two (a rest : List Byte) (b0 b1 : Byte)
    (h0 : 0xC0 ≤ b0.val ∧ b0.val ≤ 0xDF) (fuel : Nat) (out : List Nat) :
    Utf8ToUtf32Loop (a ++ [b0, b1] ++ rest) (fuel + 1) a.length out =
      Utf8ToUtf32Loop (a ++ [b0, b1] ++ rest) fuel (a.length + 2)
        (out ++ [b0.val % 32 * 64 + b1.val % 64]) := by
  have hb : byteAt (a ++ [b0, b1] ++ rest) a.length = b0.val :=
    byteAt_mid_zero a [b0, b1] rest (by simp)
  have hb1 : byteAt (a ++ [b0, b1] ++ rest) (a.length + 1) = b1.val :=
    byteAt_mid a [b0, b1] rest 1 (by simp)
  have hlen : (a ++ [b0, b1] ++ rest).length = a.length + 2 + rest.length := by
    simp only [List.length_append, List.length_cons, List.length_nil]
  rw [Utf8ToUtf32Loop]
  rw [if_pos (by omega), hb, hb1, hlen]
  dsimp only
  rw [if_neg (by omega), if_pos ⟨by rw [Nat.shiftRight_eq_div_pow]; omega, by omega⟩,
    decode2_eq]

theorem decode_three (a rest : List Byte) (b0 b1 b2 : Byte)
    (h0 : 0xE0 ≤ b0.val ∧ b0.val ≤ 0xEF) (fuel : Nat) (out : List Nat) :
    Utf8ToUtf32Loop (a ++ [b0, b1, b2] ++ rest) (fuel + 1) a.length out =
      Utf8ToUtf32Loop (a ++ [b0, b1, b2] ++ rest) fuel (a.length + 3)
        (out ++ [b0.val % 16 * 4096 + b1.val % 64 * 64 + b2.val % 64]) := by
  have hb : byteAt (a ++ [b0, b1, b2] ++ rest) a.length = b0.val :=
    byteAt_mid_zero a [b0, b1, b2] rest (by simp)
  have hb1 : byteAt (a ++ [b0, b1, b2] ++ rest) (a.length + 1) = b1.val :=
    byteAt_mid a [b0, b1, b2] rest 1 (by simp)
  have hb2 : byteAt (a ++ [b0, b1, b2] ++ rest) (a.length + 2) = b2.val :=
    byteAt_mid a [b0, b1, b2] rest 2 (by simp)
  have hlen : (a ++ [b0, b1, b2] ++ rest).length = a.length + 3 + rest.length := by
    simp only [List.length_append, List.length_cons, List.length_nil]
  rw [Utf8ToUtf32Loop]
  rw [if_pos (by omega), hb, hb1, hb2, hlen]
  dsimp only
  rw [if_neg (by omega), if_neg (by rw [Nat.shiftRight_eq_div_pow]; omega),
    if_pos ⟨by rw [Nat.shiftRight_eq_div_pow]; omega, by omega⟩, decode3_eq]

theorem decode_four (a rest : List Byte) (b0 b1 b2 b3 : Byte)
    (h0 : 0xF0 ≤ b0.val ∧ b0.val ≤ 0xF7) (fuel : Nat) (out : List Nat) :
    Utf8ToUtf32Loop (a ++ [b0, b1, b2, b3] ++ rest) (fuel + 1) a.length out =
      Utf8ToUtf32Loop (a ++ [b0, b1, b2, b3] ++ rest) fuel (a.length + 4)
        (out ++ [b0.val % 8 * 262144 + b1.val % 64 * 4096 + b2.val % 64 * 64 +
          b3.val % 64]) := by
  have hb : byteAt (a ++ [b0, b1, b2, b3] ++ rest) a.length = b0.val :=
    byteAt_mid_zero a [b0, b1, b2, b3] rest (by simp)
  have hb1 : byteAt (a ++ [b0, b1, b2, b3] ++ rest) (a.length + 1) = b1.val :=
    byteAt_mid a [b0, b1, b2, b3] rest 1 (by simp)
  have hb2 : byteAt (a ++ [b0, b1, b2, b3] ++ rest) (a.length + 2) = b2.val :=
    byteAt_mid a [b0, b1, b2, b3] rest 2 (by simp)
  have hb3 : byteAt (a ++ [b0, b1, b2, b3] ++ rest) (a.length + 3) = b3.val :=
    byteAt_mid a [b0, b1, b2, b3] rest 3 (by simp)
  have hlen : (a ++ [b0, b1, b2, b3] ++ rest).length = a.length + 4 + rest.length := by
    simp only [List.length_append, List.length_cons, List.length_nil]
  rw [Utf8ToUtf32Loop]
  rw [if_pos (by omega), hb, hb1, hb2, hb3, hlen]
  dsimp only
  rw [if_neg (by omega), if_neg (by rw [Nat.shiftRight_eq_div_pow]; omega),
    if_neg (by rw [Nat.shiftRight_eq_div_pow]; omega),
    if_pos ⟨by rw [Nat.shiftRight_eq_div_pow]; omega, by omega⟩, decode4_eq]

theorem byte_eq (b : Byte) (n : Nat) (h : n = b.val) : (Fin.ofNat n : Byte) = b :=
  Fin.ext (by rw [ofNat_val, h]; exact Nat.mod_eq_of_lt b.isLt)

theorem encode_one (b0 : Byte) (h0 : b0.val < 0x80) : encodeCodePoint b0.val = [b0] := by
  unfold encodeCodePoint
  rw [if_pos h0, byte_eq b0 _ rfl]

theorem encode_two (b0 b1 : Byte) (h0 : 0xC2 ≤ b0.val ∧ b0.val ≤ 0xDF)
    (h1 : 0x80 ≤ b1.val ∧ b1.val ≤ 0xBF) :
    encodeCodePoint (b0.val % 32 * 64 + b1.val % 64) = [b0, b1] := by
  have e0 : 0xC0 ||| ((b0.val % 32 * 64 + b1.val % 64) >>> 6) = b0.val := by
    rw [Nat.shiftRight_eq_div_pow, or_C0 _ (by omega)]
    omega
  have e1 : 0x80 ||| ((b0.val % 32 * 64 + b1.val % 64) &&& 0x3F) = b1.val := by
    rw [and_3F, or_80 _ (by omega)]
    omega
  unfold encodeCodePoint
  rw [if_neg (by omega), if_pos (by omega), byte_eq b0 _ e0, byte_eq b1 _ e1]

theorem encode_three (b0 b1 b2 : Byte) (h0 : 0xE0 ≤ b0.val ∧ b0.val ≤ 0xEF)
    (h1 : 0x80 ≤ b1.val ∧ b1.val ≤ 0xBF) (h2 : 0x80 ≤ b2.val ∧ b2.val ≤ 0xBF)
    (hs : b0.val = 0xE0 → 0xA0 ≤ b1.val) :
    encodeCodePoint (b0.val % 16 * 4096 + b1.val % 64 * 64 + b2.val % 64) = [b0, b1, b2] := by
  have e0 : 0xE0 ||| ((b0.val % 16 * 4096 + b1.val % 64 * 64 + b2.val % 64) >>> 12) =
      b0.val := by
    rw [Nat.shiftRight_eq_div_pow, or_E0 _ (by omega)]
    omega
  have e1 : 0x80 ||| (((b0.val % 16 * 4096 + b1.val % 64 * 64 + b2.val % 64) >>> 6) &&&
      0x3F) = b1.val := by
    rw [and_3F, Nat.shiftRight_eq_div_pow, or_80 _ (by omega)]
    omega
  have e2 : 0x80 ||| ((b0.val % 16 * 4096 + b1.val % 64 * 64 + b2.val % 64) &&& 0x3F) =
      b2.val := by
    rw [and_3F, or_80 _ (by omega)]
    omega
  unfold encodeCodePoint
  rw [if_neg (by omega), if_neg (by omega), if_pos (by omega), byte_eq b0 _ e0,
    byte_eq b1 _ e1, byte_eq b2 _ e2]

theorem encode_four (b0 b1 b2 b3 : Byte) (h0 : 0xF0 ≤ b0.val ∧ b0.val ≤ 0xF7)
    (h1 : 0x80 ≤ b1.val ∧ b1.val ≤ 0xBF) (h2 : 0x80 ≤ b2.val ∧ b2.val ≤ 0xBF)
    (h3 : 0x80 ≤ b3.val ∧ b3.val ≤ 0xBF) (hs : b0.val = 0xF0 → 0x90 ≤ b1.val) :
    encodeCodePoint
      (b0.val % 8 * 262144 + b1.val % 64 * 4096 + b2.val % 64 * 64 + b3.val % 64) =
      [b0, b1, b2, b3] := by
  have e0 : 0xF0 ||| ((b0.val % 8 * 262144 + b1.val % 64 * 4096 + b2.val % 64 * 64 +
      b3.val % 64) >>> 18) = b0.val := by
    rw [Nat.shiftRight_eq_div_pow, or_F0 _ (by omega)]
    omega
  have e1 : 0x80 ||| (((b0.val % 8 * 262144 + b1.val % 64 * 4096 + b2.val % 64 * 64 +
      b3.val % 64) >>> 12) &&& 0x3F) = b1.val := by
    rw [and_3F, Nat.shiftRight_eq_div_pow, or_80 _ (by omega)]
    omega
  have e2 : 0x80 ||| (((b0.val % 8 * 262144 + b1.val % 64 * 4096 + b2.val % 64 * 64 +
      b3.val % 64) >>> 6) &&& 0x3F) = b2.val := by
    rw [and_3F, Nat.shiftRight_eq_div_pow, or_80 _ (by omega)]
    omega
  have e3 : 0x80 ||| ((b0.val % 8 * 262144 + b1.val % 64 * 4096 + b2.val % 64 * 64 +
      b3.val % 64) &&& 0x3F) = b3.val := by
    rw [and_3F, or_80 _ (by omega)]
    omega
  unfold encodeCodePoint
  rw [if_neg (by omega), if_neg (by omega), if_neg (by omega), byte_eq b0 _ e0,
    byte_eq b1 _ e1, byte_eq b2 _ e2, byte_eq b3 _ e3]

theorem leadLength_cases (c n : Nat) (h : leadLength c = n + 1) :
    (n = 0 ∧ c < 0x80) ∨ (n = 1 ∧ 0xC0 ≤ c ∧ c ≤ 0xDF) ∨ (n = 2 ∧ 0xE0 ≤ c ∧ c ≤ 0xEF) ∨
      (n = 3 ∧ 0xF0 ≤ c ∧ c ≤ 0xF7) := by
  unfold leadLength at h
  split_ifs at h <;> omega

/-- One character in shortest form is decoded by one iteration of the loop of
`Utf8ToUtf32` to a code point that `Utf32ToUtf8` encodes as the same bytes; the code point
is a control character or a path separator only when the character is that one byte. -/
theorem decode_char (ch : List Byte) (hch : IsShortestUtf8Char ch) :
    ∃ cp, (∀ (a rest : List Byte) (fuel : Nat) (out : List Nat),
        Utf8ToUtf32Loop (a ++ ch ++ rest) (fuel + 1) a.length out =
          Utf8ToUtf32Loop (a ++ ch ++ rest) fuel (a.length + ch.length) (out ++ [cp])) ∧
      encodeCodePoint cp = ch ∧
      (isStripped cp = true →
        ∃ b ∈ ch, b.val < 0x20 ∨ b.val = 0x2F ∨ b.val = 0x5C ∨ b.val = 0x7F) := by
  obtain ⟨hshape, hshort⟩ := hch
  rcases ch with _ | ⟨b0, _ | ⟨b1, _ | ⟨b2, _ | ⟨b3, _ | ⟨b4, t⟩⟩⟩⟩⟩
  · exact hshape.elim
  · obtain ⟨hl, _⟩ := hshape
    have h0 : b0.val < 0x80 := by
      rcases leadLength_cases _ _ hl with h | h | h | h <;> (simp at h; try omega)
    refine ⟨b0.val, fun a rest fuel out => decode_one a rest b0 h0 fuel out,
      encode_one b0 h0, fun hs => ⟨b0, List.mem_singleton_self _, ?_⟩⟩
    simpa [isStripped] using hs
  · obtain ⟨hl, hc⟩ := hshape
    have h0 : 0xC0 ≤ b0.val ∧ b0.val ≤ 0xDF := by
      rcases leadLength_cases _ _ hl with h | h | h | h <;> (simp at h; try omega)
    have h1 : IsContinuation b1.val := hc b1 (by simp)
    unfold IsContinuation at h1
    dsimp only at hshort
    refine ⟨_, fun a rest fuel out => decode_two a rest b0 b1 h0 fuel out,
      encode_two b0 b1 ⟨hshort, h0.2⟩ h1, fun hs => ?_⟩
    simp only [isStripped, decide_eq_true_eq] at hs
    omega
  · obtain ⟨hl, hc⟩ := hshape
    have h0 : 0xE0 ≤ b0.val ∧ b0.val ≤ 0xEF := by
      rcases leadLength_cases _ _ hl with h | h | h | h <;> (simp at h; try omega)
    have h1 : IsContinuation b1.val := hc b1 (by simp)
    have h2 : IsContinuation b2.val := hc b2 (by simp)
    unfold IsContinuation at h1 h2
    dsimp only at hshort
    refine ⟨_, fun a rest fuel out => decode_three a rest b0 b1 b2 h0 fuel out,
      encode_three b0 b1 b2 h0 h1 h2 hshort, fun hs => ?_⟩
    simp only [isStripped, decide_eq_true_eq] at hs
    omega
  · obtain ⟨hl, hc⟩ := hshape
    have h0 : 0xF0 ≤ b0.val ∧ b0.val ≤ 0xF7 := by
      rcases leadLength_cases _ _ hl with h | h | h | h <;> (simp at h; try omega)
    have h1 : IsContinuation b1.val := hc b1 (by simp)
    have h2 : IsContinuation b2.val := hc b2 (by simp)
    have h3 : IsContinuation b3.val := hc b3 (by simp)
    unfold IsContinuation at h1 h2 h3
    dsimp only at hshort
    refine ⟨_, fun a rest fuel out => decode_four a rest b0 b1 b2 b3 h0 fuel out,
      encode_four b0 b1 b2 b3 h0 h1 h2 h3 hshort, fun hs => ?_⟩
    simp only [isStripped, decide_eq_true_eq] at hs
    omega
  · obtain ⟨hl, _⟩ := hshape
    rcases leadLength_cases _ _ hl with h | h | h | h <;> simp at h

/-- On a sequence of characters in shortest form `Utf8ToUtf32` yields code points that
`Utf32ToUtf8` encodes as the same bytes, and none of them is stripped unless a byte of the
input is a control character or a path separator. -/
theorem Utf8ToUtf32Loop_shortest (chars : List (List Byte)) :
    (∀ ch ∈ chars, IsShortestUtf8Char ch) → ∀ (a : List Byte) (fuel : Nat) (out : List Nat),
      chars.flatten.length ≤ fuel →
      ∃ cps, Utf8ToUtf32Loop (a ++ chars.flatten) fuel a.length out = out ++ cps ∧
        Utf32ToUtf8 cps = chars.flatten ∧
        ((∀ b ∈ chars.flatten,
            ¬ (b.val < 0x20 ∨ b.val = 0x2F ∨ b.val = 0x5C ∨ b.val = 0x7F)) →
          keptCodePoints cps = cps) := by
  induction chars with
  | nil =>
    intro _ a fuel out _
    refine ⟨[], ?_, rfl, fun _ => rfl⟩
    rw [List.append_nil]
    cases fuel with
    | zero => rfl
    | succ fuel =>
      unfold Utf8ToUtf32Loop
      rw [if_neg (by simp)]
  | cons ch chars ih =>
    intro hall a fuel out hfuel
    have hch : IsShortestUtf8Char ch := hall ch (List.mem_cons_self _ _)
    have hlen := hch.1.length_pos
    rw [List.flatten_cons, List.length_append] at hfuel
    obtain ⟨k, rfl⟩ : ∃ k, fuel = k + 1 := ⟨fuel - 1, by omega⟩
    obtain ⟨cp, hstep, henc, hstrip⟩ := decode_char ch hch
    obtain ⟨cps, hloop, hcps, hkept⟩ :=
      ih (fun c hc => hall c (List.mem_cons_of_mem _ hc)) (a ++ ch) k (out ++ [cp]) (by omega)
    refine ⟨cp :: cps, ?_, ?_, fun hsafe => ?_⟩
    · rw [List.flatten_cons, ← List.append_assoc, hstep, ← List.length_append, hloop,
        List.append_assoc, List.singleton_append]
    · rw [Utf32ToUtf8, henc, hcps, List.flatten_cons]
    · have hns : ¬ isStripped cp = true := by
        intro hs
        obtain ⟨b, hb, hbad⟩ := hstrip hs
        exact hsafe b (by rw [List.flatten_cons]; exact List.mem_append_left _ hb) hbad
      have hrest := hkept fun b hb =>
        hsafe b (by rw [List.flatten_cons]; exact List.mem_append_right _ hb)
      unfold keptCodePoints
      rw [if_neg hns, hrest]
      split_ifs <;> rfl

theorem replaceRuns_of_not_mem (c : Byte) (r s : List Byte) (h : c ∉ s) :
    replaceRuns c r s = s := by
  induction s with
  | nil => rfl
  | cons a t ih =>
    rw [List.mem_cons, not_or] at h
    unfold replaceRuns
    rw [if_neg (fun e => h.1 e.symm), ih h.2]

theorem dropWhile_of_not_mem (c : Byte) (s : List Byte) (h : c ∉ s) :
    (s.dropWhile fun b => b = c) = s := by
  cases s with
  | nil => rfl
  | cons a t =>
    rw [List.mem_cons, not_or] at h
    rw [List.dropWhile_cons_of_neg]
    simpa using fun e => h.1 e.symm

theorem trimRuns_of_not_mem (c : Byte) (s : List Byte) (h : c ∉ s) : trimRuns c s = s := by
  unfold trimRuns
  rw [dropWhile_of_not_mem c s h, dropWhile_of_not_mem c s.reverse (by simpa using h),
    List.reverse_reverse]

theorem sampleName_wellFormed :
    WellFormed IsShortestUtf8Char
      [0xE4, 0xB8, 0xAD, 0xC3, 0xA9, 0xF0, 0x9F, 0x98, 0x80, 0x61] := by
  refine ⟨[[0xE4, 0xB8, 0xAD], [0xC3, 0xA9], [0xF0, 0x9F, 0x98, 0x80], [0x61]], ?_, rfl⟩
  intro ch hch
  simp only [List.mem_cons, List.mem_singleton, List.not_mem_nil, or_false] at hch
  rcases hch with rfl | rfl | rfl | rfl
  all_goals
    refine ⟨?_, ?_⟩
    · simp [IsUtf8Char, leadLength, IsContinuation]
      try decide
    · simp
      try decide

/-- C26: on a well-formed UTF-8 string, that is a sequence of characters in shortest form,
`Utf32ToUtf8(Utf8ToUtf32(s)) = s`; when the string is non-empty and contains no control
character (below 0x20 or 0x7F), no '/', no '\', no space and no '_', `SanitizeFileName`
returns it unchanged byte for byte. -/
theorem SanitizeFileName_passes (s : List Byte) (hwf : WellFormed IsShortestUtf8Char s) :
    Utf32ToUtf8 (Utf8ToUtf32 s) = s ∧
    (s ≠ [] →
      (∀ b ∈ s, 0x20 ≤ b.val ∧ b.val ≠ 0x7F ∧ b.val ≠ 0x2F ∧ b.val ≠ 0x5C ∧ b.val ≠ 0x20 ∧
        b.val ≠ 0x5F) →
      SanitizeFileName s = s) := by
  obtain ⟨chars, hchars, rfl⟩ := hwf
  obtain ⟨cps, hloop, hcps, hkept⟩ :=
    Utf8ToUtf32Loop_shortest chars hchars [] chars.flatten.length [] (le_refl _)
  have hdec : Utf8ToUtf32 chars.flatten = cps := by
    unfold Utf8ToUtf32
    simpa using hloop
  refine ⟨by rw [hdec, hcps], fun hne hsafe => ?_⟩
  have hk := hkept fun b hb hbad => by
    have := hsafe b hb
    omega
  have h20 : (0x20 : Byte) ∉ chars.flatten := fun hm => (hsafe _ hm).2.2.2.2.1 rfl
  have h5F : (0x5F : Byte) ∉ chars.flatten := fun hm => (hsafe _ hm).2.2.2.2.2 rfl
  unfold SanitizeFileName
  dsimp only
  rw [hdec, hk, hcps, replaceRuns_of_not_mem _ _ _ h20, replaceRuns_of_not_mem _ _ _ h5F,
    trimRuns_of_not_mem _ _ h5F, if_neg hne]

/-- C26 at a concrete input: the bytes of U+4E2D, U+00E9, U+1F600 and "a" come back
unchanged. -/
theorem SanitizeFileName_passes_witness :
    WellFormed IsShortestUtf8Char [0xE4, 0xB8, 0xAD, 0xC3, 0xA9, 0xF0, 0x9F, 0x98, 0x80, 0x61] ∧
    Utf32ToUtf8 (Utf8ToUtf32 [0xE4, 0xB8, 0xAD, 0xC3, 0xA9, 0xF0, 0x9F, 0x98, 0x80, 0x61]) =
      [0xE4, 0xB8, 0xAD, 0xC3, 0xA9, 0xF0, 0x9F, 0x98, 0x80, 0x61] ∧
    Utf8ToUtf32 [0xE4, 0xB8, 0xAD, 0xC3, 0xA9, 0xF0, 0x9F, 0x98, 0x80, 0x61] =
      [0x4E2D, 0xE9, 0x1F600, 0x61] ∧
    SanitizeFileName [0xE4, 0xB8, 0xAD, 0xC3, 0xA9, 0xF0, 0x9F, 0x98, 0x80, 0x61] =
      [0xE4, 0xB8, 0xAD, 0xC3, 0xA9, 0xF0, 0x9F, 0x98, 0x80, 0x61] :=
  ⟨sampleName_wellFormed,
    (SanitizeFileName_passes _ sampleName_wellFormed).1, by decide,
    (SanitizeFileName_passes _ sampleName_wellFormed).2 (by decide) (by
      intro b hb
      simp only [List.mem_cons, List.mem_singleton, List.not_mem_nil, or_false] at hb
      rcases hb with rfl | rfl | rfl | rfl | rfl | rfl | rfl | rfl | rfl | rfl <;> decide)⟩

end Idntag
